import Mathlib

/-!
# Chained hash table (`src/02_data_structures/11_hash_table_chaining.c`)

A shallow embedding of the hash table of the exercise and proofs about it.

Modelling conventions.

* A C string is the list of its bytes before the terminating NUL, every byte a
  natural number in `1..255` (`is_c_string`).  `strcmp(a, b) == 0` is equality of the
  lists, `strncpy(dst, src, n)` followed by `dst[n] = 0` keeps the first `n` bytes.
* A chain (`Node *` linked through `next`, ended by `NULL`) is the list of its nodes from
  head to tail; the bucket array (`Node **`) is the list of its chains.
* `HashTable *ht` is passed in and the updated table is returned next to the `Status`.
* The outcome of each `malloc`/`calloc` is an explicit argument (`true`: a block is
  returned, `false`: `NULL`).
* `int` is 32 bits and `unsigned int` is 32 bits, `char` is signed (x86_64 GNU/Linux, as
  the file header states).  The doubling of the capacity and the arithmetic of the hash
  function wrap explicitly.  `count` only ever moves by one per live node and is kept as
  an integer.
* A `double` is the rational it denotes; the one division of `run_stats` is rounded to
  binary64 (round to nearest, ties to even).
* The console layer (`run_insert`, `handle_error`) returns the list of the lines it prints.
* Termination is studied on a second model (`Mem`), where the nodes lie in a heap, are
  linked by the addresses in `next` (`0` is `NULL`) and every loop has a budget of
  iterations; its operations are proved to return what the operations on lists return.
-/

set_option maxRecDepth 100000

namespace HashTableChaining

/-! ## Machine integers -/

/-- Conversion of an `int` to `unsigned int` (reduction modulo `2^32`). -/
def to_unsigned (x : Int) : Nat := (x % 4294967296).toNat

/-- Conversion of an `unsigned int` to `int` (two's complement). -/
def to_int (n : Nat) : Int :=
  if n % 4294967296 < 2147483648 then ((n % 4294967296 : Nat) : Int)
  else ((n % 4294967296 : Nat) : Int) - 4294967296

/-- Result of an `int` operation whose mathematical value is `x` (two's complement wrap). -/
def wrap_int (x : Int) : Int := to_int (to_unsigned x)

/-- The values an `int` can hold. -/
def is_int (x : Int) : Prop := -2147483648 ≤ x ∧ x ≤ 2147483647

instance (x : Int) : Decidable (is_int x) := by unfold is_int; infer_instance

/-! ## Data model -/

/-- The `Status` enumeration. -/
inductive Status where
  | SUCCESS
  | ERR_INVALID_INPUT
  | ERR_INVALID_OPTION
  | ERR_MEMORY_ALLOCATION
  | ERR_KEY_NOT_FOUND
deriving DecidableEq, Repr

open Status

def INITIAL_CAPACITY : Int := 10

def MAX_KEY_LEN : Nat := 64

/-- A C string: no NUL byte, every element a byte. -/
def is_c_string (s : List Nat) : Prop := ∀ b ∈ s, 0 < b ∧ b < 256

instance (s : List Nat) : Decidable (is_c_string s) := by unfold is_c_string; infer_instance

/-- A `Node` without its `next` link: the link is the position in the chain. -/
structure Node where
  key : List Nat
  value : Int
deriving DecidableEq, Repr

/-- The `HashTable` structure. -/
structure HashTable where
  buckets : List (List Node)
  capacity : Int
  count : Int
deriving DecidableEq, Repr

/-- The read `buckets[idx]`. -/
def bucket_at (buckets : List (List Node)) (idx : Int) : List Node :=
  buckets.getD idx.toNat []

/-- The write `buckets[idx] = chain`. -/
def set_bucket (buckets : List (List Node)) (idx : Int) (chain : List Node) :
    List (List Node) :=
  buckets.set idx.toNat chain

/-- The call `calloc(n, sizeof(Node *))` with an `int` count: `NULL` when the allocator
gives up or when the count, converted to `size_t`, is that of a negative `int` (the byte
size overflows); otherwise `n` zeroed head pointers. -/
def calloc_buckets (n : Int) (calloc_ok : Bool) : Option (List (List Node)) :=
  if calloc_ok = true ∧ 0 ≤ n then some (List.replicate n.toNat []) else none

/-! ## Operations -/

/-- The function `init_table`. -/
def init_table (capacity : Int) (calloc_ok : Bool) : Status × HashTable :=
  match calloc_buckets capacity calloc_ok with
  | none => (ERR_MEMORY_ALLOCATION, { buckets := [], capacity := capacity, count := 0 })
  | some buckets => (SUCCESS, { buckets := buckets, capacity := capacity, count := 0 })

/-- The conversion `(unsigned int)key[i]` of a signed `char` holding byte `b`. -/
def char_to_unsigned (b : Nat) : Nat :=
  if b < 128 then b else b + 4294967296 - 256

/-- The loop of `hash_function`, `sum` being the accumulator. -/
def hash_sum : List Nat → Nat → Nat
  | [], sum => sum
  | b :: rest, sum => hash_sum rest ((sum + char_to_unsigned b) % 4294967296)

/-- The function `hash_function`: `sum % capacity` is computed in `unsigned int` and
returned as `int`. -/
def hash_function (key : List Nat) (capacity : Int) : Int :=
  to_int (hash_sum key 0 % to_unsigned capacity)

/-- First loop of `insert`: walk the chain, overwrite the value of the first node whose key
equals `key`; `none` when the walk reaches `NULL`. -/
def insert_walk (key : List Nat) (value : Int) : List Node → Option (List Node)
  | [] => none
  | current :: next =>
    if current.key = key then some ({ current with value := value } :: next)
    else (insert_walk key value next).map (fun rest => current :: rest)

/-- Linking of `new_node` in `insert`: head of an empty bucket, else after the tail. -/
def append_tail (new_node : Node) : List Node → List Node
  | [] => [new_node]
  | tail :: rest => tail :: append_tail new_node rest

/-- The function `insert`; `malloc_ok` is the outcome of its `malloc`, when reached. -/
def insert (ht : HashTable) (key : List Nat) (value : Int) (malloc_ok : Bool) :
    Status × HashTable :=
  let idx := hash_function key ht.capacity
  match insert_walk key value (bucket_at ht.buckets idx) with
  | some chain => (SUCCESS, { ht with buckets := set_bucket ht.buckets idx chain })
  | none =>
    if malloc_ok = false then (ERR_MEMORY_ALLOCATION, ht)
    else
      let new_node : Node := { key := key.take (MAX_KEY_LEN - 1), value := value }
      (SUCCESS,
        { ht with
          buckets := set_bucket ht.buckets idx (append_tail new_node (bucket_at ht.buckets idx))
          count := ht.count + 1 })

/-- Loop of `search`; `value` is the content of `*value` before the call. -/
def search_walk (key : List Nat) (value : Int) : List Node → Status × Int
  | [] => (ERR_KEY_NOT_FOUND, value)
  | current :: next =>
    if current.key = key then (SUCCESS, current.value) else search_walk key value next

/-- The function `search`: the status and the content of `*value` after the call. -/
def search (ht : HashTable) (key : List Nat) (value : Int) : Status × Int :=
  search_walk key value (bucket_at ht.buckets (hash_function key ht.capacity))

/-- Loop of `delete_key`: unlink the first node whose key equals `key`; `none` when the
walk reaches `NULL`. -/
def delete_walk (key : List Nat) : List Node → Option (List Node)
  | [] => none
  | current :: next =>
    if current.key = key then some next
    else (delete_walk key next).map (fun rest => current :: rest)

/-- The function `delete_key`. -/
def delete_key (ht : HashTable) (key : List Nat) : Status × HashTable :=
  let idx := hash_function key ht.capacity
  match delete_walk key (bucket_at ht.buckets idx) with
  | some chain =>
    (SUCCESS, { ht with buckets := set_bucket ht.buckets idx chain, count := ht.count - 1 })
  | none => (ERR_KEY_NOT_FOUND, ht)

/-- Inner loop of `rehash_table` over one old chain.  `malloc_ok n` is the outcome of the
`malloc` of the `n`-th `insert` still to come; the status of `insert` is dropped, as in
the source. -/
def migrate_chain : List Node → HashTable → (Nat → Bool) → HashTable × (Nat → Bool)
  | [], ht, malloc_ok => (ht, malloc_ok)
  | curr :: next, ht, malloc_ok =>
    migrate_chain next (insert ht curr.key curr.value (malloc_ok 0)).2
      (fun n => malloc_ok (n + 1))

/-- Outer loop of `rehash_table`, `i` running over the indices still to visit. -/
def migrate_buckets (old_buckets : List (List Node)) :
    List Nat → HashTable → (Nat → Bool) → HashTable × (Nat → Bool)
  | [], ht, malloc_ok => (ht, malloc_ok)
  | i :: rest, ht, malloc_ok =>
    let st := migrate_chain (bucket_at old_buckets (i : Int)) ht malloc_ok
    migrate_buckets old_buckets rest st.1 st.2

/-- The function `rehash_table`. -/
def rehash_table (ht : HashTable) (calloc_ok : Bool) (malloc_ok : Nat → Bool) :
    Status × HashTable :=
  let old_capacity := ht.capacity
  let old_buckets := ht.buckets
  let new_capacity := wrap_int (old_capacity * 2)
  match calloc_buckets new_capacity calloc_ok with
  | none => (ERR_MEMORY_ALLOCATION, ht)
  | some new_buckets =>
    (SUCCESS,
      (migrate_buckets old_buckets (List.range old_capacity.toNat)
        { buckets := new_buckets, capacity := new_capacity, count := 0 } malloc_ok).1)

/-! ## Observations on a table -/

/-- All entries of the table, found by walking the chain of every bucket in turn. -/
def entries (ht : HashTable) : List Node := ht.buckets.flatten

/-- Number of entries found by walking the chains of all buckets. -/
def total_entries (ht : HashTable) : Int := ((entries ht).length : Int)

/-- Some entry of the table has key `key`. -/
def present (ht : HashTable) (key : List Nat) : Prop := key ∈ (entries ht).map Node.key

instance (ht : HashTable) (key : List Nat) : Decidable (present ht key) := by
  unfold present; infer_instance

/-- One call of the interface, with the outcome of the allocations it may perform. -/
inductive Call where
  | insert (key : List Nat) (value : Int) (malloc_ok : Bool)
  | delete_key (key : List Nat)
  | rehash_table (calloc_ok : Bool) (malloc_ok : Nat → Bool)

/-- Status and table after one call. -/
def Call.run (ht : HashTable) : Call → Status × HashTable
  | Call.insert key value malloc_ok => HashTableChaining.insert ht key value malloc_ok
  | Call.delete_key key => HashTableChaining.delete_key ht key
  | Call.rehash_table calloc_ok malloc_ok =>
    HashTableChaining.rehash_table ht calloc_ok malloc_ok

/-- Keys handed to `insert` by a call satisfy `P`. -/
def Call.keys_ok (P : List Nat → Prop) : Call → Prop
  | Call.insert key _ _ => P key
  | _ => True

/-- Tables obtained from a successful `init_table` with a positive `int` capacity by
`insert`, `delete_key` and `rehash_table` calls, whatever their allocations do, the keys
given to `insert` satisfying `P`. -/
inductive ReachableWith (P : List Nat → Prop) : HashTable → Prop where
  | init (capacity : Int) (hpos : 0 < capacity) (hint : is_int capacity) :
      ReachableWith P (init_table capacity true).2
  | step (ht : HashTable) (c : Call) (hr : ReachableWith P ht) (hk : c.keys_ok P) :
      ReachableWith P (c.run ht).2

/-- Tables reachable with arbitrary keys. -/
def Reachable (ht : HashTable) : Prop := ReachableWith (fun _ => True) ht

/-- Tables reachable with keys of at most 63 bytes (what `read_string` delivers). -/
def Reachable63 (ht : HashTable) : Prop := ReachableWith (fun k => k.length ≤ 63) ht

/-! ## Statistics -/

/-- The counters `used_buckets`, `collisions` and `max_chain` of `run_stats`. -/
structure Stats where
  used_buckets : Int
  collisions : Int
  max_chain : Int
deriving DecidableEq, Repr

/-- The loop `while (curr) { chain_len++; curr = curr->next; }` of `run_stats`. -/
def chain_len_walk : List Node → Int → Int
  | [], chain_len => chain_len
  | _ :: next, chain_len => chain_len_walk next (chain_len + 1)

/-- Body of the `for` loop of `run_stats` at bucket `i`. -/
def run_stats_bucket (buckets : List (List Node)) (st : Stats) (i : Nat) : Stats :=
  if bucket_at buckets (i : Int) ≠ [] then
    let chain_len := chain_len_walk (bucket_at buckets (i : Int)) 0
    { used_buckets := st.used_buckets + 1
      collisions := if chain_len > 1 then st.collisions + (chain_len - 1) else st.collisions
      max_chain := if chain_len > st.max_chain then chain_len else st.max_chain }
  else st

/-- The counters of `run_stats` after its `for` loop over `i = 0 .. capacity - 1`. -/
def run_stats_loop (ht : HashTable) : Stats :=
  (List.range ht.capacity.toNat).foldl (run_stats_bucket ht.buckets) ⟨0, 0, 0⟩

/-- Length of the chain of bucket `i`, as an integer. -/
def chain_length (ht : HashTable) (i : Nat) : Int :=
  ((bucket_at ht.buckets (i : Int)).length : Int)

/-- The spec's collisions: sum over the buckets of `max(chain_length - 1, 0)`. -/
def collisions_spec (ht : HashTable) : Int :=
  ((List.range ht.capacity.toNat).map (fun i : Nat => max (chain_length ht i - 1) 0)).sum

/-- The spec's longest chain: maximum of the chain lengths over the buckets, `0` when
there is no bucket. -/
def longest_chain_spec (ht : HashTable) : Int :=
  ((List.range ht.capacity.toNat).map (fun i : Nat => chain_length ht i)).foldr max 0

/-- The spec's used buckets: number of buckets with a non-empty chain. -/
def used_buckets_spec (ht : HashTable) : Int :=
  (((List.range ht.capacity.toNat).filter
    (fun i : Nat => decide (bucket_at ht.buckets (i : Int) ≠ []))).length : Int)

/-! ## Invariants -/

/-- The node written by the overwrite branch of `insert`. -/
def overwrite (k : List Nat) (v : Int) (n : Node) : Node :=
  if n.key = k then { n with value := v } else n

/-- The table is well formed: the capacity is a positive `int`, the bucket array has
`capacity` slots and `count` is the number of entries in the chains. -/
structure WF (ht : HashTable) : Prop where
  cap_pos : 0 < ht.capacity
  cap_int : ht.capacity ≤ 2147483647
  len : ht.buckets.length = ht.capacity.toNat
  count_eq : ht.count = total_entries ht

/-- Well-formed table whose chains hold each key once, in the bucket its hash selects, no
stored key being longer than 63 bytes. -/
structure WF63 (ht : HashTable) : Prop where
  wf : WF ht
  placed : ∀ (i : Nat) (k : List Nat), k ∈ (ht.buckets.getD i []).map Node.key →
    hash_function k ht.capacity = (i : Int)
  short : ∀ (i : Nat) (k : List Nat), k ∈ (ht.buckets.getD i []).map Node.key →
    k.length ≤ 63
  nodup : ∀ i : Nat, ((ht.buckets.getD i []).map Node.key).Nodup

/-! ## Sample keys and tables -/

/-- The key `"cat"`. -/
def key_cat : List Nat := [99, 97, 116]

/-- The key `"act"`. -/
def key_act : List Nat := [97, 99, 116]

/-- The key `"x"`. -/
def key_x : List Nat := [120]

/-- The table of `main` right after `init_table(&ht, INITIAL_CAPACITY)`. -/
def table_empty : HashTable := (init_table INITIAL_CAPACITY true).2

/-- The table after `insert("cat", 1)`. -/
def table_cat : HashTable := (insert table_empty key_cat 1 true).2

/-- The table after `insert("cat", 1)` and `insert("act", 2)`. -/
def table_cat_act : HashTable := (insert table_cat key_act 2 true).2

/-- A key of 63 bytes: 63 times `'a'`. -/
def key_a63 : List Nat := List.replicate 63 97

/-- A key of 64 bytes: 63 times `'a'`, then `'b'`. -/
def key_a63b : List Nat := List.replicate 63 97 ++ [98]

/-- The table after `init_table(&ht, 10)` and `insert` of the 64-byte key `key_a63b`. -/
def table_long : HashTable := (insert table_empty key_a63b 1 true).2

/-! ## Functional rebuild -/

/-- The entries of the table enumerated by bucket index `0 .. capacity - 1` and, within a
bucket, from chain head to tail. -/
def entries_by_index (ht : HashTable) : List Node :=
  ((List.range ht.capacity.toNat).map (fun i : Nat => bucket_at ht.buckets (i : Int))).flatten

/-- The spec's functional rebuild: an empty table of capacity `2c` into which the entries
of the table are inserted one by one, no allocation failing. -/
def rebuild (ht : HashTable) : HashTable :=
  (entries_by_index ht).foldl (fun t e => (insert t e.key e.value true).2)
    (init_table (2 * ht.capacity) true).2

/-! ## Console layer: `run_insert` -/

/-- The lines `run_insert` and `handle_error` print, one constructor per `printf`. -/
inductive Message where
  | prompt_key
  | prompt_value
  | hash_line (key : List Nat) (idx : Int)
  | collision (idx : Int)
  | inserted_into_chain
  | inserted_at (idx : Int)
  | error (status : Status)
deriving DecidableEq, Repr

/-- The function `handle_error`: one line per error status, nothing for `SUCCESS`. -/
def handle_error (status : Status) : List Message :=
  match status with
  | SUCCESS => []
  | s => [Message.error s]

/-- The function `run_insert`.  `key` is what `read_string` delivers, `value` what
`read_integer` delivers (`none` when it returns `ERR_INVALID_INPUT`), `malloc_ok` the outcome
of the `malloc` of `insert`.  Returned: the lines printed, in order, and the table. -/
def run_insert (ht : HashTable) (key : List Nat) (value : Option Int) (malloc_ok : Bool) :
    List Message × HashTable :=
  match value with
  | none =>
    ([Message.prompt_key, Message.prompt_value] ++ handle_error ERR_INVALID_INPUT, ht)
  | some value =>
    let idx := hash_function key ht.capacity
    let diagnostic :=
      if bucket_at ht.buckets idx ≠ [] then
        [Message.collision idx, Message.inserted_into_chain]
      else [Message.inserted_at idx]
    let result := insert ht key value malloc_ok
    ([Message.prompt_key, Message.prompt_value, Message.hash_line key idx] ++ diagnostic ++
      handle_error result.1, result.2)

/-! ## Abstract map -/

/-- The abstract key-to-value map of the spec: a finite map from keys to values. -/
abbrev AbstractMap := AList (fun _ : List Nat => Int)

/-- One call on the abstract map: insert = set, delete = erase, rehash = no change. -/
def Call.apply_map (m : AbstractMap) : Call → AbstractMap
  | Call.insert key value _ => AList.insert key value m
  | Call.delete_key key => AList.erase key m
  | Call.rehash_table _ _ => m

/-- The call is given a key of at most 63 bytes and none of its allocations fails. -/
def Call.no_failure63 : Call → Prop
  | Call.insert key _ malloc_ok => key.length ≤ 63 ∧ malloc_ok = true
  | Call.delete_key _ => True
  | Call.rehash_table calloc_ok malloc_ok => calloc_ok = true ∧ ∀ n, malloc_ok n = true

/-- The table after a sequence of calls. -/
def run_calls (ht : HashTable) (calls : List Call) : HashTable :=
  calls.foldl (fun t c => (c.run t).2) ht

/-- The abstract map after the same sequence of calls. -/
def run_map (m : AbstractMap) (calls : List Call) : AbstractMap :=
  calls.foldl Call.apply_map m

/-- What `search` has to return according to the abstract map. -/
def lookup_result (m : AbstractMap) (k : List Nat) (v0 : Int) : Status × Int :=
  match AList.lookup k m with
  | some v => (SUCCESS, v)
  | none => (ERR_KEY_NOT_FOUND, v0)

/-- The table holds what the abstract map holds. -/
structure Refines (ht : HashTable) (m : AbstractMap) : Prop where
  reach : Reachable63 ht
  search_eq : ∀ (k : List Nat) (v0 : Int), search ht k v0 = lookup_result m k v0

/-- A sample sequence of calls: `insert("cat", 1)`, `insert("act", 2)`, `delete_key("cat")`,
`rehash_table`, no allocation failing. -/
def sample_calls : List Call :=
  [Call.insert key_cat 1 true, Call.insert key_act 2 true, Call.delete_key key_cat,
    Call.rehash_table true (fun _ => true)]

/-! ## Load factor and efficiency -/

/-- Rounding of a rational to the nearest integer, ties to the even one. -/
def round_half_even (x : ℚ) : ℤ :=
  if x - ⌊x⌋ < 1 / 2 then ⌊x⌋
  else if 1 / 2 < x - ⌊x⌋ then ⌊x⌋ + 1
  else if ⌊x⌋ % 2 = 0 then ⌊x⌋ else ⌊x⌋ + 1

/-- Rounding of a positive real to `double` (binary64, round to nearest, ties to even):
with `2^e <= q < 2^(e+1)` the 53-bit significand `q * 2^(52 - e)` is rounded to an integer.
Overflow and subnormals are left out: a quotient of two non-zero `int`s lies between
`2^-31` and `2^31`. -/
def round_double_pos (q : ℚ) : ℚ :=
  (round_half_even (q * (2 : ℚ) ^ (52 - Int.log 2 q)) : ℚ) / (2 : ℚ) ^ (52 - Int.log 2 q)

/-- Rounding of a real to `double`. -/
def round_double (q : ℚ) : ℚ :=
  if 0 < q then round_double_pos q
  else if q < 0 then -round_double_pos (-q)
  else 0

/-- The `double load_factor = (double)ht->count / ht->capacity` of `run_stats`: both `int`s
convert exactly, the division is rounded once. -/
def load_factor (ht : HashTable) : ℚ :=
  round_double ((ht.count : ℚ) / (ht.capacity : ℚ))

/-- The two efficiency lines `run_stats` can print. -/
inductive Efficiency where
  | GOOD
  | DEGRADING
deriving DecidableEq, Repr

/-- The efficiency `run_stats` prints: `load_factor < 0.75 && max_chain < 3`. -/
def run_stats_efficiency (ht : HashTable) : Efficiency :=
  if load_factor ht < 3 / 4 ∧ (run_stats_loop ht).max_chain < 3 then Efficiency.GOOD
  else Efficiency.DEGRADING

/-! ## A table with a merged key -/

/-- The table after `init_table(&ht, 10)` and two `insert`s of the 64-byte key `key_a63b`,
with values 1 and 2. -/
def table_long_twice : HashTable := (insert table_long key_a63b 2 true).2

/-! ## Runs of `run_insert` -/

/-- Successive `run_insert` calls, as the menu loop of `main` makes them when option 1 is
chosen each time.  Each element is the key read, what `read_integer` delivers and the
outcome of the `malloc` of `insert`.  Returned: all lines printed, in order, and the final
table. -/
def run_inserts : List (List Nat × Option Int × Bool) → HashTable → List Message × HashTable
  | [], ht => ([], ht)
  | (key, value, malloc_ok) :: rest, ht =>
    let head := run_insert ht key value malloc_ok
    let tail := run_inserts rest head.2
    (head.1 ++ tail.1, tail.2)

/-- The line is the "Collision detected" line of `run_insert`. -/
def is_collision_line : Message → Bool
  | Message.collision _ => true
  | _ => false

/-- Number of `run_insert` calls that found the target bucket non-empty: each prints one
"Collision detected" line. -/
def collision_events (out : List Message) : Nat := out.countP is_collision_line

/-- Two `run_insert` calls on the table of `main`: "cat" with value 1, then "act" with
value 2 while `malloc` returns `NULL`. -/
def sample_inserts_failing : List (List Nat × Option Int × Bool) :=
  [(key_cat, some 1, true), (key_act, some 2, false)]

/-- Three `run_insert` calls: "cat" with value 1, "act" with value 2, "x" with value 3, every
`malloc` succeeding. -/
def sample_inserts : List (List Nat × Option Int × Bool) :=
  [(key_cat, some 1, true), (key_act, some 2, true), (key_x, some 3, true)]

/-! ## The table as linked nodes in memory

The chains above are lists, finite by construction.  Here the nodes lie in a heap and are
linked by their `next` pointers, as in the source, and every loop runs on a budget of
iterations: a call yields `none` when one of its loops has not ended within the budget, or
when it follows a pointer to no node. -/

/-- The `Node` structure in memory: `key` holds the bytes of the array `key` before its
terminating NUL, `next` is the address of the next node, `0` being `NULL`. -/
structure Mem.Node where
  key : List Nat
  value : Int
  next : Nat
deriving DecidableEq, Repr

/-- The heap: the node stored at each address, `none` where no node is allocated. -/
abbrev Mem.Heap := Nat → Option Mem.Node

/-- The `HashTable` structure in memory; `buckets` is the array of head pointers. -/
structure Mem.HashTable where
  heap : Mem.Heap
  buckets : List Nat
  capacity : Int
  count : Int

/-- The read `buckets[idx]` of a head pointer. -/
def Mem.bucket_at (buckets : List Nat) (idx : Int) : Nat :=
  buckets.getD idx.toNat 0

/-- The call `calloc(n, sizeof(Node *))`, as `calloc_buckets`: `n` `NULL` head pointers. -/
def Mem.calloc_buckets (n : Int) (calloc_ok : Bool) : Option (List Nat) :=
  if calloc_ok = true ∧ 0 ≤ n then some (List.replicate n.toNat 0) else none

/-- A store to a field of the node at `addr`. -/
def Mem.store (heap : Mem.Heap) (addr : Nat) (f : Mem.Node → Mem.Node) : Mem.Heap :=
  match heap addr with
  | none => heap
  | some node => Function.update heap addr (some (f node))

/-- The loop of `hash_function`: `key[i]` is read at index `i`, the NUL standing past the
last byte; `fuel` bounds the number of tests of the loop condition. -/
def Mem.hash_loop (key : List Nat) : Nat → Nat → Nat → Option Nat
  | 0, _, _ => none
  | fuel + 1, i, sum =>
    match key.get? i with
    | none => some sum
    | some b => Mem.hash_loop key fuel (i + 1) ((sum + char_to_unsigned b) % 4294967296)

/-- The function `hash_function`, every loop running at most `n` times. -/
def Mem.hash_function (key : List Nat) (capacity : Int) (n : Nat) : Option Int :=
  match Mem.hash_loop key n 0 0 with
  | none => none
  | some sum => some (to_int (sum % to_unsigned capacity))

/-- The loop of `search`, `current` being the pointer it follows. -/
def Mem.search_loop (heap : Mem.Heap) (key : List Nat) (value : Int) :
    Nat → Nat → Option (Status × Int)
  | 0, _ => none
  | fuel + 1, current =>
    if current = 0 then some (ERR_KEY_NOT_FOUND, value)
    else
      match heap current with
      | none => none
      | some node =>
        if node.key = key then some (SUCCESS, node.value)
        else Mem.search_loop heap key value fuel node.next

/-- The function `search`, every loop running at most `n` times. -/
def Mem.search (ht : Mem.HashTable) (key : List Nat) (value : Int) (n : Nat) :
    Option (Status × Int) :=
  match Mem.hash_function key ht.capacity n with
  | none => none
  | some idx => Mem.search_loop ht.heap key value n (Mem.bucket_at ht.buckets idx)

/-- First loop of `insert`: the address of the first node whose key equals `key`, `0` when
the walk reaches `NULL`. -/
def Mem.find_loop (heap : Mem.Heap) (key : List Nat) : Nat → Nat → Option Nat
  | 0, _ => none
  | fuel + 1, current =>
    if current = 0 then some 0
    else
      match heap current with
      | none => none
      | some node =>
        if node.key = key then some current else Mem.find_loop heap key fuel node.next

/-- Second loop of `insert`, `while (tail->next != NULL)`: the address of the last node. -/
def Mem.tail_loop (heap : Mem.Heap) : Nat → Nat → Option Nat
  | 0, _ => none
  | fuel + 1, tail =>
    match heap tail with
    | none => none
    | some node => if node.next = 0 then some tail else Mem.tail_loop heap fuel node.next

/-- The function `insert`, every loop running at most `n` times; `new_node` is what its
`malloc` returns, when reached, `0` being `NULL`. -/
def Mem.insert (ht : Mem.HashTable) (key : List Nat) (value : Int) (new_node : Nat)
    (n : Nat) : Option (Status × Mem.HashTable) :=
  match Mem.hash_function key ht.capacity n with
  | none => none
  | some idx =>
    match Mem.find_loop ht.heap key n (Mem.bucket_at ht.buckets idx) with
    | none => none
    | some current =>
      if current ≠ 0 then
        some (SUCCESS,
          { ht with heap := Mem.store ht.heap current (fun node => { node with value := value }) })
      else if new_node = 0 then some (ERR_MEMORY_ALLOCATION, ht)
      else
        let heap := Function.update ht.heap new_node
          (some { key := key.take (MAX_KEY_LEN - 1), value := value, next := 0 })
        if Mem.bucket_at ht.buckets idx = 0 then
          some (SUCCESS,
            { ht with
              heap := heap
              buckets := ht.buckets.set idx.toNat new_node
              count := ht.count + 1 })
        else
          match Mem.tail_loop heap n (Mem.bucket_at ht.buckets idx) with
          | none => none
          | some tail =>
            some (SUCCESS,
              { ht with
                heap := Mem.store heap tail (fun node => { node with next := new_node })
                count := ht.count + 1 })

/-- The loop of `delete_key`: `prev` and `current` when it stops, `current` being `0` when
the walk reached `NULL`. -/
def Mem.delete_loop (heap : Mem.Heap) (key : List Nat) : Nat → Nat → Nat → Option (Nat × Nat)
  | 0, _, _ => none
  | fuel + 1, prev, current =>
    if current = 0 then some (prev, 0)
    else
      match heap current with
      | none => none
      | some node =>
        if node.key = key then some (prev, current)
        else Mem.delete_loop heap key fuel current node.next

/-- The function `delete_key`, every loop running at most `n` times; `free(current)` takes
the node out of the heap. -/
def Mem.delete_key (ht : Mem.HashTable) (key : List Nat) (n : Nat) :
    Option (Status × Mem.HashTable) :=
  match Mem.hash_function key ht.capacity n with
  | none => none
  | some idx =>
    match Mem.delete_loop ht.heap key n 0 (Mem.bucket_at ht.buckets idx) with
    | none => none
    | some (prev, current) =>
      if current = 0 then some (ERR_KEY_NOT_FOUND, ht)
      else
        match ht.heap current with
        | none => none
        | some node =>
          if prev = 0 then
            some (SUCCESS,
              { ht with
                heap := Function.update ht.heap current none
                buckets := ht.buckets.set idx.toNat node.next
                count := ht.count - 1 })
          else
            some (SUCCESS,
              { ht with
                heap := Function.update
                  (Mem.store ht.heap prev (fun p => { p with next := node.next })) current none
                count := ht.count - 1 })

/-- Inner loop of `rehash_table` from the node at `curr`.  `malloc k heap` is the address
the `malloc` of the `k`-th re-insert returns on the heap it is called on (`0` for `NULL`);
the status of `insert` is dropped and `free(curr)` takes the old node out of the heap.
Returned: the table and the number of re-inserts made so far. -/
def Mem.migrate_chain (malloc : Nat → Mem.Heap → Nat) (n : Nat) :
    Nat → Nat → Mem.HashTable → Nat → Option (Mem.HashTable × Nat)
  | 0, _, _, _ => none
  | fuel + 1, curr, ht, k =>
    if curr = 0 then some (ht, k)
    else
      match ht.heap curr with
      | none => none
      | some node =>
        match Mem.insert ht node.key node.value (malloc k ht.heap) n with
        | none => none
        | some result =>
          Mem.migrate_chain malloc n fuel node.next
            { result.2 with heap := Function.update result.2.heap curr none } (k + 1)

/-- Outer loop of `rehash_table`, `for (int i = 0; i < old_capacity; i++)`. -/
def Mem.migrate_buckets (old_buckets : List Nat) (old_capacity : Int)
    (malloc : Nat → Mem.Heap → Nat) (n : Nat) :
    Nat → Nat → Mem.HashTable → Nat → Option (Mem.HashTable × Nat)
  | 0, _, _, _ => none
  | fuel + 1, i, ht, k =>
    if (i : Int) < old_capacity then
      match Mem.migrate_chain malloc n n (Mem.bucket_at old_buckets (i : Int)) ht k with
      | none => none
      | some st => Mem.migrate_buckets old_buckets old_capacity malloc n fuel (i + 1) st.1 st.2
    else some (ht, k)

/-- The function `rehash_table`, every loop running at most `n` times. -/
def Mem.rehash_table (ht : Mem.HashTable) (calloc_ok : Bool) (malloc : Nat → Mem.Heap → Nat)
    (n : Nat) : Option (Status × Mem.HashTable) :=
  let old_capacity := ht.capacity
  let old_buckets := ht.buckets
  let new_capacity := wrap_int (old_capacity * 2)
  match Mem.calloc_buckets new_capacity calloc_ok with
  | none => some (ERR_MEMORY_ALLOCATION, ht)
  | some new_buckets =>
    match Mem.migrate_buckets old_buckets old_capacity malloc n n 0
        { heap := ht.heap, buckets := new_buckets, capacity := new_capacity, count := 0 } 0 with
    | none => none
    | some st => some (SUCCESS, st.1)

/-- The loop `while (curr) { chain_len++; curr = curr->next; }` of `run_stats`. -/
def Mem.chain_len_loop (heap : Mem.Heap) : Nat → Nat → Int → Option Int
  | 0, _, _ => none
  | fuel + 1, curr, chain_len =>
    if curr = 0 then some chain_len
    else
      match heap curr with
      | none => none
      | some node => Mem.chain_len_loop heap fuel node.next (chain_len + 1)

/-- The `for` loop of `run_stats`, every loop running at most `n` times. -/
def Mem.run_stats_loop (ht : Mem.HashTable) (n : Nat) : Nat → Nat → Stats → Option Stats
  | 0, _, _ => none
  | fuel + 1, i, st =>
    if (i : Int) < ht.capacity then
      if Mem.bucket_at ht.buckets (i : Int) ≠ 0 then
        match Mem.chain_len_loop ht.heap n (Mem.bucket_at ht.buckets (i : Int)) 0 with
        | none => none
        | some chain_len =>
          Mem.run_stats_loop ht n fuel (i + 1)
            { used_buckets := st.used_buckets + 1
              collisions :=
                if chain_len > 1 then st.collisions + (chain_len - 1) else st.collisions
              max_chain := if chain_len > st.max_chain then chain_len else st.max_chain }
      else Mem.run_stats_loop ht n fuel (i + 1) st
    else some st

/-- Following `next` from `p` one visits the nodes `cells`, each given with its address,
in this order, and then stands at `q`. -/
def Mem.is_seg (heap : Mem.Heap) :
    Nat → List (Nat × HashTableChaining.Node) → Nat → Prop
  | p, [], q => p = q
  | p, c :: rest, q =>
    p = c.1 ∧ p ≠ 0 ∧
      ∃ next, heap p = some { key := c.2.key, value := c.2.value, next := next } ∧
        Mem.is_seg heap next rest q

/-- The chain that starts at `p` is finite: following `next` from `p` one visits the nodes
`cells` and then reaches `NULL`. -/
def Mem.is_chain (heap : Mem.Heap) (p : Nat) (cells : List (Nat × HashTableChaining.Node)) :
    Prop :=
  Mem.is_seg heap p cells 0

/-- The table the chains `layout` stand for: the nodes without their addresses. -/
def Mem.table_of (ht : Mem.HashTable) (layout : List (List (Nat × HashTableChaining.Node))) :
    HashTableChaining.HashTable :=
  { buckets := layout.map (fun cells => cells.map Prod.snd)
    capacity := ht.capacity
    count := ht.count }

/-- A table in memory with a positive `int` capacity whose chains are finite: bucket `i`
heads the chain `layout[i]`, the nodes of the chains are distinct blocks, and every node
holds a key of at most 63 bytes, as the array `key[MAX_KEY_LEN]` allows. -/
structure Mem.Valid (ht : Mem.HashTable) (layout : List (List (Nat × HashTableChaining.Node))) :
    Prop where
  cap_pos : 0 < ht.capacity
  cap_int : ht.capacity ≤ 2147483647
  len : ht.buckets.length = ht.capacity.toNat
  len_layout : layout.length = ht.buckets.length
  chains : ∀ i : Nat, i < ht.buckets.length →
    Mem.is_chain ht.heap (ht.buckets.getD i 0) (layout.getD i [])
  separate : (layout.flatten.map Prod.fst).Nodup
  short : ∀ c ∈ layout.flatten, c.2.key.length ≤ 63

/-- An allocator: the address it returns is `NULL` or holds no node. -/
def Mem.is_allocator (malloc : Nat → Mem.Heap → Nat) : Prop :=
  ∀ (k : Nat) (heap : Mem.Heap), malloc k heap = 0 ∨ heap (malloc k heap) = none

/-- The heap with "cat" at address 1 and "act" at address 2, linked in this order. -/
def sample_heap : Mem.Heap := fun addr =>
  if addr = 1 then some { key := key_cat, value := 1, next := 2 }
  else if addr = 2 then some { key := key_act, value := 2, next := 0 }
  else none

/-- The table of `table_cat_act` in memory: bucket 2 of 10 heads the chain at address 1. -/
def sample_mem_table : Mem.HashTable :=
  { heap := sample_heap, buckets := [0, 0, 1, 0, 0, 0, 0, 0, 0, 0], capacity := 10, count := 2 }

/-- The chains of `sample_mem_table`, with the addresses of their nodes. -/
def sample_layout : List (List (Nat × Node)) :=
  [[], [], [(1, { key := key_cat, value := 1 }), (2, { key := key_act, value := 2 })], [], [],
    [], [], [], [], []]

/-- An allocator that hands out address `k + 10` at its `k`-th call when it is free. -/
def sample_malloc : Nat → Mem.Heap → Nat := fun k heap =>
  if heap (k + 10) = none then k + 10 else 0

/-- A heap whose single node, at address 1, points to itself. -/
def cyclic_heap : Mem.Heap := fun addr =>
  if addr = 1 then some { key := key_cat, value := 1, next := 1 } else none

/-- A table of capacity 1 whose chain never reaches `NULL`. -/
def cyclic_table : Mem.HashTable :=
  { heap := cyclic_heap, buckets := [1], capacity := 1, count := 1 }

/-! ## Arithmetic of the bucket index -/

theorem to_unsigned_of_pos (c : Int) (h0 : 0 < c) (h1 : c ≤ 2147483647) :
    to_unsigned c = c.toNat := by
  unfold to_unsigned
  rw [Int.emod_eq_of_lt (by omega) (by omega)]

theorem to_int_of_small (n : Nat) (h : n < 2147483648) : to_int n = (n : Int) := by
  unfold to_int
  have h1 : n % 4294967296 = n := Nat.mod_eq_of_lt (by omega)
  rw [h1, if_pos h]

theorem hash_function_eq (key : List Nat) (c : Int) (h0 : 0 < c) (h1 : c ≤ 2147483647) :
    hash_function key c = ((hash_sum key 0 % c.toNat : Nat) : Int) := by
  unfold hash_function
  rw [to_unsigned_of_pos c h0 h1]
  apply to_int_of_small
  have hc : 0 < c.toNat := by omega
  have := Nat.mod_lt (hash_sum key 0) hc
  omega

theorem hash_function_range (key : List Nat) (c : Int) (h0 : 0 < c) (h1 : c ≤ 2147483647) :
    0 ≤ hash_function key c ∧ hash_function key c < c := by
  rw [hash_function_eq key c h0 h1]
  have hc : 0 < c.toNat := by omega
  have := Nat.mod_lt (hash_sum key 0) hc
  omega

theorem hash_function_toNat_lt (key : List Nat) (c : Int) (h0 : 0 < c)
    (h1 : c ≤ 2147483647) : (hash_function key c).toNat < c.toNat := by
  have := hash_function_range key c h0 h1
  omega

theorem wrap_int_of_int (x : Int) (h : is_int x) : wrap_int x = x := by
  unfold is_int at h
  unfold wrap_int to_int to_unsigned
  have hx : (0 : Int) ≤ x % 4294967296 := Int.emod_nonneg x (by norm_num)
  have hx2 : x % 4294967296 < 4294967296 := Int.emod_lt_of_pos x (by norm_num)
  have e1 : (((x % 4294967296).toNat % 4294967296 : Nat) : Int) = x % 4294967296 := by
    rw [Nat.mod_eq_of_lt (by omega)]; omega
  split
  · rename_i hlt
    rw [e1]
    have : (x % 4294967296).toNat % 4294967296 = (x % 4294967296).toNat :=
      Nat.mod_eq_of_lt (by omega)
    rw [this] at hlt
    omega
  · rename_i hge
    rw [e1]
    have : (x % 4294967296).toNat % 4294967296 = (x % 4294967296).toNat :=
      Nat.mod_eq_of_lt (by omega)
    rw [this] at hge
    omega

theorem wrap_int_is_int (x : Int) : is_int (wrap_int x) := by
  unfold is_int wrap_int to_int
  have := Nat.mod_lt (to_unsigned x) (show 0 < 4294967296 by norm_num)
  split <;> omega

/-! ## Reading and writing the bucket array -/

theorem bucket_at_set_bucket_same (b : List (List Node)) (idx : Int) (chain : List Node)
    (h : idx.toNat < b.length) : bucket_at (set_bucket b idx chain) idx = chain := by
  unfold bucket_at set_bucket
  rw [List.getD_eq_getElem _ _ (by simpa using h)]
  simp

theorem getD_set_bucket (b : List (List Node)) (idx : Int) (chain : List Node) (i : Nat) :
    (set_bucket b idx chain).getD i [] =
      if i = idx.toNat ∧ idx.toNat < b.length then chain else b.getD i [] := by
  unfold set_bucket
  by_cases hi : i < b.length
  · rw [List.getD_eq_getElem _ _ (by simpa using hi), List.getD_eq_getElem _ _ hi,
      List.getElem_set]
    by_cases e : idx.toNat = i
    · subst e; simp [hi]
    · have e2 : ¬ i = idx.toNat := fun h => e h.symm
      simp [e, e2]
  · have h1 : (b.set idx.toNat chain).getD i [] = [] := by
      apply List.getD_eq_default; simpa using Nat.le_of_not_lt hi
    have h2 : b.getD i [] = [] := List.getD_eq_default _ _ (Nat.le_of_not_lt hi)
    rw [h1, h2]
    split
    · rename_i hc; exact absurd (hc.1 ▸ hc.2) hi
    · rfl

theorem length_set_bucket (b : List (List Node)) (idx : Int) (chain : List Node) :
    (set_bucket b idx chain).length = b.length := by
  unfold set_bucket; simp

theorem set_bucket_split (b : List (List Node)) (idx : Int) (chain : List Node)
    (h : idx.toNat < b.length) :
    set_bucket b idx chain = b.take idx.toNat ++ chain :: b.drop (idx.toNat + 1) := by
  unfold set_bucket
  rw [List.set_eq_take_append_cons_drop, if_pos h]

theorem buckets_split (b : List (List Node)) (idx : Int) (h : idx.toNat < b.length) :
    b = b.take idx.toNat ++ bucket_at b idx :: b.drop (idx.toNat + 1) := by
  unfold bucket_at
  rw [List.getD_eq_getElem _ _ h]
  simp

theorem mem_buckets_iff (b : List (List Node)) (chain : List Node) :
    chain ∈ b ↔ ∃ i : Nat, i < b.length ∧ b.getD i [] = chain := by
  constructor
  · intro h
    obtain ⟨i, hi, e⟩ := List.getElem_of_mem h
    exact ⟨i, hi, by rw [List.getD_eq_getElem _ _ hi]; exact e⟩
  · rintro ⟨i, hi, e⟩
    rw [List.getD_eq_getElem _ _ hi] at e
    rw [← e]
    exact List.getElem_mem hi

/-! ## The chain walks -/

theorem append_tail_eq (n : Node) (l : List Node) : append_tail n l = l ++ [n] := by
  induction l with
  | nil => rfl
  | cons a l ih => simp [append_tail, ih]

theorem insert_walk_none_iff (k : List Nat) (v : Int) (l : List Node) :
    insert_walk k v l = none ↔ k ∉ l.map Node.key := by
  induction l with
  | nil => simp [insert_walk]
  | cons a l ih =>
    by_cases e : a.key = k
    · simp [insert_walk, e]
    · have e2 : ¬ k = a.key := fun h => e h.symm
      simp [insert_walk, e, e2, ih]

theorem insert_walk_some_keys (k : List Nat) (v : Int) (l l2 : List Node)
    (h : insert_walk k v l = some l2) : l2.map Node.key = l.map Node.key := by
  induction l generalizing l2 with
  | nil => simp [insert_walk] at h
  | cons a l ih =>
    by_cases e : a.key = k
    · simp [insert_walk, e] at h
      subst h; simp [e]
    · simp [insert_walk, e] at h
      obtain ⟨r, hr, rfl⟩ := h
      simp [ih r hr]

theorem insert_walk_some_length (k : List Nat) (v : Int) (l l2 : List Node)
    (h : insert_walk k v l = some l2) : l2.length = l.length := by
  have := congrArg List.length (insert_walk_some_keys k v l l2 h)
  simpa using this

theorem overwrite_key (k : List Nat) (v : Int) (n : Node) : (overwrite k v n).key = n.key := by
  unfold overwrite; split <;> rfl

theorem map_overwrite_of_not_mem (k : List Nat) (v : Int) (l : List Node)
    (h : k ∉ l.map Node.key) : l.map (overwrite k v) = l := by
  induction l with
  | nil => rfl
  | cons a l ih =>
    simp only [List.map_cons, List.mem_cons, not_or] at h
    have e : ¬ a.key = k := fun e => h.1 e.symm
    rw [List.map_cons, ih h.2]
    simp [overwrite, e]

theorem insert_walk_some_eq_map (k : List Nat) (v : Int) (l l2 : List Node)
    (hn : (l.map Node.key).Nodup) (h : insert_walk k v l = some l2) :
    l2 = l.map (overwrite k v) := by
  induction l generalizing l2 with
  | nil => simp [insert_walk] at h
  | cons a l ih =>
    simp only [List.map_cons, List.nodup_cons] at hn
    by_cases e : a.key = k
    · simp [insert_walk, e] at h
      subst h
      have hk : k ∉ l.map Node.key := by rw [← e]; exact hn.1
      rw [List.map_cons, map_overwrite_of_not_mem k v l hk]
      simp [overwrite, e]
    · simp [insert_walk, e] at h
      obtain ⟨r, hr, rfl⟩ := h
      rw [List.map_cons, ← ih r hn.2 hr]
      simp [overwrite, e]

theorem search_walk_insert_walk (k : List Nat) (v v0 : Int) (l l2 : List Node)
    (h : insert_walk k v l = some l2) : search_walk k v0 l2 = (SUCCESS, v) := by
  induction l generalizing l2 with
  | nil => simp [insert_walk] at h
  | cons a l ih =>
    by_cases e : a.key = k
    · simp [insert_walk, e] at h
      subst h; simp [search_walk, e]
    · simp [insert_walk, e] at h
      obtain ⟨r, hr, rfl⟩ := h
      simp [search_walk, e, ih r hr]

theorem search_walk_not_mem (k : List Nat) (v0 : Int) (l : List Node)
    (h : k ∉ l.map Node.key) : search_walk k v0 l = (ERR_KEY_NOT_FOUND, v0) := by
  induction l with
  | nil => rfl
  | cons a l ih =>
    simp only [List.map_cons, List.mem_cons, not_or] at h
    have e : ¬ a.key = k := fun e => h.1 e.symm
    simp [search_walk, e, ih h.2]

theorem search_walk_append (k : List Nat) (v0 : Int) (l : List Node) (n : Node)
    (h : k ∉ l.map Node.key) :
    search_walk k v0 (l ++ [n]) =
      if n.key = k then (SUCCESS, n.value) else (ERR_KEY_NOT_FOUND, v0) := by
  induction l with
  | nil => simp [search_walk]
  | cons a l ih =>
    simp only [List.map_cons, List.mem_cons, not_or] at h
    have e : ¬ a.key = k := fun e => h.1 e.symm
    simp [search_walk, e, ih h.2]

theorem search_walk_mem (k : List Nat) (v v0 : Int) (l : List Node)
    (hn : (l.map Node.key).Nodup) (h : ({ key := k, value := v } : Node) ∈ l) :
    search_walk k v0 l = (SUCCESS, v) := by
  induction l with
  | nil => simp at h
  | cons a l ih =>
    simp only [List.map_cons, List.nodup_cons] at hn
    rcases List.mem_cons.1 h with e | e
    · subst e; simp [search_walk]
    · have hk : k ∈ l.map Node.key := List.mem_map_of_mem Node.key e
      have e2 : ¬ a.key = k := by intro e3; apply hn.1; rw [e3]; exact hk
      simp [search_walk, e2, ih hn.2 e]

theorem search_walk_cases (k : List Nat) (v0 : Int) (l : List Node) :
    (k ∉ l.map Node.key ∧ search_walk k v0 l = (ERR_KEY_NOT_FOUND, v0)) ∨
    (∃ v, ({ key := k, value := v } : Node) ∈ l ∧ search_walk k v0 l = (SUCCESS, v)) := by
  induction l with
  | nil => left; simp [search_walk]
  | cons a l ih =>
    by_cases e : a.key = k
    · right
      refine ⟨a.value, ?_, by simp [search_walk, e]⟩
      rw [← e]; exact List.mem_cons_self _ _
    · have e2 : ¬ k = a.key := fun h => e h.symm
      rcases ih with ⟨h1, h2⟩ | ⟨v, h1, h2⟩
      · left; simp [search_walk, e, e2, h1, h2]
      · right; exact ⟨v, List.mem_cons_of_mem _ h1, by simp [search_walk, e, h2]⟩

theorem delete_walk_none_iff (k : List Nat) (l : List Node) :
    delete_walk k l = none ↔ k ∉ l.map Node.key := by
  induction l with
  | nil => simp [delete_walk]
  | cons a l ih =>
    by_cases e : a.key = k
    · simp [delete_walk, e]
    · have e2 : ¬ k = a.key := fun h => e h.symm
      simp [delete_walk, e, e2, ih]

theorem delete_walk_some (k : List Nat) (l l2 : List Node) (h : delete_walk k l = some l2) :
    ∃ a v b, l = a ++ { key := k, value := v } :: b ∧ l2 = a ++ b ∧ k ∉ a.map Node.key := by
  induction l generalizing l2 with
  | nil => simp [delete_walk] at h
  | cons x l ih =>
    by_cases e : x.key = k
    · simp [delete_walk, e] at h
      subst h
      refine ⟨[], x.value, l, ?_, rfl, by simp⟩
      rw [← e]; rfl
    · simp [delete_walk, e] at h
      obtain ⟨r, hr, rfl⟩ := h
      obtain ⟨a, v, b, h1, h2, h3⟩ := ih r hr
      refine ⟨x :: a, v, b, by rw [h1]; rfl, by rw [h2]; rfl, ?_⟩
      simp only [List.map_cons, List.mem_cons, not_or]
      exact ⟨fun h => e h.symm, h3⟩

/-! ## Unfolding the operations -/

theorem insert_of_some (ht : HashTable) (k : List Nat) (v : Int) (ok : Bool)
    (chain : List Node)
    (h : insert_walk k v (bucket_at ht.buckets (hash_function k ht.capacity)) = some chain) :
    insert ht k v ok =
      (SUCCESS,
        { ht with buckets := set_bucket ht.buckets (hash_function k ht.capacity) chain }) := by
  unfold insert; simp only [h]

theorem insert_of_none_fail (ht : HashTable) (k : List Nat) (v : Int)
    (h : insert_walk k v (bucket_at ht.buckets (hash_function k ht.capacity)) = none) :
    insert ht k v false = (ERR_MEMORY_ALLOCATION, ht) := by
  unfold insert; simp only [h]; simp

theorem insert_of_none_ok (ht : HashTable) (k : List Nat) (v : Int)
    (h : insert_walk k v (bucket_at ht.buckets (hash_function k ht.capacity)) = none) :
    insert ht k v true =
      (SUCCESS,
        { ht with
          buckets := set_bucket ht.buckets (hash_function k ht.capacity)
            (bucket_at ht.buckets (hash_function k ht.capacity) ++
              [{ key := k.take 63, value := v }])
          count := ht.count + 1 }) := by
  unfold insert; simp only [h]; simp [append_tail_eq, MAX_KEY_LEN]

theorem delete_key_of_some (ht : HashTable) (k : List Nat) (chain : List Node)
    (h : delete_walk k (bucket_at ht.buckets (hash_function k ht.capacity)) = some chain) :
    delete_key ht k =
      (SUCCESS,
        { ht with
          buckets := set_bucket ht.buckets (hash_function k ht.capacity) chain
          count := ht.count - 1 }) := by
  unfold delete_key; simp only [h]

theorem delete_key_of_none (ht : HashTable) (k : List Nat)
    (h : delete_walk k (bucket_at ht.buckets (hash_function k ht.capacity)) = none) :
    delete_key ht k = (ERR_KEY_NOT_FOUND, ht) := by
  unfold delete_key; simp only [h]

/-! ## Structural invariant -/

theorem WF.idx_lt {ht : HashTable} (h : WF ht) (k : List Nat) :
    (hash_function k ht.capacity).toNat < ht.buckets.length := by
  rw [h.len]; exact hash_function_toNat_lt k _ h.cap_pos h.cap_int

theorem length_flatten_set_bucket (b : List (List Node)) (idx : Int) (chain : List Node)
    (h : idx.toNat < b.length) :
    (set_bucket b idx chain).flatten.length + (bucket_at b idx).length =
      b.flatten.length + chain.length := by
  have hs := set_bucket_split b idx chain h
  have hb := buckets_split b idx h
  have e1 : (set_bucket b idx chain).flatten.length =
      (b.take idx.toNat).flatten.length + (chain.length +
        (b.drop (idx.toNat + 1)).flatten.length) := by
    rw [hs]; simp
  have e2 : b.flatten.length =
      (b.take idx.toNat).flatten.length + ((bucket_at b idx).length +
        (b.drop (idx.toNat + 1)).flatten.length) := by
    conv_lhs => rw [hb]
    simp
  omega

theorem init_table_ok (c : Int) (h : 0 ≤ c) :
    init_table c true =
      (SUCCESS, { buckets := List.replicate c.toNat [], capacity := c, count := 0 }) := by
  unfold init_table calloc_buckets; simp [h]

theorem flatten_replicate_nil (n : Nat) : (List.replicate n ([] : List Node)).flatten = [] := by
  induction n with
  | zero => rfl
  | succ n ih => simp [List.replicate_succ, ih]

theorem getD_replicate_nil (n i : Nat) : (List.replicate n ([] : List Node)).getD i [] = [] := by
  by_cases h : i < n
  · rw [List.getD_eq_getElem _ _ (by simpa using h)]; simp
  · exact List.getD_eq_default _ _ (by simpa using Nat.le_of_not_lt h)

theorem WF_empty (c : Int) (h0 : 0 < c) (h1 : c ≤ 2147483647) :
    WF { buckets := List.replicate c.toNat [], capacity := c, count := 0 } :=
  { cap_pos := h0
    cap_int := h1
    len := by simp
    count_eq := by simp [total_entries, entries, flatten_replicate_nil] }

theorem WF_insert (ht : HashTable) (k : List Nat) (v : Int) (ok : Bool) (h : WF ht) :
    WF (insert ht k v ok).2 := by
  have hi := h.idx_lt k
  cases hw : insert_walk k v (bucket_at ht.buckets (hash_function k ht.capacity)) with
  | some chain =>
    rw [insert_of_some ht k v ok chain hw]
    refine ⟨h.cap_pos, h.cap_int, ?_, ?_⟩
    · simp only [length_set_bucket]; exact h.len
    · have hl := length_flatten_set_bucket ht.buckets _ chain hi
      have hc := insert_walk_some_length k v _ chain hw
      have := h.count_eq
      simp only [total_entries, entries] at this ⊢
      omega
  | none =>
    cases ok with
    | false => rw [insert_of_none_fail ht k v hw]; exact h
    | true =>
      rw [insert_of_none_ok ht k v hw]
      refine ⟨h.cap_pos, h.cap_int, ?_, ?_⟩
      · simp only [length_set_bucket]; exact h.len
      · have hl := length_flatten_set_bucket ht.buckets _
          (bucket_at ht.buckets (hash_function k ht.capacity) ++
            [{ key := k.take 63, value := v }]) hi
        have := h.count_eq
        simp only [total_entries, entries, List.length_append, List.length_singleton]
          at this hl ⊢
        omega

theorem WF_delete_key (ht : HashTable) (k : List Nat) (h : WF ht) :
    WF (delete_key ht k).2 := by
  have hi := h.idx_lt k
  cases hw : delete_walk k (bucket_at ht.buckets (hash_function k ht.capacity)) with
  | some chain =>
    rw [delete_key_of_some ht k chain hw]
    refine ⟨h.cap_pos, h.cap_int, ?_, ?_⟩
    · simp only [length_set_bucket]; exact h.len
    · have hl := length_flatten_set_bucket ht.buckets _ chain hi
      obtain ⟨a, v, b, e1, e2, -⟩ := delete_walk_some k _ chain hw
      have hc : (bucket_at ht.buckets (hash_function k ht.capacity)).length =
          chain.length + 1 := by rw [e1, e2]; simp; omega
      have := h.count_eq
      simp only [total_entries, entries] at this ⊢
      omega
  | none => rw [delete_key_of_none ht k hw]; exact h

theorem WF_migrate_chain (l : List Node) (ht : HashTable) (m : Nat → Bool) (h : WF ht) :
    WF (migrate_chain l ht m).1 := by
  induction l generalizing ht m with
  | nil => exact h
  | cons a l ih => exact ih _ _ (WF_insert ht a.key a.value (m 0) h)

theorem WF_migrate_buckets (old : List (List Node)) (is : List Nat) (ht : HashTable)
    (m : Nat → Bool) (h : WF ht) : WF (migrate_buckets old is ht m).1 := by
  induction is generalizing ht m with
  | nil => exact h
  | cons i is ih => exact ih _ _ (WF_migrate_chain _ ht m h)

theorem rehash_table_of_fail (ht : HashTable) (ok : Bool) (m : Nat → Bool)
    (h : calloc_buckets (wrap_int (ht.capacity * 2)) ok = none) :
    rehash_table ht ok m = (ERR_MEMORY_ALLOCATION, ht) := by
  unfold rehash_table; simp only [h]

theorem rehash_table_of_ok (ht : HashTable) (ok : Bool) (m : Nat → Bool)
    (nb : List (List Node)) (h : calloc_buckets (wrap_int (ht.capacity * 2)) ok = some nb) :
    rehash_table ht ok m =
      (SUCCESS, (migrate_buckets ht.buckets (List.range ht.capacity.toNat)
        { buckets := nb, capacity := wrap_int (ht.capacity * 2), count := 0 } m).1) := by
  unfold rehash_table; simp only [h]

theorem calloc_buckets_some (n : Int) (ok : Bool) (nb : List (List Node))
    (h : calloc_buckets n ok = some nb) :
    ok = true ∧ 0 ≤ n ∧ nb = List.replicate n.toNat [] := by
  unfold calloc_buckets at h
  split at h
  · rename_i hc
    simp only [Option.some.injEq] at h
    exact ⟨hc.1, hc.2, h.symm⟩
  · simp at h

theorem wrap_double_pos (c : Int) (h0 : 0 < c) (h1 : c ≤ 2147483647)
    (h : 0 ≤ wrap_int (c * 2)) : wrap_int (c * 2) = c * 2 ∧ c * 2 ≤ 2147483647 := by
  by_cases hc : c * 2 ≤ 2147483647
  · exact ⟨wrap_int_of_int _ ⟨by omega, hc⟩, hc⟩
  · exfalso
    have e : to_unsigned (c * 2) = (c * 2).toNat := by
      unfold to_unsigned
      rw [Int.emod_eq_of_lt (by omega) (by omega)]
    unfold wrap_int to_int at h
    rw [e] at h
    have hm : (c * 2).toNat % 4294967296 = (c * 2).toNat := Nat.mod_eq_of_lt (by omega)
    rw [hm] at h
    split at h <;> omega

theorem WF_rehash_table (ht : HashTable) (ok : Bool) (m : Nat → Bool) (h : WF ht) :
    WF (rehash_table ht ok m).2 := by
  cases hc : calloc_buckets (wrap_int (ht.capacity * 2)) ok with
  | none => rw [rehash_table_of_fail ht ok m hc]; exact h
  | some nb =>
    rw [rehash_table_of_ok ht ok m nb hc]
    obtain ⟨-, h0, rfl⟩ := calloc_buckets_some _ _ _ hc
    have hw := wrap_double_pos ht.capacity h.cap_pos h.cap_int h0
    apply WF_migrate_buckets
    apply WF_empty
    · have := h.cap_pos; omega
    · rw [hw.1]; exact hw.2

theorem WF_of_reachable (P : List Nat → Prop) (ht : HashTable) (h : ReachableWith P ht) :
    WF ht := by
  induction h with
  | init c hpos hint =>
    rw [init_table_ok c (le_of_lt hpos)]
    exact WF_empty c hpos hint.2
  | step ht c _ _ ih =>
    cases c with
    | insert k v ok => exact WF_insert ht k v ok ih
    | delete_key k => exact WF_delete_key ht k ih
    | rehash_table ok m => exact WF_rehash_table ht ok m ih

/-! ## Invariant of the tables built from keys of at most 63 bytes -/

theorem WF63_empty (c : Int) (h0 : 0 < c) (h1 : c ≤ 2147483647) :
    WF63 { buckets := List.replicate c.toNat [], capacity := c, count := 0 } :=
  { wf := WF_empty c h0 h1
    placed := by intro i k hk; simp [getD_replicate_nil] at hk
    short := by intro i k hk; simp [getD_replicate_nil] at hk
    nodup := by intro i; simp [getD_replicate_nil] }

theorem WF63_insert (ht : HashTable) (k : List Nat) (v : Int) (ok : Bool) (h : WF63 ht)
    (hk : k.length ≤ 63) : WF63 (insert ht k v ok).2 := by
  have hwf := WF_insert ht k v ok h.wf
  have hi := h.wf.idx_lt k
  have hr := hash_function_range k ht.capacity h.wf.cap_pos h.wf.cap_int
  cases hw : insert_walk k v (bucket_at ht.buckets (hash_function k ht.capacity)) with
  | some chain =>
    rw [insert_of_some ht k v ok chain hw] at hwf ⊢
    have hkeys := insert_walk_some_keys k v _ chain hw
    have hget : ∀ i : Nat, ((set_bucket ht.buckets (hash_function k ht.capacity)
        chain).getD i []).map Node.key = (ht.buckets.getD i []).map Node.key := by
      intro i
      rw [getD_set_bucket]
      split
      · rename_i hc
        rw [hkeys, hc.1]; rfl
      · rfl
    refine ⟨hwf, ?_, ?_, ?_⟩
    · intro i x hx
      simp only [hget] at hx
      exact h.placed i x hx
    · intro i x hx
      simp only [hget] at hx
      exact h.short i x hx
    · intro i
      simp only [hget]
      exact h.nodup i
  | none =>
    cases ok with
    | false => rw [insert_of_none_fail ht k v hw]; exact h
    | true =>
      rw [insert_of_none_ok ht k v hw] at hwf ⊢
      have htake : k.take 63 = k := List.take_of_length_le hk
      have hnot := (insert_walk_none_iff k v _).1 hw
      have hget : ∀ i : Nat, ((set_bucket ht.buckets (hash_function k ht.capacity)
          (bucket_at ht.buckets (hash_function k ht.capacity) ++
            [{ key := k.take 63, value := v }])).getD i []).map Node.key =
          if i = (hash_function k ht.capacity).toNat then
            (ht.buckets.getD i []).map Node.key ++ [k]
          else (ht.buckets.getD i []).map Node.key := by
        intro i
        rw [getD_set_bucket]
        by_cases e : i = (hash_function k ht.capacity).toNat
        · rw [if_pos ⟨e, hi⟩, if_pos e, e]
          simp [bucket_at, htake]
        · rw [if_neg (fun hc => e hc.1), if_neg e]
      refine ⟨hwf, ?_, ?_, ?_⟩
      · intro i x hx
        simp only [hget] at hx
        split at hx
        · rename_i e
          rcases List.mem_append.1 hx with hx | hx
          · exact h.placed i x hx
          · simp only [List.mem_singleton] at hx
            subst hx
            show hash_function x ht.capacity = (i : Int)
            rw [e]; omega
        · exact h.placed i x hx
      · intro i x hx
        simp only [hget] at hx
        split at hx
        · rcases List.mem_append.1 hx with hx | hx
          · exact h.short i x hx
          · simp only [List.mem_singleton] at hx
            subst hx; exact hk
        · exact h.short i x hx
      · intro i
        simp only [hget]
        split
        · rename_i e
          rw [List.nodup_append]
          refine ⟨h.nodup i, List.nodup_singleton _, ?_⟩
          intro a ha hb
          simp only [List.mem_singleton] at hb
          subst hb
          apply hnot
          rw [e] at ha
          exact ha
        · exact h.nodup i

theorem WF63_delete_key (ht : HashTable) (k : List Nat) (h : WF63 ht) :
    WF63 (delete_key ht k).2 := by
  have hwf := WF_delete_key ht k h.wf
  cases hw : delete_walk k (bucket_at ht.buckets (hash_function k ht.capacity)) with
  | some chain =>
    rw [delete_key_of_some ht k chain hw] at hwf ⊢
    obtain ⟨a, v, b, e1, e2, -⟩ := delete_walk_some k _ chain hw
    have hsub : ∀ i : Nat, List.Sublist
        (((set_bucket ht.buckets (hash_function k ht.capacity) chain).getD i []).map Node.key)
        ((ht.buckets.getD i []).map Node.key) := by
      intro i
      rw [getD_set_bucket]
      split
      · rename_i hc
        have e3 : ht.buckets.getD i [] = a ++ { key := k, value := v } :: b := by
          rw [← e1, hc.1]; rfl
        rw [e3, e2]
        apply List.Sublist.map
        exact List.Sublist.append (List.Sublist.refl a) (List.sublist_cons_self _ b)
      · exact List.Sublist.refl _
    refine ⟨hwf, ?_, ?_, ?_⟩
    · intro i x hx; exact h.placed i x ((hsub i).subset hx)
    · intro i x hx; exact h.short i x ((hsub i).subset hx)
    · intro i; exact (h.nodup i).sublist (hsub i)
  | none => rw [delete_key_of_none ht k hw]; exact h

theorem WF63_migrate_chain (l : List Node) (ht : HashTable) (m : Nat → Bool) (h : WF63 ht)
    (hl : ∀ n ∈ l, n.key.length ≤ 63) : WF63 (migrate_chain l ht m).1 := by
  induction l generalizing ht m with
  | nil => exact h
  | cons a l ih =>
    exact ih _ _ (WF63_insert ht a.key a.value (m 0) h (hl a (List.mem_cons_self _ _)))
      (fun n hn => hl n (List.mem_cons_of_mem _ hn))

theorem WF63_migrate_buckets (old : List (List Node)) (is : List Nat) (ht : HashTable)
    (m : Nat → Bool) (h : WF63 ht)
    (hl : ∀ (i : Nat) (n : Node), n ∈ old.getD i [] → n.key.length ≤ 63) :
    WF63 (migrate_buckets old is ht m).1 := by
  induction is generalizing ht m with
  | nil => exact h
  | cons i is ih =>
    apply ih
    apply WF63_migrate_chain _ ht m h
    intro n hn
    apply hl i n
    simpa [bucket_at] using hn

theorem WF63_rehash_table (ht : HashTable) (ok : Bool) (m : Nat → Bool) (h : WF63 ht) :
    WF63 (rehash_table ht ok m).2 := by
  cases hc : calloc_buckets (wrap_int (ht.capacity * 2)) ok with
  | none => rw [rehash_table_of_fail ht ok m hc]; exact h
  | some nb =>
    rw [rehash_table_of_ok ht ok m nb hc]
    obtain ⟨-, h0, rfl⟩ := calloc_buckets_some _ _ _ hc
    have hw := wrap_double_pos ht.capacity h.wf.cap_pos h.wf.cap_int h0
    apply WF63_migrate_buckets
    · apply WF63_empty
      · have := h.wf.cap_pos; omega
      · rw [hw.1]; exact hw.2
    · intro i n hn
      exact h.short i n.key (List.mem_map_of_mem Node.key hn)

theorem WF63_of_reachable (ht : HashTable) (h : Reachable63 ht) : WF63 ht := by
  induction h with
  | init c hpos hint =>
    rw [init_table_ok c (le_of_lt hpos)]
    exact WF63_empty c hpos hint.2
  | step ht c _ hk ih =>
    cases c with
    | insert k v ok => exact WF63_insert ht k v ok ih hk
    | delete_key k => exact WF63_delete_key ht k ih
    | rehash_table ok m => exact WF63_rehash_table ht ok m ih

/-! ## Entries and buckets -/

theorem mem_entries_iff (ht : HashTable) (n : Node) :
    n ∈ entries ht ↔ ∃ i : Nat, n ∈ ht.buckets.getD i [] := by
  unfold entries
  rw [List.mem_flatten]
  constructor
  · rintro ⟨chain, hc, hn⟩
    obtain ⟨i, -, e⟩ := (mem_buckets_iff ht.buckets chain).1 hc
    exact ⟨i, by rw [e]; exact hn⟩
  · rintro ⟨i, hn⟩
    by_cases hi : i < ht.buckets.length
    · exact ⟨ht.buckets.getD i [], (mem_buckets_iff _ _).2 ⟨i, hi, rfl⟩, hn⟩
    · rw [List.getD_eq_default _ _ (Nat.le_of_not_lt hi)] at hn
      simp at hn

theorem present_iff (ht : HashTable) (k : List Nat) :
    present ht k ↔ ∃ i : Nat, k ∈ (ht.buckets.getD i []).map Node.key := by
  unfold present
  simp only [List.mem_map, mem_entries_iff]
  constructor
  · rintro ⟨n, ⟨i, hi⟩, e⟩; exact ⟨i, n, hi, e⟩
  · rintro ⟨i, n, hi, e⟩; exact ⟨n, ⟨i, hi⟩, e⟩

theorem present_of_mem_bucket (ht : HashTable) (k : List Nat) (idx : Int)
    (h : k ∈ (bucket_at ht.buckets idx).map Node.key) : present ht k :=
  (present_iff ht k).2 ⟨idx.toNat, h⟩

theorem WF63.mem_bucket_of_present {ht : HashTable} (h : WF63 ht) (k : List Nat)
    (hp : present ht k) :
    k ∈ (bucket_at ht.buckets (hash_function k ht.capacity)).map Node.key := by
  obtain ⟨i, hi⟩ := (present_iff ht k).1 hp
  have e := h.placed i k hi
  unfold bucket_at
  rw [e]
  exact hi

theorem list_ext_getD (l1 l2 : List (List Node)) (hl : l1.length = l2.length)
    (h : ∀ i : Nat, l1.getD i [] = l2.getD i []) : l1 = l2 := by
  apply List.ext_getElem hl
  intro i h1 h2
  have := h i
  rw [List.getD_eq_getElem _ _ h1, List.getD_eq_getElem _ _ h2] at this
  exact this

theorem getD_map_chain (b : List (List Node)) (f : List Node → List Node) (hf : f [] = [])
    (i : Nat) : (b.map f).getD i [] = f (b.getD i []) := by
  by_cases hi : i < b.length
  · rw [List.getD_eq_getElem _ _ (by simpa using hi), List.getD_eq_getElem _ _ hi]
    simp
  · rw [List.getD_eq_default _ _ (by simpa using Nat.le_of_not_lt hi),
      List.getD_eq_default _ _ (Nat.le_of_not_lt hi), hf]

theorem WF63.nodup_entries {ht : HashTable} (h : WF63 ht) :
    ((entries ht).map Node.key).Nodup := by
  unfold entries
  rw [List.map_flatten, List.nodup_flatten]
  constructor
  · intro l hl
    obtain ⟨chain, hc, rfl⟩ := List.mem_map.1 hl
    obtain ⟨i, -, e⟩ := (mem_buckets_iff ht.buckets chain).1 hc
    rw [← e]; exact h.nodup i
  · rw [List.pairwise_iff_getElem]
    intro i j hi hj hij
    simp only [List.getElem_map]
    simp only [List.length_map] at hi hj
    intro x hx1 hx2
    have e1 := h.placed i x (by rw [List.getD_eq_getElem _ _ hi]; exact hx1)
    have e2 := h.placed j x (by rw [List.getD_eq_getElem _ _ hj]; exact hx2)
    omega

theorem insert_capacity (ht : HashTable) (k : List Nat) (v : Int) (ok : Bool) :
    (insert ht k v ok).2.capacity = ht.capacity := by
  cases hw : insert_walk k v (bucket_at ht.buckets (hash_function k ht.capacity)) with
  | some chain => rw [insert_of_some ht k v ok chain hw]
  | none =>
    cases ok with
    | false => rw [insert_of_none_fail ht k v hw]
    | true => rw [insert_of_none_ok ht k v hw]

theorem migrate_chain_capacity (l : List Node) (ht : HashTable) (m : Nat → Bool) :
    (migrate_chain l ht m).1.capacity = ht.capacity := by
  induction l generalizing ht m with
  | nil => rfl
  | cons a l ih =>
    show (migrate_chain l _ _).1.capacity = _
    rw [ih, insert_capacity]

theorem migrate_buckets_capacity (old : List (List Node)) (is : List Nat) (ht : HashTable)
    (m : Nat → Bool) : (migrate_buckets old is ht m).1.capacity = ht.capacity := by
  induction is generalizing ht m with
  | nil => rfl
  | cons i is ih =>
    show (migrate_buckets old is _ _).1.capacity = _
    rw [ih, migrate_chain_capacity]

theorem rehash_table_success (ht : HashTable) (ok : Bool) (m : Nat → Bool)
    (h : (rehash_table ht ok m).1 = SUCCESS) :
    ok = true ∧ 0 ≤ wrap_int (ht.capacity * 2) ∧
      (rehash_table ht ok m).2.capacity = wrap_int (ht.capacity * 2) := by
  cases hc : calloc_buckets (wrap_int (ht.capacity * 2)) ok with
  | none =>
    rw [rehash_table_of_fail ht ok m hc] at h
    simp at h
  | some nb =>
    rw [rehash_table_of_ok ht ok m nb hc]
    obtain ⟨h1, h0, -⟩ := calloc_buckets_some _ _ _ hc
    exact ⟨h1, h0, migrate_buckets_capacity _ _ _ _⟩

/-! ## Sample tables are reachable -/

theorem reachable63_table_empty : Reachable63 table_empty :=
  ReachableWith.init INITIAL_CAPACITY (by decide) (by decide)

theorem reachable63_table_cat : Reachable63 table_cat :=
  ReachableWith.step table_empty (Call.insert key_cat 1 true) reachable63_table_empty
    (show key_cat.length ≤ 63 by decide)

theorem reachable63_table_cat_act : Reachable63 table_cat_act :=
  ReachableWith.step table_cat (Call.insert key_act 2 true) reachable63_table_cat
    (show key_act.length ≤ 63 by decide)

theorem reachable_of_reachable63 (ht : HashTable) (h : Reachable63 ht) : Reachable ht := by
  induction h with
  | init c hpos hint => exact ReachableWith.init c hpos hint
  | step ht c _ _ ih =>
    refine ReachableWith.step ht c ih ?_
    cases c <;> exact trivial

theorem entries_init_table (c : Int) (ok : Bool) : entries (init_table c ok).2 = [] := by
  unfold init_table
  cases hc : calloc_buckets c ok with
  | none => rfl
  | some nb =>
    obtain ⟨-, -, rfl⟩ := calloc_buckets_some _ _ _ hc
    simp [entries, flatten_replicate_nil]

/-! ## Migration of the entries by `rehash_table` -/

theorem migrate_chain_append (l1 l2 : List Node) (ht : HashTable) (m : Nat → Bool) :
    migrate_chain (l1 ++ l2) ht m =
      migrate_chain l2 (migrate_chain l1 ht m).1 (migrate_chain l1 ht m).2 := by
  induction l1 generalizing ht m with
  | nil => rfl
  | cons a l1 ih =>
    show migrate_chain (l1 ++ l2) _ _ = _
    rw [ih]
    rfl

theorem migrate_buckets_eq_chain (old : List (List Node)) (is : List Nat) (ht : HashTable)
    (m : Nat → Bool) :
    migrate_buckets old is ht m =
      migrate_chain (is.map (fun i : Nat => bucket_at old (i : Int))).flatten ht m := by
  induction is generalizing ht m with
  | nil => rfl
  | cons i is ih =>
    show migrate_buckets old is _ _ = _
    rw [ih, List.map_cons, List.flatten_cons, migrate_chain_append]

theorem map_bucket_at_range (b : List (List Node)) :
    (List.range b.length).map (fun i : Nat => bucket_at b (i : Int)) = b := by
  apply List.ext_getElem
  · simp
  · intro i h1 h2
    simp only [List.getElem_map, List.getElem_range, bucket_at, Int.toNat_ofNat]
    exact List.getD_eq_getElem _ _ h2

theorem WF.migrate_buckets_eq {old : HashTable} (h : WF old) (ht : HashTable)
    (m : Nat → Bool) :
    migrate_buckets old.buckets (List.range old.capacity.toNat) ht m =
      migrate_chain (entries old) ht m := by
  rw [migrate_buckets_eq_chain, ← h.len, map_bucket_at_range]
  rfl

theorem flatten_set_bucket (b : List (List Node)) (idx : Int) (chain : List Node)
    (h : idx.toNat < b.length) :
    (set_bucket b idx chain).flatten =
      (b.take idx.toNat).flatten ++ (chain ++ (b.drop (idx.toNat + 1)).flatten) := by
  rw [set_bucket_split b idx chain h]; simp

theorem flatten_split (b : List (List Node)) (idx : Int) (h : idx.toNat < b.length) :
    b.flatten =
      (b.take idx.toNat).flatten ++ (bucket_at b idx ++ (b.drop (idx.toNat + 1)).flatten) := by
  conv_lhs => rw [buckets_split b idx h]
  simp

theorem perm_append_middle (A O B : List Node) (x : Node) :
    (A ++ (O ++ [x] ++ B)).Perm (x :: (A ++ (O ++ B))) := by
  have e1 : A ++ (O ++ [x] ++ B) = (A ++ O) ++ x :: B := by simp
  have e2 : A ++ (O ++ B) = (A ++ O) ++ B := by simp
  rw [e1, e2]
  exact List.perm_middle

theorem WF.entries_insert_absent {ht : HashTable} (h : WF ht) (k : List Nat) (v : Int)
    (hn : ¬ present ht k) :
    insert ht k v true =
      (SUCCESS,
        { ht with
          buckets := set_bucket ht.buckets (hash_function k ht.capacity)
            (bucket_at ht.buckets (hash_function k ht.capacity) ++
              [{ key := k.take 63, value := v }])
          count := ht.count + 1 }) ∧
    (entries (insert ht k v true).2).Perm ({ key := k.take 63, value := v } :: entries ht) := by
  have hw : insert_walk k v (bucket_at ht.buckets (hash_function k ht.capacity)) = none :=
    (insert_walk_none_iff k v _).2 (fun hm => hn (present_of_mem_bucket ht k _ hm))
  have e := insert_of_none_ok ht k v hw
  refine ⟨e, ?_⟩
  rw [e]
  have hi := h.idx_lt k
  unfold entries
  show (set_bucket ht.buckets _ _).flatten.Perm _
  rw [flatten_set_bucket _ _ _ hi]
  conv_rhs => rw [flatten_split ht.buckets _ hi]
  exact perm_append_middle _ _ _ _

theorem migrate_chain_all_ok (l : List Node) (ht : HashTable) (m : Nat → Bool)
    (hm : ∀ n, m n = true) (h : WF63 ht) (hl : ∀ n ∈ l, n.key.length ≤ 63)
    (hnd : (l.map Node.key).Nodup) (hdis : ∀ n ∈ l, ¬ present ht n.key) :
    (entries (migrate_chain l ht m).1).Perm (l ++ entries ht) := by
  induction l generalizing ht m with
  | nil => exact List.Perm.refl _
  | cons a l ih =>
    simp only [List.map_cons, List.nodup_cons] at hnd
    have ha := hl a (List.mem_cons_self _ _)
    have hna := hdis a (List.mem_cons_self _ _)
    obtain ⟨-, hp⟩ := h.wf.entries_insert_absent a.key a.value hna
    have htake : a.key.take 63 = a.key := List.take_of_length_le ha
    rw [htake] at hp
    have h1 : WF63 (insert ht a.key a.value true).2 := WF63_insert ht a.key a.value true h ha
    have hdis1 : ∀ n ∈ l, ¬ present (insert ht a.key a.value true).2 n.key := by
      intro n hn hpres
      unfold present at hpres
      have := (hp.map Node.key).subset hpres
      simp only [List.map_cons, List.mem_cons] at this
      rcases this with e | e2
      · apply hnd.1; rw [← e]; exact List.mem_map_of_mem Node.key hn
      · exact hdis n (List.mem_cons_of_mem _ hn) e2
    show (entries (migrate_chain l (insert ht a.key a.value (m 0)).2 _).1).Perm _
    rw [hm 0]
    have := ih (insert ht a.key a.value true).2 (fun n => m (n + 1)) (fun n => hm (n + 1)) h1
      (fun n hn => hl n (List.mem_cons_of_mem _ hn)) hnd.2 hdis1
    refine this.trans ?_
    refine (List.Perm.append_left l hp).trans ?_
    exact List.perm_middle

theorem WF63.search_of_mem {ht : HashTable} (h : WF63 ht) (k : List Nat) (v v0 : Int)
    (hm : ({ key := k, value := v } : Node) ∈ entries ht) : search ht k v0 = (SUCCESS, v) := by
  obtain ⟨i, hi⟩ := (mem_entries_iff ht _).1 hm
  have e := h.placed i k (List.mem_map_of_mem Node.key hi)
  unfold search bucket_at
  rw [e]
  exact search_walk_mem k v v0 _ (h.nodup i) hi

theorem search_of_not_present (ht : HashTable) (k : List Nat) (v0 : Int)
    (hn : ¬ present ht k) : search ht k v0 = (ERR_KEY_NOT_FOUND, v0) :=
  search_walk_not_mem k v0 _ (fun hm => hn (present_of_mem_bucket ht k _ hm))

theorem search_eq_of_perm (ht ht2 : HashTable) (h : WF63 ht) (h2 : WF63 ht2)
    (hp : (entries ht2).Perm (entries ht)) (k : List Nat) (v0 : Int) :
    search ht2 k v0 = search ht k v0 := by
  rcases search_walk_cases k v0
      (bucket_at ht.buckets (hash_function k ht.capacity)) with ⟨h1, e⟩ | ⟨v, h1, e⟩
  · have hn : ¬ present ht k := fun hpres => h1 (h.mem_bucket_of_present k hpres)
    have hn2 : ¬ present ht2 k := fun hpres => hn ((hp.map Node.key).subset hpres)
    rw [search_of_not_present ht2 k v0 hn2]
    exact e.symm
  · have hm : ({ key := k, value := v } : Node) ∈ entries ht :=
      (mem_entries_iff ht _).2 ⟨_, h1⟩
    rw [h2.search_of_mem k v v0 (hp.symm.subset hm)]
    exact e.symm

/-- When the bucket array and every re-created entry are allocated, `rehash_table` on a
table built from keys of at most 63 bytes returns `SUCCESS` at twice the capacity (if that
is an `int`), keeps the entries as a multiset, keeps `count` and keeps the outcome of every
`search`. -/
theorem rehash_table_all_ok (ht : HashTable) (m : Nat → Bool) (hr : Reachable63 ht)
    (hm : ∀ n, m n = true) (hc : 2 * ht.capacity ≤ 2147483647) :
    (rehash_table ht true m).1 = SUCCESS ∧
      (entries (rehash_table ht true m).2).Perm (entries ht) ∧
      (rehash_table ht true m).2.count = ht.count ∧
      ∀ (k : List Nat) (v0 : Int), search (rehash_table ht true m).2 k v0 = search ht k v0 := by
  have h := WF63_of_reachable ht hr
  have hpos := h.wf.cap_pos
  have hw : wrap_int (ht.capacity * 2) = ht.capacity * 2 :=
    wrap_int_of_int _ ⟨by omega, by omega⟩
  have hcal : calloc_buckets (wrap_int (ht.capacity * 2)) true =
      some (List.replicate (ht.capacity * 2).toNat []) := by
    unfold calloc_buckets
    rw [hw, if_pos ⟨rfl, by omega⟩]
  have e := rehash_table_of_ok ht true m _ hcal
  have h2 := WF63_rehash_table ht true m h
  rw [e] at h2 ⊢
  rw [h.wf.migrate_buckets_eq] at h2 ⊢
  rw [hw] at h2 ⊢
  have hemp : WF63 ⟨List.replicate (ht.capacity * 2).toNat [], ht.capacity * 2, 0⟩ :=
    WF63_empty _ (by omega) (by omega)
  have hperm := migrate_chain_all_ok (entries ht)
    ⟨List.replicate (ht.capacity * 2).toNat [], ht.capacity * 2, 0⟩ m hm hemp
    (fun n hn => by
      obtain ⟨i, hi⟩ := (mem_entries_iff ht n).1 hn
      exact h.short i n.key (List.mem_map_of_mem Node.key hi))
    h.nodup_entries
    (fun n _ hpres => by
      unfold present entries at hpres
      simp [flatten_replicate_nil] at hpres)
  have hperm2 : (entries (migrate_chain (entries ht)
      ⟨List.replicate (ht.capacity * 2).toNat [], ht.capacity * 2, 0⟩ m).1).Perm
      (entries ht) := by
    refine hperm.trans ?_
    simp [entries, flatten_replicate_nil]
  refine ⟨rfl, hperm2, ?_, fun k v0 => search_eq_of_perm ht _ h h2 hperm2 k v0⟩
  rw [h2.wf.count_eq, h.wf.count_eq]
  unfold total_entries
  rw [hperm2.length_eq]

theorem WF.search_insert {ht : HashTable} (h : WF ht) (k : List Nat) (v v0 : Int)
    (ok : Bool) (hk : k.length ≤ 63) (hs : (insert ht k v ok).1 = SUCCESS) :
    search (insert ht k v ok).2 k v0 = (SUCCESS, v) := by
  have hi := h.idx_lt k
  cases hw : insert_walk k v (bucket_at ht.buckets (hash_function k ht.capacity)) with
  | some chain =>
    rw [insert_of_some ht k v ok chain hw]
    unfold search
    simp only [bucket_at_set_bucket_same _ _ _ hi]
    exact search_walk_insert_walk k v v0 _ chain hw
  | none =>
    cases ok with
    | false =>
      rw [insert_of_none_fail ht k v hw] at hs
      simp at hs
    | true =>
      rw [insert_of_none_ok ht k v hw]
      unfold search
      simp only [bucket_at_set_bucket_same _ _ _ hi]
      rw [search_walk_append k v0 _ _ ((insert_walk_none_iff k v _).1 hw)]
      simp [List.take_of_length_le hk]

/-! ## Properties of the table -/

/-- C1: in every table obtained from `init_table(c)`, `c > 0`, by any finite sequence of
`insert`, `delete_key` and `rehash_table` calls (every successful call included, with keys
of any length), the field `count` is the number of entries found by walking the chains of
all buckets. -/
theorem count_eq_total_entries (ht : HashTable) (hr : Reachable ht) :
    ht.count = total_entries ht :=
  (WF_of_reachable _ ht hr).count_eq

theorem count_eq_total_entries_witness :
    Reachable table_cat_act ∧ table_cat_act.count = total_entries table_cat_act :=
  ⟨reachable_of_reachable63 _ reachable63_table_cat_act,
    count_eq_total_entries table_cat_act
      (reachable_of_reachable63 _ reachable63_table_cat_act)⟩

/-- C2: insert/search round trip.  On a table reachable from `init_table(c)`, `c > 0` (by
calls with keys of any length), for a key `k` of at most 63 bytes and a value `v`, when
`insert(k, v)` returns `SUCCESS` the call `search(k)` on the resulting table returns
`SUCCESS` and writes `v` to `*value`. -/
theorem search_after_insert (ht : HashTable) (k : List Nat) (v v0 : Int) (ok : Bool)
    (hr : Reachable ht) (hk : k.length ≤ 63) (hs : (insert ht k v ok).1 = SUCCESS) :
    search (insert ht k v ok).2 k v0 = (SUCCESS, v) :=
  (WF_of_reachable _ ht hr).search_insert k v v0 ok hk hs

theorem search_after_insert_witness :
    Reachable table_cat ∧ key_act.length ≤ 63 ∧
      (insert table_cat key_act 2 true).1 = SUCCESS ∧
      search (insert table_cat key_act 2 true).2 key_act 0 = (SUCCESS, 2) :=
  ⟨reachable_of_reachable63 _ reachable63_table_cat, by decide, by decide,
    search_after_insert table_cat key_act 2 0 true
      (reachable_of_reachable63 _ reachable63_table_cat) (by decide) (by decide)⟩

/-- C6: on every table (reachable or not, the empty table returned by `init_table`
included) `delete_key(k)` of a key `k` that no entry holds returns `ERR_KEY_NOT_FOUND` and
leaves the table as it was: same capacity, same count, same chains. -/
theorem delete_key_absent (ht : HashTable) (k : List Nat) (hn : ¬ present ht k) :
    delete_key ht k = (ERR_KEY_NOT_FOUND, ht) ∧
      ∀ c : Int, delete_key (init_table c true).2 k =
        (ERR_KEY_NOT_FOUND, (init_table c true).2) := by
  have key : ∀ t : HashTable, ¬ present t k → delete_key t k = (ERR_KEY_NOT_FOUND, t) := by
    intro t ht
    apply delete_key_of_none
    rw [delete_walk_none_iff]
    exact fun hm => ht (present_of_mem_bucket t k _ hm)
  refine ⟨key ht hn, fun c => key _ ?_⟩
  unfold present
  rw [entries_init_table]
  simp

theorem delete_key_absent_witness :
    ¬ present table_cat key_act ∧
      (delete_key table_cat key_act = (ERR_KEY_NOT_FOUND, table_cat) ∧
        ∀ c : Int, delete_key (init_table c true).2 key_act =
          (ERR_KEY_NOT_FOUND, (init_table c true).2)) :=
  ⟨by decide, delete_key_absent table_cat key_act (by decide)⟩

/-- C9: for every table with capacity `c`, `0 < c` and `2c <= 2^31 - 1`, a `rehash_table`
that returns `SUCCESS` leaves the table with capacity exactly `2c`. -/
theorem rehash_table_doubles_capacity (ht : HashTable) (ok : Bool) (m : Nat → Bool)
    (h0 : 0 < ht.capacity) (h1 : 2 * ht.capacity ≤ 2147483647)
    (hs : (rehash_table ht ok m).1 = SUCCESS) :
    (rehash_table ht ok m).2.capacity = 2 * ht.capacity := by
  rw [(rehash_table_success ht ok m hs).2.2, wrap_int_of_int _ ⟨by omega, by omega⟩]
  ring

theorem rehash_table_doubles_capacity_witness :
    0 < table_empty.capacity ∧ 2 * table_empty.capacity ≤ 2147483647 ∧
      (rehash_table table_empty true (fun _ => true)).1 = SUCCESS ∧
      table_empty.capacity = 10 ∧
      (rehash_table table_empty true (fun _ => true)).2.capacity = 2 * table_empty.capacity :=
  ⟨by decide, by decide, by decide, by decide,
    rehash_table_doubles_capacity table_empty true (fun _ => true) (by decide) (by decide)
      (by decide)⟩

theorem countP_key_of_nodup (k : List Nat) (l : List Node) (hn : (l.map Node.key).Nodup)
    (hp : k ∈ l.map Node.key) : l.countP (fun n => decide (n.key = k)) = 1 := by
  induction l with
  | nil => simp at hp
  | cons a l ih =>
    simp only [List.map_cons, List.nodup_cons] at hn
    by_cases e : a.key = k
    · have hk : k ∉ l.map Node.key := by rw [← e]; exact hn.1
      have h0 : l.countP (fun n => decide (n.key = k)) = 0 := by
        rw [List.countP_eq_zero]
        intro n hmem
        simp only [decide_eq_true_eq]
        intro hk2
        exact hk (hk2 ▸ List.mem_map_of_mem Node.key hmem)
      rw [List.countP_cons_of_pos _ _ (by simpa using e), h0]
    · have hk : k ∈ l.map Node.key := by
        rcases List.mem_cons.1 hp with h1 | h1
        · exact absurd h1.symm e
        · exact h1
      rw [List.countP_cons_of_neg _ _ (by simpa using e)]
      exact ih hn.2 hk

theorem WF63.countP_key {ht : HashTable} (h : WF63 ht) (k : List Nat) (hp : present ht k) :
    (entries ht).countP (fun n => decide (n.key = k)) = 1 := by
  exact countP_key_of_nodup k (entries ht) h.nodup_entries hp

theorem WF63.insert_present {ht : HashTable} (h : WF63 ht) (k : List Nat) (v2 : Int)
    (ok : Bool) (hp : present ht k) :
    insert ht k v2 ok =
      (SUCCESS, { ht with buckets := ht.buckets.map (List.map (overwrite k v2)) }) := by
  have hm := h.mem_bucket_of_present k hp
  have hi := h.wf.idx_lt k
  have hr := hash_function_range k ht.capacity h.wf.cap_pos h.wf.cap_int
  cases hw : insert_walk k v2 (bucket_at ht.buckets (hash_function k ht.capacity)) with
  | none => exact absurd hm ((insert_walk_none_iff k v2 _).1 hw)
  | some chain =>
    rw [insert_of_some ht k v2 ok chain hw]
    have hc := insert_walk_some_eq_map k v2 _ chain
      (h.nodup (hash_function k ht.capacity).toNat) hw
    have hb : set_bucket ht.buckets (hash_function k ht.capacity) chain =
        ht.buckets.map (List.map (overwrite k v2)) := by
      apply list_ext_getD
      · simp [length_set_bucket]
      · intro i
        rw [getD_set_bucket, getD_map_chain _ _ rfl]
        by_cases e : i = (hash_function k ht.capacity).toNat
        · rw [if_pos ⟨e, hi⟩, hc, e]
        · rw [if_neg (fun hc => e hc.1)]
          symm
          apply map_overwrite_of_not_mem
          intro hk
          have := h.placed i k hk
          omega
    rw [hb]

/-- C3, as amended: upsert.  On a table reachable with keys of at most 63 bytes (no longer
key was ever given to `insert`), `insert(k, v2)` of a key `k` that is present returns
`SUCCESS` (whatever `malloc` would do), leaves `count` and `capacity` unchanged, rewrites
each chain position by position, only the single entry with key `k` getting the new value
`v2`, and a following `search(k)` yields `v2`.  When `k` (at most 63 bytes) is absent,
`insert(k, v1); insert(k, v2); search(k)` gives `v2` with `count` increased by one in
total. -/
theorem insert_present_overwrites (ht : HashTable) (k : List Nat) (v2 : Int) (ok : Bool)
    (hr : Reachable63 ht) (hk : k.length ≤ 63) :
    (present ht k →
      (insert ht k v2 ok).1 = SUCCESS ∧
      (insert ht k v2 ok).2.count = ht.count ∧
      (insert ht k v2 ok).2.capacity = ht.capacity ∧
      (insert ht k v2 ok).2.buckets = ht.buckets.map (List.map (overwrite k v2)) ∧
      (insert ht k v2 ok).2.buckets.map (List.map Node.key) =
        ht.buckets.map (List.map Node.key) ∧
      (entries ht).countP (fun n => decide (n.key = k)) = 1 ∧
      ∀ v0 : Int, search (insert ht k v2 ok).2 k v0 = (SUCCESS, v2)) ∧
    (¬ present ht k → ∀ v1 : Int,
      (insert ht k v1 true).1 = SUCCESS ∧
      (insert (insert ht k v1 true).2 k v2 ok).1 = SUCCESS ∧
      (insert (insert ht k v1 true).2 k v2 ok).2.count = ht.count + 1 ∧
      ∀ v0 : Int, search (insert (insert ht k v1 true).2 k v2 ok).2 k v0 = (SUCCESS, v2)) := by
  have branch : ∀ t : HashTable, Reachable63 t → present t k →
      (insert t k v2 ok).1 = SUCCESS ∧
      (insert t k v2 ok).2.count = t.count ∧
      (insert t k v2 ok).2.capacity = t.capacity ∧
      (insert t k v2 ok).2.buckets = t.buckets.map (List.map (overwrite k v2)) ∧
      (insert t k v2 ok).2.buckets.map (List.map Node.key) =
        t.buckets.map (List.map Node.key) ∧
      (entries t).countP (fun n => decide (n.key = k)) = 1 ∧
      ∀ v0 : Int, search (insert t k v2 ok).2 k v0 = (SUCCESS, v2) := by
    intro t ht hp
    have h := WF63_of_reachable t ht
    have e := h.insert_present k v2 ok hp
    refine ⟨by rw [e], by rw [e], by rw [e], by rw [e], ?_, h.countP_key k hp, ?_⟩
    · rw [e]
      simp only [List.map_map]
      apply List.map_congr_left
      intro chain _
      simp only [Function.comp_apply, List.map_map]
      apply List.map_congr_left
      intro n _
      exact overwrite_key k v2 n
    · intro v0
      exact h.wf.search_insert k v2 v0 ok hk (by rw [e])
  refine ⟨branch ht hr, ?_⟩
  intro hn v1
  have hw : insert_walk k v1 (bucket_at ht.buckets (hash_function k ht.capacity)) = none :=
    (insert_walk_none_iff k v1 _).2 (fun hm => hn (present_of_mem_bucket ht k _ hm))
  have e1 := insert_of_none_ok ht k v1 hw
  have hr1 : Reachable63 (insert ht k v1 true).2 :=
    ReachableWith.step ht (Call.insert k v1 true) hr hk
  have hp1 : present (insert ht k v1 true).2 k := by
    rcases search_walk_cases k 0
        (bucket_at (insert ht k v1 true).2.buckets
          (hash_function k (insert ht k v1 true).2.capacity)) with ⟨_, h2⟩ | ⟨v, h1, _⟩
    · have := (WF63_of_reachable ht hr).wf.search_insert k v1 0 true hk (by rw [e1])
      unfold search at this
      rw [this] at h2
      simp at h2
    · exact present_of_mem_bucket _ k _ (List.mem_map_of_mem Node.key h1)
  obtain ⟨b1, b2, -, -, -, -, b7⟩ := branch _ hr1 hp1
  refine ⟨by rw [e1], b1, ?_, b7⟩
  rw [b2, e1]

theorem insert_present_overwrites_witness :
    Reachable63 table_cat ∧ key_cat.length ≤ 63 ∧ present table_cat key_cat ∧
      ¬ present table_cat key_x ∧
      (insert table_cat key_cat 2 true).2.count = table_cat.count ∧
      search (insert table_cat key_cat 2 true).2 key_cat 0 = (SUCCESS, 2) ∧
      (insert (insert table_cat key_x 1 true).2 key_x 2 true).2.count = table_cat.count + 1 :=
  ⟨reachable63_table_cat, by decide, by decide, by decide,
    ((insert_present_overwrites table_cat key_cat 2 true reachable63_table_cat
      (by decide)).1 (by decide)).2.1,
    ((insert_present_overwrites table_cat key_cat 2 true reachable63_table_cat
      (by decide)).1 (by decide)).2.2.2.2.2.2 0,
    ((insert_present_overwrites table_cat key_x 2 true reachable63_table_cat
      (by decide)).2 (by decide) 1).2.2.1⟩

/-- C3 fails on a table reached through an over-long key: after `init_table(10)` and
`insert` of the 64-byte key `aaa...ab`, the stored key is its first 63 bytes, kept in bucket
9 (the hash of the 64 bytes); that 63-byte key is present, yet `insert` of it walks bucket 1,
appends a second entry and increments `count`. -/
theorem insert_present_overwrites_counterexample :
    Reachable table_long ∧ key_a63.length ≤ 63 ∧ present table_long key_a63 ∧
      hash_function key_a63b 10 = 9 ∧ hash_function key_a63 10 = 1 ∧
      table_long.count = 1 ∧
      (insert table_long key_a63 2 true).2.count = 2 ∧
      (entries (insert table_long key_a63 2 true).2).map Node.value = [2, 1] :=
  ⟨ReachableWith.step table_empty (Call.insert key_a63b 1 true)
      (reachable_of_reachable63 _ reachable63_table_empty) trivial,
    by decide, by decide, by decide, by decide, by decide, by decide, by decide⟩

/-- C5, as amended: on a table reachable with keys of at most 63 bytes (no longer key was
ever given to `insert`), `delete_key(k)` of a present key `k` returns `SUCCESS` and decrements `count` by exactly 1; afterwards `search(k)`
returns `ERR_KEY_NOT_FOUND` (leaving `*value` alone) and a second `delete_key(k)` returns
`ERR_KEY_NOT_FOUND`. -/
theorem delete_key_present (ht : HashTable) (k : List Nat) (hr : Reachable63 ht)
    (hp : present ht k) :
    (delete_key ht k).1 = SUCCESS ∧
      (delete_key ht k).2.count = ht.count - 1 ∧
      (∀ v0 : Int, search (delete_key ht k).2 k v0 = (ERR_KEY_NOT_FOUND, v0)) ∧
      (delete_key (delete_key ht k).2 k).1 = ERR_KEY_NOT_FOUND := by
  have h := WF63_of_reachable ht hr
  have hm := h.mem_bucket_of_present k hp
  have hi := h.wf.idx_lt k
  cases hw : delete_walk k (bucket_at ht.buckets (hash_function k ht.capacity)) with
  | none => exact absurd hm ((delete_walk_none_iff k _).1 hw)
  | some chain =>
    obtain ⟨a, v, b, e1, e2, ha⟩ := delete_walk_some k _ chain hw
    have hnd := h.nodup (hash_function k ht.capacity).toNat
    have hnot : k ∉ chain.map Node.key := by
      have e3 : ht.buckets.getD (hash_function k ht.capacity).toNat [] =
          a ++ { key := k, value := v } :: b := e1
      rw [e3] at hnd
      simp only [List.map_append, List.map_cons] at hnd
      have hb := (List.nodup_cons.1 (List.nodup_append.1 hnd).2.1).1
      rw [e2, List.map_append, List.mem_append]
      rintro (hx | hx)
      · exact ha hx
      · exact hb hx
    rw [delete_key_of_some ht k chain hw]
    refine ⟨rfl, rfl, ?_, ?_⟩
    · intro v0
      unfold search
      simp only [bucket_at_set_bucket_same _ _ _ hi]
      exact search_walk_not_mem k v0 chain hnot
    · rw [delete_key_of_none]
      simp only [bucket_at_set_bucket_same _ _ _ hi]
      exact (delete_walk_none_iff k chain).2 hnot

theorem delete_key_present_witness :
    Reachable63 table_cat_act ∧ present table_cat_act key_cat ∧
      ((delete_key table_cat_act key_cat).1 = SUCCESS ∧
      (delete_key table_cat_act key_cat).2.count = table_cat_act.count - 1 ∧
      (∀ v0 : Int,
        search (delete_key table_cat_act key_cat).2 key_cat v0 = (ERR_KEY_NOT_FOUND, v0)) ∧
      (delete_key (delete_key table_cat_act key_cat).2 key_cat).1 = ERR_KEY_NOT_FOUND) :=
  ⟨reachable63_table_cat_act, by decide,
    delete_key_present table_cat_act key_cat reachable63_table_cat_act (by decide)⟩

/-- C5 fails on a table reached through an over-long key: after `init_table(10)` and
`insert` of the 64-byte key `aaa...ab`, the stored 63-byte key is present (in bucket 9), yet
`delete_key` of it walks bucket 1 and returns `ERR_KEY_NOT_FOUND`. -/
theorem delete_key_present_counterexample :
    Reachable table_long ∧ key_a63.length ≤ 63 ∧ present table_long key_a63 ∧
      delete_key table_long key_a63 = (ERR_KEY_NOT_FOUND, table_long) :=
  ⟨ReachableWith.step table_empty (Call.insert key_a63b 1 true)
      (reachable_of_reachable63 _ reachable63_table_empty) trivial,
    by decide, by decide, by decide⟩

theorem WF63.mem_bucket_iff {ht : HashTable} (h : WF63 ht) (n : Node) (hn : n ∈ entries ht)
    (i : Nat) :
    n ∈ bucket_at ht.buckets (i : Int) ↔ (i : Int) = hash_function n.key ht.capacity := by
  have hb : bucket_at ht.buckets (i : Int) = ht.buckets.getD i [] := by
    unfold bucket_at; simp
  rw [hb]
  constructor
  · intro hi
    exact (h.placed i n.key (List.mem_map_of_mem Node.key hi)).symm
  · intro hi
    obtain ⟨j, hj⟩ := (mem_entries_iff ht n).1 hn
    have := h.placed j n.key (List.mem_map_of_mem Node.key hj)
    have e : i = j := by omega
    rw [e]; exact hj

/-- C7: placement invariant.  In a table reachable from `init_table(c)`, `c > 0`, by
`insert`, `delete_key` and `rehash_table` calls with keys of at most 63 bytes, an entry
lies in bucket `i` exactly when `i` is `hash_function(entry key, current capacity)`, so it
lies in one bucket only; after a `rehash_table` that returns `SUCCESS` this holds at the
doubled capacity. -/
theorem entries_placed_by_hash (ht : HashTable) (hr : Reachable63 ht) :
    (∀ n ∈ entries ht, ∀ i : Nat,
      n ∈ bucket_at ht.buckets (i : Int) ↔ (i : Int) = hash_function n.key ht.capacity) ∧
    (∀ (ok : Bool) (m : Nat → Bool), (rehash_table ht ok m).1 = SUCCESS →
      (rehash_table ht ok m).2.capacity = 2 * ht.capacity ∧
      ∀ n ∈ entries (rehash_table ht ok m).2, ∀ i : Nat,
        n ∈ bucket_at (rehash_table ht ok m).2.buckets (i : Int) ↔
          (i : Int) = hash_function n.key (2 * ht.capacity)) := by
  have h := WF63_of_reachable ht hr
  refine ⟨fun n hn i => h.mem_bucket_iff n hn i, ?_⟩
  intro ok m hs
  have h2 := WF63_rehash_table ht ok m h
  obtain ⟨-, h0, hc⟩ := rehash_table_success ht ok m hs
  have hw := wrap_double_pos ht.capacity h.wf.cap_pos h.wf.cap_int h0
  have hcap : (rehash_table ht ok m).2.capacity = 2 * ht.capacity := by
    rw [hc, hw.1]; ring
  refine ⟨hcap, fun n hn i => ?_⟩
  rw [← hcap]
  exact h2.mem_bucket_iff n hn i

theorem entries_placed_by_hash_witness :
    Reachable63 table_cat_act ∧
      ((∀ n ∈ entries table_cat_act, ∀ i : Nat,
        n ∈ bucket_at table_cat_act.buckets (i : Int) ↔
          (i : Int) = hash_function n.key table_cat_act.capacity) ∧
      (∀ (ok : Bool) (m : Nat → Bool), (rehash_table table_cat_act ok m).1 = SUCCESS →
        (rehash_table table_cat_act ok m).2.capacity = 2 * table_cat_act.capacity ∧
        ∀ n ∈ entries (rehash_table table_cat_act ok m).2, ∀ i : Nat,
          n ∈ bucket_at (rehash_table table_cat_act ok m).2.buckets (i : Int) ↔
            (i : Int) = hash_function n.key (2 * table_cat_act.capacity))) :=
  ⟨reachable63_table_cat_act, entries_placed_by_hash table_cat_act reachable63_table_cat_act⟩

/-- C8: key uniqueness.  In a table reachable from `init_table(c)`, `c > 0`, by `insert`,
`delete_key` and `rehash_table` calls with keys of at most 63 bytes, the keys of the
entries of all buckets, taken together, are pairwise distinct. -/
theorem keys_unique (ht : HashTable) (hr : Reachable63 ht) :
    ((entries ht).map Node.key).Nodup :=
  (WF63_of_reachable ht hr).nodup_entries

theorem keys_unique_witness :
    Reachable63 table_cat_act ∧ ((entries table_cat_act).map Node.key).Nodup :=
  ⟨reachable63_table_cat_act, keys_unique table_cat_act reachable63_table_cat_act⟩

/-- C4: evaluation of `rehash_table` where the claim fails.  On the table holding only
`"cat" -> 1` (capacity 10), with the new bucket array allocated and the `malloc` of the
re-insert returning `NULL`, `rehash_table` returns `SUCCESS`, `count` goes from 1 to 0 and
`search("cat")` goes from `SUCCESS` with value 1 to `ERR_KEY_NOT_FOUND`. -/
theorem rehash_table_failed_malloc_changes_search :
    Reachable63 table_cat ∧
      (rehash_table table_cat true (fun _ => false)).1 = SUCCESS ∧
      table_cat.count = 1 ∧
      (rehash_table table_cat true (fun _ => false)).2.count = 0 ∧
      search table_cat key_cat 0 = (SUCCESS, 1) ∧
      search (rehash_table table_cat true (fun _ => false)).2 key_cat 0 =
        (ERR_KEY_NOT_FOUND, 0) :=
  ⟨reachable63_table_cat, by decide, by decide, by decide, by decide, by decide⟩

/-- C10: evaluation of `rehash_table` where the claim fails.  On the table holding
`"cat" -> 1` and `"act" -> 2` (capacity 10), with the new bucket array and the first
re-created entry allocated and the second `malloc` returning `NULL`, `rehash_table`
returns `SUCCESS` and the table holds the single entry `"cat" -> 1`: the entry
`"act" -> 2` is lost. -/
theorem rehash_table_failed_malloc_drops_entry :
    Reachable63 table_cat_act ∧
      (rehash_table table_cat_act true (fun n => decide (n = 0))).1 = SUCCESS ∧
      entries table_cat_act =
        [{ key := key_cat, value := 1 }, { key := key_act, value := 2 }] ∧
      entries (rehash_table table_cat_act true (fun n => decide (n = 0))).2 =
        [{ key := key_cat, value := 1 }] :=
  ⟨reachable63_table_cat_act, by decide, by decide, by decide⟩

/-! ## The counters of `run_stats` -/

theorem chain_len_walk_eq (l : List Node) (n : Int) :
    chain_len_walk l n = n + (l.length : Int) := by
  induction l generalizing n with
  | nil => simp [chain_len_walk]
  | cons a l ih =>
    rw [chain_len_walk, ih]
    simp only [List.length_cons, Nat.cast_add, Nat.cast_one]
    ring

theorem run_stats_bucket_eq (b : List (List Node)) (st : Stats) (i : Nat)
    (h0 : 0 ≤ st.max_chain) :
    run_stats_bucket b st i =
      { used_buckets := st.used_buckets + (if bucket_at b (i : Int) ≠ [] then 1 else 0)
        collisions := st.collisions + max (((bucket_at b (i : Int)).length : Int) - 1) 0
        max_chain := max ((bucket_at b (i : Int)).length : Int) st.max_chain } := by
  unfold run_stats_bucket
  cases hb : bucket_at b (i : Int) with
  | nil =>
    simp only [ne_eq, not_true_eq_false, if_false, List.length_nil, Nat.cast_zero]
    cases st
    simp only [Stats.mk.injEq]
    simp only at h0
    refine ⟨by omega, by omega, by omega⟩
  | cons a l =>
    simp only [ne_eq, reduceCtorEq, not_false_eq_true, if_true, chain_len_walk_eq,
      List.length_cons, Nat.cast_add, Nat.cast_one, Stats.mk.injEq]
    refine ⟨trivial, ?_, ?_⟩
    · split <;> omega
    · split <;> omega

theorem run_stats_bucket_nonneg (b : List (List Node)) (st : Stats) (i : Nat)
    (h0 : 0 ≤ st.max_chain) : 0 ≤ (run_stats_bucket b st i).max_chain := by
  rw [run_stats_bucket_eq b st i h0]
  simp only
  omega

theorem foldl_run_stats_bucket (b : List (List Node)) (is : List Nat) (st : Stats)
    (h0 : 0 ≤ st.max_chain) :
    (is.foldl (run_stats_bucket b) st).used_buckets =
        st.used_buckets +
          ((is.filter (fun i : Nat => decide (bucket_at b (i : Int) ≠ []))).length : Int) ∧
      (is.foldl (run_stats_bucket b) st).collisions =
        st.collisions +
          (is.map (fun i : Nat => max (((bucket_at b (i : Int)).length : Int) - 1) 0)).sum ∧
      (is.foldl (run_stats_bucket b) st).max_chain =
        max st.max_chain
          ((is.map (fun i : Nat => ((bucket_at b (i : Int)).length : Int))).foldr max 0) := by
  induction is generalizing st with
  | nil => simp [h0]
  | cons i is ih =>
    have h1 := run_stats_bucket_nonneg b st i h0
    obtain ⟨e1, e2, e3⟩ := ih (run_stats_bucket b st i) h1
    simp only [List.foldl_cons, List.map_cons, List.sum_cons, List.foldr_cons]
    rw [e1, e2, e3, run_stats_bucket_eq b st i h0]
    simp only
    refine ⟨?_, by ring, ?_⟩
    · by_cases hb : bucket_at b (i : Int) = []
      · simp [hb, List.filter_cons]
      · simp [hb, List.filter_cons]
        ring
    · rw [max_comm ((bucket_at b (i : Int)).length : Int) st.max_chain, max_assoc]

theorem foldr_max_ge (l : List Int) : ∀ x ∈ l, x ≤ l.foldr max 0 := by
  induction l with
  | nil => simp
  | cons a l ih =>
    intro x hx
    simp only [List.foldr_cons]
    rcases List.mem_cons.1 hx with e | e
    · rw [e]; exact le_max_left _ _
    · exact le_trans (ih x e) (le_max_right _ _)

theorem foldr_max_attained (l : List Int) : l.foldr max 0 = 0 ∨ l.foldr max 0 ∈ l := by
  induction l with
  | nil => left; rfl
  | cons a l ih =>
    simp only [List.foldr_cons, List.mem_cons]
    rcases le_total a (l.foldr max 0) with h | h
    · rw [max_eq_right h]
      rcases ih with e | e
      · left; exact e
      · right; right; exact e
    · rw [max_eq_left h]
      right; left; trivial

theorem foldr_max_nonneg (l : List Int) : 0 ≤ l.foldr max 0 := by
  induction l with
  | nil => simp
  | cons a l ih =>
    simp only [List.foldr_cons]
    exact le_trans ih (le_max_right _ _)

theorem bucket_at_nil_of_entries_nil (ht : HashTable) (h : entries ht = []) (i : Nat) :
    bucket_at ht.buckets (i : Int) = [] := by
  apply List.eq_nil_iff_forall_not_mem.2
  intro n hn
  have hm : n ∈ entries ht := (mem_entries_iff ht n).2 ⟨i, by simpa [bucket_at] using hn⟩
  rw [h] at hm
  simp at hm

/-- C18: concrete scenario.  On the table created with capacity 10, `insert("cat", 1)` and
`insert("act", 2)` succeed, both keys have byte sum 312 and bucket index 2, bucket 2 holds
the two entries in insertion order, the counters of `run_stats` give collisions = 1 and
longest chain = 2, `search("cat")` yields 1 and `search("act")` yields 2. -/
theorem scenario_cat_act :
    table_empty.capacity = 10 ∧
      (insert table_empty key_cat 1 true).1 = SUCCESS ∧
      (insert table_cat key_act 2 true).1 = SUCCESS ∧
      hash_sum key_cat 0 = 312 ∧ hash_sum key_act 0 = 312 ∧
      hash_function key_cat 10 = 2 ∧ hash_function key_act 10 = 2 ∧
      bucket_at table_cat_act.buckets 2 =
        [{ key := key_cat, value := 1 }, { key := key_act, value := 2 }] ∧
      (run_stats_loop table_cat_act).collisions = 1 ∧
      (run_stats_loop table_cat_act).max_chain = 2 ∧
      search table_cat_act key_cat 0 = (SUCCESS, 1) ∧
      search table_cat_act key_act 0 = (SUCCESS, 2) :=
  ⟨by decide, by decide, by decide, by decide, by decide, by decide, by decide, by decide,
    by decide, by decide, by decide, by decide⟩

/-- C19: for every table, the `collisions` counter computed by the loop of `run_stats`
equals the sum over the buckets `0 .. capacity - 1` of `max(chain length - 1, 0)`. -/
theorem collisions_eq_spec (ht : HashTable) :
    (run_stats_loop ht).collisions = collisions_spec ht := by
  unfold run_stats_loop collisions_spec chain_length
  rw [(foldl_run_stats_bucket ht.buckets _ ⟨0, 0, 0⟩ (le_refl _)).2.1]
  simp

/-- C20: for every table, the `max_chain` counter computed by the loop of `run_stats` is the
maximum chain length over the buckets `0 .. capacity - 1` (an upper bound of every chain
length that some chain attains, and 0 for a table with no entries), and the `used_buckets`
counter is the number of buckets whose chain is non-empty. -/
theorem longest_chain_and_used_buckets (ht : HashTable) :
    (run_stats_loop ht).max_chain = longest_chain_spec ht ∧
      (∀ i : Nat, i < ht.capacity.toNat →
        chain_length ht i ≤ (run_stats_loop ht).max_chain) ∧
      ((run_stats_loop ht).max_chain = 0 ∨
        ∃ i : Nat, i < ht.capacity.toNat ∧ chain_length ht i = (run_stats_loop ht).max_chain) ∧
      (entries ht = [] → (run_stats_loop ht).max_chain = 0) ∧
      (run_stats_loop ht).used_buckets = used_buckets_spec ht := by
  have hf := foldl_run_stats_bucket ht.buckets (List.range ht.capacity.toNat) ⟨0, 0, 0⟩
    (le_refl _)
  have hm : (run_stats_loop ht).max_chain = longest_chain_spec ht := by
    unfold run_stats_loop longest_chain_spec chain_length
    rw [hf.2.2]
    exact max_eq_right (foldr_max_nonneg _)
  refine ⟨hm, ?_, ?_, ?_, ?_⟩
  · intro i hi
    rw [hm]
    apply foldr_max_ge
    exact List.mem_map.2 ⟨i, List.mem_range.2 hi, rfl⟩
  · rw [hm]
    rcases foldr_max_attained
        ((List.range ht.capacity.toNat).map (fun i : Nat => chain_length ht i)) with e | e
    · left; exact e
    · right
      obtain ⟨i, hi, e2⟩ := List.mem_map.1 e
      exact ⟨i, List.mem_range.1 hi, e2⟩
  · intro he
    rw [hm]
    rcases foldr_max_attained
        ((List.range ht.capacity.toNat).map (fun i : Nat => chain_length ht i)) with e | e
    · exact e
    · obtain ⟨i, -, e2⟩ := List.mem_map.1 e
      unfold longest_chain_spec
      rw [← e2]
      unfold chain_length
      rw [bucket_at_nil_of_entries_nil ht he i]
      rfl
  · unfold run_stats_loop used_buckets_spec
    rw [hf.1]
    simp

/-! ## Allocation failures -/

theorem reachable_table_long : Reachable table_long :=
  ReachableWith.step table_empty (Call.insert key_a63b 1 true)
    (reachable_of_reachable63 _ reachable63_table_empty) trivial

theorem rehash_table_calloc_fail (ht : HashTable) (m : Nat → Bool) :
    rehash_table ht false m = (ERR_MEMORY_ALLOCATION, ht) := by
  apply rehash_table_of_fail
  unfold calloc_buckets
  simp

/-- C11: evaluation of `rehash_table` under allocation failure.  When `calloc` of the new
bucket array fails, `rehash_table` returns `ERR_MEMORY_ALLOCATION` and the table is
untouched.  When the array is allocated and the `malloc` of the re-created entries fails,
on the table holding `"cat" -> 1` and `"act" -> 2` (capacity 10, count 2), it returns
`SUCCESS` with an empty table of capacity 20 and count 0. -/
theorem rehash_table_failure_not_surfaced :
    (∀ (ht : HashTable) (m : Nat → Bool),
        rehash_table ht false m = (ERR_MEMORY_ALLOCATION, ht)) ∧
      Reachable63 table_cat_act ∧
      table_cat_act.capacity = 10 ∧ table_cat_act.count = 2 ∧
      rehash_table table_cat_act true (fun _ => false) =
        (SUCCESS, { buckets := List.replicate 20 [], capacity := 20, count := 0 }) :=
  ⟨rehash_table_calloc_fail, reachable63_table_cat_act, by decide, by decide, by decide⟩

theorem WF63.insert_status {ht : HashTable} (h : WF63 ht) (k : List Nat) (v : Int)
    (ok : Bool) :
    (present ht k → insert ht k v ok =
        (SUCCESS, { ht with buckets := ht.buckets.map (List.map (overwrite k v)) })) ∧
      (¬ present ht k → ok = false → insert ht k v ok = (ERR_MEMORY_ALLOCATION, ht)) ∧
      (¬ present ht k → ok = true → (insert ht k v ok).1 = SUCCESS) := by
  refine ⟨fun hp => h.insert_present k v ok hp, ?_, ?_⟩
  · intro hn hok
    subst hok
    exact insert_of_none_fail ht k v
      ((insert_walk_none_iff k v _).2 (fun hm => hn (present_of_mem_bucket ht k _ hm)))
  · intro hn hok
    subst hok
    rw [(h.wf.entries_insert_absent k v hn).1]

/-- C12, as amended: on every table, `insert` returns only `SUCCESS` or
`ERR_MEMORY_ALLOCATION`; when it returns `ERR_MEMORY_ALLOCATION` the `malloc` of the new
entry has failed and the table (capacity, count and every chain) is unchanged; it returns
`ERR_MEMORY_ALLOCATION` whenever the key is absent and that `malloc` fails.  On a table
reachable with keys of at most 63 bytes (no longer key was ever given to `insert`) it
returns `ERR_MEMORY_ALLOCATION` exactly when the key is absent and the `malloc` fails, and
`insert` of a key that is present returns `SUCCESS` whatever `malloc` would do. -/
theorem insert_failure_atomic (ht : HashTable) (k : List Nat) (v : Int) (ok : Bool) :
    ((insert ht k v ok).1 = SUCCESS ∨ (insert ht k v ok).1 = ERR_MEMORY_ALLOCATION) ∧
      ((insert ht k v ok).1 = ERR_MEMORY_ALLOCATION →
        ok = false ∧ (insert ht k v ok).2 = ht) ∧
      (¬ present ht k → ok = false → (insert ht k v ok).1 = ERR_MEMORY_ALLOCATION) ∧
      (Reachable63 ht →
        ((insert ht k v ok).1 = ERR_MEMORY_ALLOCATION ↔ (¬ present ht k ∧ ok = false)) ∧
          (present ht k → (insert ht k v ok).1 = SUCCESS)) := by
  have hgen : (insert ht k v ok).1 = ERR_MEMORY_ALLOCATION →
      ok = false ∧ (insert ht k v ok).2 = ht := by
    cases hw : insert_walk k v (bucket_at ht.buckets (hash_function k ht.capacity)) with
    | some chain =>
      rw [insert_of_some ht k v ok chain hw]
      intro hs
      simp at hs
    | none =>
      cases ok with
      | false =>
        rw [insert_of_none_fail ht k v hw]
        exact fun _ => ⟨rfl, rfl⟩
      | true =>
        rw [insert_of_none_ok ht k v hw]
        intro hs
        simp at hs
  have habs : ¬ present ht k → ok = false → (insert ht k v ok).1 = ERR_MEMORY_ALLOCATION := by
    intro hn hok
    subst hok
    rw [insert_of_none_fail ht k v
      ((insert_walk_none_iff k v _).2 (fun hm => hn (present_of_mem_bucket ht k _ hm)))]
  refine ⟨?_, hgen, habs, fun hr => ?_⟩
  · cases hw : insert_walk k v (bucket_at ht.buckets (hash_function k ht.capacity)) with
    | some chain => rw [insert_of_some ht k v ok chain hw]; exact Or.inl rfl
    | none =>
      cases ok with
      | false => rw [insert_of_none_fail ht k v hw]; exact Or.inr rfl
      | true => rw [insert_of_none_ok ht k v hw]; exact Or.inl rfl
  · have h := WF63_of_reachable ht hr
    have hpres : present ht k → (insert ht k v ok).1 = SUCCESS := by
      intro hp
      rw [(h.insert_status k v ok).1 hp]
    refine ⟨⟨fun hs => ⟨fun hp => ?_, (hgen hs).1⟩, fun hc => habs hc.1 hc.2⟩, hpres⟩
    rw [hpres hp] at hs
    simp at hs

theorem insert_failure_atomic_witness :
    Reachable63 table_cat ∧ ¬ present table_cat key_act ∧ present table_cat key_cat ∧
      (insert table_cat key_act 2 false).1 = ERR_MEMORY_ALLOCATION ∧
      (false = false ∧ (insert table_cat key_act 2 false).2 = table_cat) ∧
      ((insert table_cat key_act 2 false).1 = ERR_MEMORY_ALLOCATION ↔
        (¬ present table_cat key_act ∧ false = false)) ∧
      (insert table_cat key_cat 2 false).1 = SUCCESS :=
  ⟨reachable63_table_cat, by decide, by decide,
    (insert_failure_atomic table_cat key_act 2 false).2.2.1 (by decide) rfl,
    (insert_failure_atomic table_cat key_act 2 false).2.1 (by decide),
    ((insert_failure_atomic table_cat key_act 2 false).2.2.2 reachable63_table_cat).1,
    ((insert_failure_atomic table_cat key_cat 2 false).2.2.2 reachable63_table_cat).2
      (by decide)⟩

/-- C12 fails on a table reached through an over-long key: after `init_table(10)` and
`insert` of the 64-byte key `aaa...ab`, the stored 63-byte key is present (bucket 9), yet
`insert` of that present key walks bucket 1 and, its `malloc` failing, returns
`ERR_MEMORY_ALLOCATION`. -/
theorem insert_failure_atomic_counterexample :
    Reachable table_long ∧ present table_long key_a63 ∧
      insert table_long key_a63 2 false = (ERR_MEMORY_ALLOCATION, table_long) :=
  ⟨reachable_table_long, by decide, by decide⟩

/-! ## Arithmetic of `hash_function` -/

theorem hash_sum_eq (key : List Nat) (s : Nat) :
    hash_sum key (s % 4294967296) =
      (s + (key.map char_to_unsigned).sum) % 4294967296 := by
  induction key generalizing s with
  | nil => simp [hash_sum]
  | cons b rest ih =>
    have e : (s % 4294967296 + char_to_unsigned b) % 4294967296 =
        (s + char_to_unsigned b) % 4294967296 := by omega
    rw [hash_sum, e, ih]
    simp only [List.map_cons, List.sum_cons]
    congr 1
    omega

theorem hash_sum_zero (key : List Nat) :
    hash_sum key 0 = (key.map char_to_unsigned).sum % 4294967296 := by
  have := hash_sum_eq key 0
  simpa using this

theorem hash_function_eq_sum (key : List Nat) (c : Int) (h0 : 0 < c)
    (h1 : c ≤ 2147483647) :
    hash_function key c =
      ((((key.map char_to_unsigned).sum % 4294967296 % c.toNat : Nat)) : Int) := by
  rw [hash_function_eq key c h0 h1, hash_sum_zero]

theorem map_char_to_unsigned_ascii (key : List Nat) (ha : ∀ b ∈ key, b < 128) :
    key.map char_to_unsigned = key := by
  induction key with
  | nil => rfl
  | cons b rest ih =>
    have hb : b < 128 := ha b (List.mem_cons_self _ _)
    rw [List.map_cons, ih (fun x hx => ha x (List.mem_cons_of_mem _ hx))]
    simp [char_to_unsigned, hb]

theorem sum_le_of_ascii (key : List Nat) (ha : ∀ b ∈ key, b < 128) :
    key.sum ≤ 127 * key.length := by
  induction key with
  | nil => simp
  | cons b rest ih =>
    have hb : b < 128 := ha b (List.mem_cons_self _ _)
    have := ih (fun x hx => ha x (List.mem_cons_of_mem _ hx))
    simp only [List.sum_cons, List.length_cons]
    omega

/-- C13, as amended: for every key whose bytes are all below 128 (ASCII) and every capacity
`0 < c <= 2^31 - 1`, `hash_function(key, c)` is the sum of the byte values of the key,
reduced modulo `2^32` (the `unsigned int` accumulator) and then modulo `c`; for a key of
fewer than `2^25` bytes this is the plain byte sum modulo `c`. -/
theorem hash_function_ascii (key : List Nat) (c : Int) (h0 : 0 < c) (h1 : c ≤ 2147483647)
    (ha : ∀ b ∈ key, b < 128) :
    hash_function key c = ((key.sum : Int) % 4294967296) % c ∧
      (key.length < 33554432 → hash_function key c = (key.sum : Int) % c) := by
  have hc : ((c.toNat : Nat) : Int) = c := Int.toNat_of_nonneg (le_of_lt h0)
  have e : hash_function key c = ((key.sum : Int) % 4294967296) % c := by
    rw [hash_function_eq_sum key c h0 h1, map_char_to_unsigned_ascii key ha]
    push_cast
    rw [hc]
  refine ⟨e, fun hl => ?_⟩
  rw [e]
  have hs := sum_le_of_ascii key ha
  have hlt : (key.sum : Int) < 4294967296 := by
    have : key.sum < 4294967296 := by omega
    exact_mod_cast this
  rw [Int.emod_eq_of_lt (by positivity) hlt]

theorem hash_function_ascii_witness :
    (0 : Int) < 10 ∧ (10 : Int) ≤ 2147483647 ∧ (∀ b ∈ key_cat, b < 128) ∧
      (hash_function key_cat 10 = ((key_cat.sum : Int) % 4294967296) % 10 ∧
        (key_cat.length < 33554432 → hash_function key_cat 10 = (key_cat.sum : Int) % 10)) :=
  ⟨by decide, by decide, by decide,
    hash_function_ascii key_cat 10 (by decide) (by decide) (by decide)⟩

theorem hash_function_replicate_ascii (n : Nat) (c : Int) (h0 : 0 < c)
    (h1 : c ≤ 2147483647) :
    hash_function (List.replicate n 127) c =
      (((n * 127 % 4294967296 % c.toNat : Nat)) : Int) := by
  rw [hash_function_eq_sum _ c h0 h1, map_char_to_unsigned_ascii]
  · rw [List.sum_replicate, smul_eq_mul]
  · intro b hb
    rw [List.eq_of_mem_replicate hb]
    decide

theorem is_c_string_replicate_ascii (n : Nat) : is_c_string (List.replicate n 127) := by
  intro b hb
  rw [List.eq_of_mem_replicate hb]
  decide

theorem sum_replicate_ascii (n : Nat) : (List.replicate n 127).sum = n * 127 := by
  rw [List.sum_replicate, smul_eq_mul]

/-- C13 fails in two ways.  A byte of 128 or more is sign-extended by the conversion of
the signed `char`: the one-byte key `0x80` with capacity 11 hashes to 8, the unsigned byte
value 128 modulo 11 being 7.  The `unsigned int` accumulator wraps: the key made of
33818641 bytes `0x7f` with capacity 1000 hashes to 111, its byte sum 4294967407 modulo 1000
being 407. -/
theorem hash_function_unsigned_sum_counterexample :
    is_c_string [128] ∧ hash_function [128] 11 = 8 ∧ ([128] : List Nat).sum % 11 = 7 ∧
      is_c_string (List.replicate 33818641 127) ∧
      hash_function (List.replicate 33818641 127) 1000 = 111 ∧
      (List.replicate 33818641 127).sum = 4294967407 ∧ (4294967407 : Nat) % 1000 = 407 :=
  ⟨by decide, by decide, by decide, is_c_string_replicate_ascii 33818641,
    (hash_function_replicate_ascii 33818641 1000 (by decide) (by decide)).trans (by decide),
    (sum_replicate_ascii 33818641).trans (by decide), by decide⟩

/-! ## Frame of `insert` and `delete_key` -/

theorem bucket_at_set_bucket_other (b : List (List Node)) (idx : Int) (chain : List Node)
    (i : Nat) (h0 : 0 ≤ idx) (hi : (i : Int) ≠ idx) :
    bucket_at (set_bucket b idx chain) (i : Int) = bucket_at b (i : Int) := by
  unfold bucket_at
  rw [getD_set_bucket]
  simp only [Int.toNat_ofNat]
  rw [if_neg]
  intro hc
  apply hi
  rw [hc.1]
  exact Int.toNat_of_nonneg h0

theorem WF.insert_absent {ht : HashTable} (h : WF ht) (k : List Nat) (v : Int)
    (hk : k.length ≤ 63) (hn : ¬ present ht k) :
    (insert ht k v true).1 = SUCCESS ∧
      (insert ht k v true).2.count = ht.count + 1 ∧
      (insert ht k v true).2.capacity = ht.capacity ∧
      (insert ht k v true).2.buckets.length = ht.buckets.length ∧
      bucket_at (insert ht k v true).2.buckets (hash_function k ht.capacity) =
        bucket_at ht.buckets (hash_function k ht.capacity) ++ [{ key := k, value := v }] ∧
      ∀ i : Nat, (i : Int) ≠ hash_function k ht.capacity →
        bucket_at (insert ht k v true).2.buckets (i : Int) = bucket_at ht.buckets (i : Int) := by
  have e := (h.entries_insert_absent k v hn).1
  have hi := h.idx_lt k
  have hr := hash_function_range k ht.capacity h.cap_pos h.cap_int
  rw [e, List.take_of_length_le hk]
  refine ⟨rfl, rfl, rfl, length_set_bucket _ _ _, bucket_at_set_bucket_same _ _ _ hi, ?_⟩
  intro i hne
  exact bucket_at_set_bucket_other _ _ _ i hr.1 hne

/-- C14, as amended: keys of at most 63 bytes (`MAX_KEY_LEN - 1`) are stored whole.  On a
reachable table, for a key `k` of at most 63 bytes (empty or not) that is absent, the entry
created by `insert(k, v)` is `(k, v)`, linked at the tail of the chain of bucket
`hash_function(k, capacity)`, and an immediately following `search(k)` yields `v`. -/
theorem insert_stores_key_whole (ht : HashTable) (k : List Nat) (v v0 : Int)
    (hr : Reachable ht) (hk : k.length ≤ 63) (hn : ¬ present ht k) :
    (insert ht k v true).1 = SUCCESS ∧
      bucket_at (insert ht k v true).2.buckets (hash_function k ht.capacity) =
        bucket_at ht.buckets (hash_function k ht.capacity) ++ [{ key := k, value := v }] ∧
      ({ key := k, value := v } : Node) ∈ entries (insert ht k v true).2 ∧
      search (insert ht k v true).2 k v0 = (SUCCESS, v) := by
  have h := WF_of_reachable _ ht hr
  obtain ⟨h1, -, -, -, h5, -⟩ := h.insert_absent k v hk hn
  refine ⟨h1, h5, ?_, h.search_insert k v v0 true hk h1⟩
  apply (mem_entries_iff _ _).2
  refine ⟨(hash_function k ht.capacity).toNat, ?_⟩
  have : ({ key := k, value := v } : Node) ∈
      bucket_at (insert ht k v true).2.buckets (hash_function k ht.capacity) := by
    rw [h5]; simp
  exact this

theorem insert_stores_key_whole_witness :
    Reachable table_cat ∧ key_a63.length ≤ 63 ∧ ¬ present table_cat key_a63 ∧
      ((insert table_cat key_a63 5 true).1 = SUCCESS ∧
      bucket_at (insert table_cat key_a63 5 true).2.buckets
          (hash_function key_a63 table_cat.capacity) =
        bucket_at table_cat.buckets (hash_function key_a63 table_cat.capacity) ++
          [{ key := key_a63, value := 5 }] ∧
      ({ key := key_a63, value := 5 } : Node) ∈ entries (insert table_cat key_a63 5 true).2 ∧
      search (insert table_cat key_a63 5 true).2 key_a63 0 = (SUCCESS, 5)) :=
  ⟨reachable_of_reachable63 _ reachable63_table_cat, by decide, by decide,
    insert_stores_key_whole table_cat key_a63 5 0
      (reachable_of_reachable63 _ reachable63_table_cat) (by decide) (by decide)⟩

/-- C14 fails for a key of exactly 64 bytes: on the empty table of capacity 10, `insert` of
the non-empty, absent 64-byte key `aaa...ab` succeeds and creates an entry whose key is the
first 63 bytes only, and the immediately following `search` of the 64-byte key returns
`ERR_KEY_NOT_FOUND`. -/
theorem insert_stores_key_whole_counterexample :
    key_a63b ≠ [] ∧ key_a63b.length = 64 ∧ ¬ present table_empty key_a63b ∧
      (insert table_empty key_a63b 1 true).1 = SUCCESS ∧
      entries (insert table_empty key_a63b 1 true).2 = [{ key := key_a63, value := 1 }] ∧
      key_a63 ≠ key_a63b ∧
      search (insert table_empty key_a63b 1 true).2 key_a63b 0 = (ERR_KEY_NOT_FOUND, 0) :=
  ⟨by decide, by decide, by decide, by decide, by decide, by decide, by decide⟩

/-- C15: tail insertion.  On a reachable table, for a key `k` of at most 63 bytes that is
absent, an `insert(k, v)` that returns `SUCCESS` increments `count` by exactly 1, makes the
chain of bucket `hash_function(k, capacity)` its previous chain followed by the single new
entry `(k, v)`, and leaves `capacity`, the number of buckets and the chain of every other
bucket unchanged. -/
theorem insert_absent_appends (ht : HashTable) (k : List Nat) (v : Int) (ok : Bool)
    (hr : Reachable ht) (hk : k.length ≤ 63) (hn : ¬ present ht k)
    (hs : (insert ht k v ok).1 = SUCCESS) :
    (insert ht k v ok).2.count = ht.count + 1 ∧
      bucket_at (insert ht k v ok).2.buckets (hash_function k ht.capacity) =
        bucket_at ht.buckets (hash_function k ht.capacity) ++ [{ key := k, value := v }] ∧
      (insert ht k v ok).2.capacity = ht.capacity ∧
      (insert ht k v ok).2.buckets.length = ht.buckets.length ∧
      ∀ i : Nat, (i : Int) ≠ hash_function k ht.capacity →
        bucket_at (insert ht k v ok).2.buckets (i : Int) = bucket_at ht.buckets (i : Int) := by
  have h := WF_of_reachable _ ht hr
  cases ok with
  | false =>
    rw [insert_of_none_fail ht k v
      ((insert_walk_none_iff k v _).2 (fun hm => hn (present_of_mem_bucket ht k _ hm)))] at hs
    simp at hs
  | true =>
    obtain ⟨-, h2, h3, h4, h5, h6⟩ := h.insert_absent k v hk hn
    exact ⟨h2, h5, h3, h4, h6⟩

theorem insert_absent_appends_witness :
    Reachable table_cat ∧ key_act.length ≤ 63 ∧ ¬ present table_cat key_act ∧
      (insert table_cat key_act 2 true).1 = SUCCESS ∧
      (insert table_cat key_act 2 true).2.count = table_cat.count + 1 ∧
      bucket_at (insert table_cat key_act 2 true).2.buckets
          (hash_function key_act table_cat.capacity) =
        bucket_at table_cat.buckets (hash_function key_act table_cat.capacity) ++
          [{ key := key_act, value := 2 }] :=
  ⟨reachable_of_reachable63 _ reachable63_table_cat, by decide, by decide, by decide,
    (insert_absent_appends table_cat key_act 2 true
      (reachable_of_reachable63 _ reachable63_table_cat) (by decide) (by decide)
      (by decide)).1,
    (insert_absent_appends table_cat key_act 2 true
      (reachable_of_reachable63 _ reachable63_table_cat) (by decide) (by decide)
      (by decide)).2.1⟩

theorem bucket_at_set_bucket_ne (b : List (List Node)) (idx idx2 : Int) (chain : List Node)
    (h0 : 0 ≤ idx) (h2 : 0 ≤ idx2) (hne : idx2 ≠ idx) :
    bucket_at (set_bucket b idx chain) idx2 = bucket_at b idx2 := by
  unfold bucket_at
  rw [getD_set_bucket, if_neg]
  intro hc
  apply hne
  have := hc.1
  omega

theorem search_walk_remove (k2 : List Nat) (v0 : Int) (a b : List Node) (x : Node)
    (hx : x.key ≠ k2) :
    search_walk k2 v0 (a ++ x :: b) = search_walk k2 v0 (a ++ b) := by
  induction a with
  | nil => simp [search_walk, hx]
  | cons y a ih =>
    by_cases e : y.key = k2
    · simp [search_walk, e]
    · simp [search_walk, e, ih]

/-- C16: search is exact.  On a table reachable with keys of at most 63 bytes, for every key
`k`, `search(k)` returns `SUCCESS` and writes `v` exactly when an entry `(k, v)` is found by
walking the buckets, it returns `ERR_KEY_NOT_FOUND` exactly when no entry of the table has
key `k`, and it returns nothing else. -/
theorem search_exact (ht : HashTable) (k : List Nat) (v0 : Int) (hr : Reachable63 ht) :
    (∀ v : Int, search ht k v0 = (SUCCESS, v) ↔
        ({ key := k, value := v } : Node) ∈ entries ht) ∧
      ((search ht k v0).1 = ERR_KEY_NOT_FOUND ↔ ¬ present ht k) ∧
      ((search ht k v0).1 = SUCCESS ∨ (search ht k v0).1 = ERR_KEY_NOT_FOUND) := by
  have h := WF63_of_reachable ht hr
  rcases search_walk_cases k v0
      (bucket_at ht.buckets (hash_function k ht.capacity)) with ⟨h1, e⟩ | ⟨w, h1, e⟩
  · have hn : ¬ present ht k := fun hp => h1 (h.mem_bucket_of_present k hp)
    have es : search ht k v0 = (ERR_KEY_NOT_FOUND, v0) := e
    refine ⟨fun v => ⟨fun hs => ?_, fun hm => ?_⟩, ⟨fun _ => hn, fun _ => by rw [es]⟩,
      Or.inr (by rw [es])⟩
    · rw [es] at hs; simp at hs
    · exact absurd (List.mem_map_of_mem Node.key hm) hn
  · have hm : ({ key := k, value := w } : Node) ∈ entries ht :=
      (mem_entries_iff ht _).2 ⟨_, h1⟩
    have es : search ht k v0 = (SUCCESS, w) := e
    have hp : present ht k := List.mem_map_of_mem Node.key hm
    refine ⟨fun v => ⟨fun hs => ?_, fun hv => h.search_of_mem k v v0 hv⟩,
      ⟨fun hs => ?_, fun hc => absurd hp hc⟩, Or.inl (by rw [es])⟩
    · rw [es] at hs
      simp only [Prod.mk.injEq, true_and] at hs
      rw [← hs]; exact hm
    · rw [es] at hs; simp at hs

theorem search_exact_witness :
    Reachable63 table_cat_act ∧
      ((∀ v : Int, search table_cat_act key_act 0 = (SUCCESS, v) ↔
        ({ key := key_act, value := v } : Node) ∈ entries table_cat_act) ∧
      ((search table_cat_act key_act 0).1 = ERR_KEY_NOT_FOUND ↔
        ¬ present table_cat_act key_act) ∧
      ((search table_cat_act key_act 0).1 = SUCCESS ∨
        (search table_cat_act key_act 0).1 = ERR_KEY_NOT_FOUND)) :=
  ⟨reachable63_table_cat_act, search_exact table_cat_act key_act 0 reachable63_table_cat_act⟩

/-- C17, as amended: delete removes exactly one entry and disturbs nothing else.  On every
reachable table and for every key `k`, after `delete_key(k)` every bucket other than
`hash_function(k, capacity)` has its previous chain, the number of buckets and `capacity`
are unchanged, and `search(k2)` has its former result for every key `k2` different from
`k`.  On a table reachable with keys of at most 63 bytes (no longer key was ever given to
`insert`), for a present key `k`, the chain of bucket `hash_function(k, capacity)` is its
previous chain `a ++ (k, v) :: b` without the entry for `k`, that is `a ++ b` (empty when
the entry was alone), and no entry with key `k` remains in it. -/
theorem delete_key_frame (ht : HashTable) (k : List Nat) (hr : Reachable ht) :
    (∀ i : Nat, (i : Int) ≠ hash_function k ht.capacity →
        bucket_at (delete_key ht k).2.buckets (i : Int) = bucket_at ht.buckets (i : Int)) ∧
      (delete_key ht k).2.buckets.length = ht.buckets.length ∧
      (delete_key ht k).2.capacity = ht.capacity ∧
      (∀ (k2 : List Nat) (v0 : Int), k2 ≠ k →
        search (delete_key ht k).2 k2 v0 = search ht k2 v0) ∧
      (Reachable63 ht → present ht k →
        (∃ (a b : List Node) (v : Int),
          bucket_at ht.buckets (hash_function k ht.capacity) =
            a ++ { key := k, value := v } :: b ∧
          bucket_at (delete_key ht k).2.buckets (hash_function k ht.capacity) = a ++ b ∧
          k ∉ (a ++ b).map Node.key) ∧
        ((bucket_at ht.buckets (hash_function k ht.capacity)).length = 1 →
          bucket_at (delete_key ht k).2.buckets (hash_function k ht.capacity) = [])) := by
  have hwf := WF_of_reachable _ ht hr
  have hi := hwf.idx_lt k
  have hrg := hash_function_range k ht.capacity hwf.cap_pos hwf.cap_int
  cases hw : delete_walk k (bucket_at ht.buckets (hash_function k ht.capacity)) with
  | none =>
    rw [delete_key_of_none ht k hw]
    refine ⟨fun _ _ => rfl, rfl, rfl, fun _ _ _ => rfl, fun h63 hp => ?_⟩
    exact absurd ((WF63_of_reachable ht h63).mem_bucket_of_present k hp)
      ((delete_walk_none_iff k _).1 hw)
  | some chain =>
    obtain ⟨a, v, b, e1, e2, ha⟩ := delete_walk_some k _ chain hw
    rw [delete_key_of_some ht k chain hw]
    have hsame : bucket_at (set_bucket ht.buckets (hash_function k ht.capacity) chain)
        (hash_function k ht.capacity) = a ++ b := by
      rw [bucket_at_set_bucket_same _ _ _ hi, e2]
    refine ⟨?_, length_set_bucket _ _ _, rfl, ?_, fun h63 _ => ⟨⟨a, b, v, e1, hsame, ?_⟩, ?_⟩⟩
    · intro i hne
      exact bucket_at_set_bucket_other _ _ _ i hrg.1 hne
    · intro k2 v0 hne
      have hrg2 := hash_function_range k2 ht.capacity hwf.cap_pos hwf.cap_int
      show search_walk k2 v0
          (bucket_at (set_bucket ht.buckets (hash_function k ht.capacity) chain)
            (hash_function k2 ht.capacity)) =
        search_walk k2 v0 (bucket_at ht.buckets (hash_function k2 ht.capacity))
      by_cases e : hash_function k2 ht.capacity = hash_function k ht.capacity
      · rw [e, hsame, e1]
        exact (search_walk_remove k2 v0 a b _ (fun hc => hne hc.symm)).symm
      · rw [bucket_at_set_bucket_ne _ _ _ _ hrg.1 hrg2.1 e]
    · have hnd := (WF63_of_reachable ht h63).nodup (hash_function k ht.capacity).toNat
      have e3 : ht.buckets.getD (hash_function k ht.capacity).toNat [] =
          a ++ { key := k, value := v } :: b := e1
      rw [e3] at hnd
      simp only [List.map_append, List.map_cons] at hnd
      have hb := (List.nodup_cons.1 (List.nodup_append.1 hnd).2.1).1
      rw [List.map_append, List.mem_append]
      rintro (hx | hx)
      · exact ha hx
      · exact hb hx
    · intro hlen
      show bucket_at (set_bucket ht.buckets (hash_function k ht.capacity) chain)
        (hash_function k ht.capacity) = []
      rw [hsame]
      rw [e1] at hlen
      simp only [List.length_append, List.length_cons] at hlen
      have ha0 : a.length = 0 := by omega
      have hb0 : b.length = 0 := by omega
      rw [List.length_eq_zero.1 ha0, List.length_eq_zero.1 hb0]
      rfl

theorem delete_key_frame_witness :
    Reachable table_long ∧ Reachable63 table_cat_act ∧ present table_cat_act key_cat ∧
      (∀ (k2 : List Nat) (v0 : Int), k2 ≠ key_a63 →
        search (delete_key table_long key_a63).2 k2 v0 = search table_long k2 v0) ∧
      bucket_at table_cat_act.buckets (hash_function key_cat table_cat_act.capacity) =
        [{ key := key_cat, value := 1 }, { key := key_act, value := 2 }] ∧
      bucket_at (delete_key table_cat_act key_cat).2.buckets
        (hash_function key_cat table_cat_act.capacity) = [{ key := key_act, value := 2 }] ∧
      (∀ (k2 : List Nat) (v0 : Int), k2 ≠ key_cat →
        search (delete_key table_cat_act key_cat).2 k2 v0 = search table_cat_act k2 v0) ∧
      ∃ (a b : List Node) (v : Int),
        bucket_at table_cat_act.buckets (hash_function key_cat table_cat_act.capacity) =
          a ++ { key := key_cat, value := v } :: b ∧
        bucket_at (delete_key table_cat_act key_cat).2.buckets
          (hash_function key_cat table_cat_act.capacity) = a ++ b ∧
        key_cat ∉ (a ++ b).map Node.key :=
  ⟨reachable_table_long, reachable63_table_cat_act, by decide,
    (delete_key_frame table_long key_a63 reachable_table_long).2.2.2.1,
    by decide, by decide,
    (delete_key_frame table_cat_act key_cat
      (reachable_of_reachable63 _ reachable63_table_cat_act)).2.2.2.1,
    ((delete_key_frame table_cat_act key_cat
      (reachable_of_reachable63 _ reachable63_table_cat_act)).2.2.2.2
        reachable63_table_cat_act (by decide)).1⟩

/-- C17 fails on a table reached through an over-long key: after `init_table(10)` and
`insert` of the 64-byte key `aaa...ab`, the stored 63-byte key is present, in bucket 9,
while its own hash selects bucket 1, which is empty; `delete_key` of it removes no entry
and leaves the whole table as it was. -/
theorem delete_key_frame_counterexample :
    Reachable table_long ∧ key_a63.length ≤ 63 ∧ present table_long key_a63 ∧
      hash_function key_a63 table_long.capacity = 1 ∧
      bucket_at table_long.buckets 1 = [] ∧
      bucket_at table_long.buckets 9 = [{ key := key_a63, value := 1 }] ∧
      (delete_key table_long key_a63).2 = table_long ∧
      entries (delete_key table_long key_a63).2 = [{ key := key_a63, value := 1 }] :=
  ⟨reachable_table_long, by decide, by decide, by decide, by decide, by decide, by decide,
    by decide⟩

/-! ## Hash of the empty key, anagrams, creation, index range -/

/-- C22: the hash of the empty key is well defined and is 0: for every `int` capacity
`c > 0` the divisor of `sum % capacity` is not zero and `hash_function("", c) = 0` (the loop
body never runs). -/
theorem hash_function_empty (c : Int) (h0 : 0 < c) (h1 : c ≤ 2147483647) :
    to_unsigned c ≠ 0 ∧ hash_function [] c = 0 := by
  constructor
  · rw [to_unsigned_of_pos c h0 h1]
    omega
  · unfold hash_function hash_sum to_int
    simp

theorem hash_function_empty_witness :
    (0 : Int) < 10 ∧ (10 : Int) ≤ 2147483647 ∧ (to_unsigned 10 ≠ 0 ∧ hash_function [] 10 = 0) :=
  ⟨by decide, by decide, hash_function_empty 10 (by decide) (by decide)⟩

theorem hash_sum_perm (k1 k2 : List Nat) (h : k1.Perm k2) : hash_sum k1 0 = hash_sum k2 0 := by
  rw [hash_sum_zero, hash_sum_zero, (h.map char_to_unsigned).sum_eq]

/-- C23: anagrams collide: for every capacity `c > 0` and every two keys `k1`, `k2` where
`k2` is a permutation of the bytes of `k1`, `hash_function(k1, c) = hash_function(k2, c)`. -/
theorem hash_function_anagram (k1 k2 : List Nat) (c : Int) (_h0 : 0 < c)
    (h : k1.Perm k2) : hash_function k1 c = hash_function k2 c := by
  unfold hash_function
  rw [hash_sum_perm k1 k2 h]

theorem hash_function_anagram_witness :
    (0 : Int) < 10 ∧ key_cat.Perm key_act ∧
      hash_function key_cat 10 = hash_function key_act 10 :=
  ⟨by decide, by decide, hash_function_anagram key_cat key_act 10 (by decide) (by decide)⟩

theorem search_init_table (c : Int) (ok : Bool) (k : List Nat) (v0 : Int) :
    search (init_table c ok).2 k v0 = (ERR_KEY_NOT_FOUND, v0) := by
  apply search_of_not_present
  unfold present
  rw [entries_init_table]
  simp

/-- C24: creation.  For every capacity `c > 0`, an `init_table(c)` that returns `SUCCESS`
yields a table with capacity `c`, count 0 and `c` buckets, all of them empty, on which
`search(k)` returns `ERR_KEY_NOT_FOUND` for every key `k`. -/
theorem init_table_creates_empty (c : Int) (ok : Bool) (h0 : 0 < c)
    (hs : (init_table c ok).1 = SUCCESS) :
    (init_table c ok).2.capacity = c ∧
      (init_table c ok).2.count = 0 ∧
      ((init_table c ok).2.buckets.length : Int) = c ∧
      (∀ chain ∈ (init_table c ok).2.buckets, chain = []) ∧
      (∀ i : Nat, bucket_at (init_table c ok).2.buckets (i : Int) = []) ∧
      ∀ (k : List Nat) (v0 : Int),
        search (init_table c ok).2 k v0 = (ERR_KEY_NOT_FOUND, v0) := by
  refine ⟨?_, ?_, ?_, ?_, ?_, fun k v0 => search_init_table c ok k v0⟩
  · unfold init_table; split <;> rfl
  · unfold init_table; split <;> rfl
  · cases hc : calloc_buckets c ok with
    | none =>
      unfold init_table at hs
      rw [hc] at hs
      simp at hs
    | some nb =>
      obtain ⟨-, -, rfl⟩ := calloc_buckets_some _ _ _ hc
      unfold init_table
      rw [hc]
      simp only [List.length_replicate]
      omega
  · intro chain hmem
    apply List.eq_nil_iff_forall_not_mem.2
    intro n hn
    have : n ∈ entries (init_table c ok).2 := List.mem_flatten.2 ⟨chain, hmem, hn⟩
    rw [entries_init_table] at this
    simp at this
  · intro i
    exact bucket_at_nil_of_entries_nil _ (entries_init_table c ok) i

theorem init_table_creates_empty_witness :
    (0 : Int) < 10 ∧ (init_table 10 true).1 = SUCCESS ∧
      (init_table 10 true).2.capacity = 10 ∧
      (init_table 10 true).2.count = 0 ∧
      (init_table 10 true).2.buckets = List.replicate 10 [] ∧
      search (init_table 10 true).2 key_cat 0 = (ERR_KEY_NOT_FOUND, 0) :=
  ⟨by decide, by decide,
    (init_table_creates_empty 10 true (by decide) (by decide)).1,
    (init_table_creates_empty 10 true (by decide) (by decide)).2.1,
    by decide,
    (init_table_creates_empty 10 true (by decide) (by decide)).2.2.2.2.2 key_cat 0⟩

/-- C28: bucket indexing is always in range.  For every `int` capacity `c > 0` and every
key, `0 <= hash_function(key, c) < c`; every table reachable from `init_table(c0)`,
`c0 > 0`, by `insert`, `delete_key` and `rehash_table` calls has a positive `int`
capacity, as many buckets as its capacity, a non-zero divisor in `hash_function` and, for
every key, a bucket index inside the bucket array. -/
theorem bucket_index_in_range (ht : HashTable) (key : List Nat) (c : Int)
    (hr : Reachable ht) (h0 : 0 < c) (h1 : c ≤ 2147483647) :
    (0 ≤ hash_function key c ∧ hash_function key c < c) ∧
      0 < ht.capacity ∧ ht.capacity ≤ 2147483647 ∧
      (ht.buckets.length : Int) = ht.capacity ∧
      to_unsigned ht.capacity ≠ 0 ∧
      0 ≤ hash_function key ht.capacity ∧
      hash_function key ht.capacity < (ht.buckets.length : Int) ∧
      (hash_function key ht.capacity).toNat < ht.buckets.length := by
  have h := WF_of_reachable _ ht hr
  have hrg := hash_function_range key ht.capacity h.cap_pos h.cap_int
  have hl := h.len
  have hp := h.cap_pos
  refine ⟨hash_function_range key c h0 h1, h.cap_pos, h.cap_int, by omega, ?_, hrg.1,
    by omega, h.idx_lt key⟩
  rw [to_unsigned_of_pos _ h.cap_pos h.cap_int]
  omega

theorem bucket_index_in_range_witness :
    Reachable table_cat_act ∧ (0 : Int) < 10 ∧ (10 : Int) ≤ 2147483647 ∧
      0 < table_cat_act.capacity ∧
      (hash_function key_x table_cat_act.capacity).toNat < table_cat_act.buckets.length :=
  ⟨reachable_of_reachable63 _ reachable63_table_cat_act, by decide, by decide,
    (bucket_index_in_range table_cat_act key_x 10
      (reachable_of_reachable63 _ reachable63_table_cat_act) (by decide) (by decide)).2.1,
    (bucket_index_in_range table_cat_act key_x 10
      (reachable_of_reachable63 _ reachable63_table_cat_act) (by decide)
      (by decide)).2.2.2.2.2.2.2⟩

/-! ## Searching other keys after `insert` and `delete_key` -/

theorem search_walk_insert_walk_ne (k k2 : List Nat) (v v0 : Int) (l l2 : List Node)
    (hne : k2 ≠ k) (h : insert_walk k v l = some l2) :
    search_walk k2 v0 l2 = search_walk k2 v0 l := by
  induction l generalizing l2 with
  | nil => simp [insert_walk] at h
  | cons a l ih =>
    by_cases e : a.key = k
    · simp [insert_walk, e] at h
      subst h
      have e2 : ¬ k = k2 := fun hc => hne hc.symm
      simp [search_walk, e, e2]
    · simp [insert_walk, e] at h
      obtain ⟨r, hr, rfl⟩ := h
      by_cases e3 : a.key = k2
      · simp [search_walk, e3]
      · simp [search_walk, e3, ih r hr]

theorem search_walk_append_ne (k2 : List Nat) (v0 : Int) (l : List Node) (n : Node)
    (hne : n.key ≠ k2) : search_walk k2 v0 (l ++ [n]) = search_walk k2 v0 l := by
  induction l with
  | nil => simp [search_walk, hne]
  | cons a l ih =>
    by_cases e : a.key = k2
    · simp [search_walk, e]
    · simp [search_walk, e, ih]

theorem WF.search_insert_ne {ht : HashTable} (h : WF ht) (k k2 : List Nat) (v v0 : Int)
    (ok : Bool) (hk : k.length ≤ 63) (hne : k2 ≠ k) :
    search (insert ht k v ok).2 k2 v0 = search ht k2 v0 := by
  have hi := h.idx_lt k
  have hr := hash_function_range k ht.capacity h.cap_pos h.cap_int
  have hr2 := hash_function_range k2 ht.capacity h.cap_pos h.cap_int
  have key : ∀ chain : List Node,
      search_walk k2 v0 chain =
        search_walk k2 v0 (bucket_at ht.buckets (hash_function k ht.capacity)) →
      search_walk k2 v0 (bucket_at (set_bucket ht.buckets (hash_function k ht.capacity) chain)
          (hash_function k2 ht.capacity)) =
        search_walk k2 v0 (bucket_at ht.buckets (hash_function k2 ht.capacity)) := by
    intro chain hch
    by_cases e : hash_function k2 ht.capacity = hash_function k ht.capacity
    · rw [e, bucket_at_set_bucket_same _ _ _ hi, hch]
    · rw [bucket_at_set_bucket_ne _ _ _ _ hr.1 hr2.1 e]
  cases hw : insert_walk k v (bucket_at ht.buckets (hash_function k ht.capacity)) with
  | some chain =>
    rw [insert_of_some ht k v ok chain hw]
    exact key chain (search_walk_insert_walk_ne k k2 v v0 _ chain hne hw)
  | none =>
    cases ok with
    | false => rw [insert_of_none_fail ht k v hw]
    | true =>
      rw [insert_of_none_ok ht k v hw]
      apply key
      apply search_walk_append_ne
      rw [List.take_of_length_le hk]
      exact fun hc => hne hc.symm

/-- C30: insert does not affect other keys.  On a reachable table, for every key `k` of at
most 63 bytes, every value `v`, whatever the `malloc` of `insert` does, and every key `k2`
different from `k`, `search(k2)` has the same result after `insert(k, v)` as before. -/
theorem insert_keeps_other_keys (ht : HashTable) (k k2 : List Nat) (v v0 : Int) (ok : Bool)
    (hr : Reachable ht) (hk : k.length ≤ 63) (hne : k2 ≠ k) :
    search (insert ht k v ok).2 k2 v0 = search ht k2 v0 :=
  (WF_of_reachable _ ht hr).search_insert_ne k k2 v v0 ok hk hne

theorem insert_keeps_other_keys_witness :
    Reachable table_cat_act ∧ key_cat.length ≤ 63 ∧ key_act ≠ key_cat ∧
      search (insert table_cat_act key_cat 7 true).2 key_act 0 =
        search table_cat_act key_act 0 :=
  ⟨reachable_of_reachable63 _ reachable63_table_cat_act, by decide, by decide,
    insert_keeps_other_keys table_cat_act key_cat key_act 7 0 true
      (reachable_of_reachable63 _ reachable63_table_cat_act) (by decide) (by decide)⟩

/-! ## `rehash_table` as a functional rebuild -/

theorem migrate_chain_foldl (l : List Node) (ht : HashTable) (m : Nat → Bool)
    (hm : ∀ n, m n = true) :
    (migrate_chain l ht m).1 =
      l.foldl (fun t e => (insert t e.key e.value true).2) ht := by
  induction l generalizing ht m with
  | nil => rfl
  | cons a l ih =>
    show (migrate_chain l (insert ht a.key a.value (m 0)).2 _).1 = _
    rw [ih _ _ (fun n => hm (n + 1)), hm 0]
    rfl

theorem entries_by_index_eq (ht : HashTable) (h : ht.buckets.length = ht.capacity.toNat) :
    entries_by_index ht = entries ht := by
  unfold entries_by_index entries
  rw [← h, map_bucket_at_range]

/-- C26: rehash equals a functional rebuild.  For every table of capacity `c` with `0 < c`
and `2c <= 2^31 - 1`, when the bucket array and every re-created entry are allocated,
`rehash_table` returns `SUCCESS` and yields exactly the table obtained from an empty table
of capacity `2c` by inserting the entries one by one, enumerated by old bucket index
`0 .. c - 1` and from chain head to tail (all the entries of the table, in that order, when
the bucket array has `c` slots). -/
theorem rehash_table_eq_rebuild (ht : HashTable) (m : Nat → Bool) (h0 : 0 < ht.capacity)
    (h1 : 2 * ht.capacity ≤ 2147483647) (hm : ∀ n, m n = true) :
    rehash_table ht true m = (SUCCESS, rebuild ht) ∧
      (ht.buckets.length = ht.capacity.toNat → entries_by_index ht = entries ht) := by
  refine ⟨?_, entries_by_index_eq ht⟩
  have hw : wrap_int (ht.capacity * 2) = 2 * ht.capacity := by
    rw [wrap_int_of_int _ ⟨by omega, by omega⟩]; ring
  have hcal : calloc_buckets (wrap_int (ht.capacity * 2)) true =
      some (List.replicate (2 * ht.capacity).toNat []) := by
    unfold calloc_buckets
    rw [hw, if_pos ⟨rfl, by omega⟩]
  rw [rehash_table_of_ok ht true m _ hcal, migrate_buckets_eq_chain,
    migrate_chain_foldl _ _ m hm, hw]
  unfold rebuild entries_by_index
  rw [init_table_ok (2 * ht.capacity) (by omega)]

theorem rehash_table_eq_rebuild_witness :
    0 < table_cat_act.capacity ∧ 2 * table_cat_act.capacity ≤ 2147483647 ∧
      (rehash_table table_cat_act true (fun _ => true) = (SUCCESS, rebuild table_cat_act) ∧
        (table_cat_act.buckets.length = table_cat_act.capacity.toNat →
          entries_by_index table_cat_act = entries table_cat_act)) :=
  ⟨by decide, by decide,
    rehash_table_eq_rebuild table_cat_act (fun _ => true) (by decide) (by decide)
      (fun _ => rfl)⟩

/-! ## The collision diagnostic of `run_insert` -/

/-- C27: collision diagnostic.  For every table, when `read_integer` delivers a value,
`run_insert` prints the collision line (for the index `hash_function(k, capacity)`) exactly
when that bucket is non-empty immediately before the insert, also when the insert only
overwrites the value of `k` in a bucket whose single entry is `k`; it prints the plain
insertion line exactly when the bucket is empty; then the table is the one `insert`
returns. -/
theorem run_insert_collision_report (ht : HashTable) (k : List Nat) (v : Int) (ok : Bool) :
    ((∃ i, Message.collision i ∈ (run_insert ht k (some v) ok).1) ↔
        bucket_at ht.buckets (hash_function k ht.capacity) ≠ []) ∧
      (Message.collision (hash_function k ht.capacity) ∈ (run_insert ht k (some v) ok).1 ↔
        bucket_at ht.buckets (hash_function k ht.capacity) ≠ []) ∧
      ((∃ i, Message.inserted_at i ∈ (run_insert ht k (some v) ok).1) ↔
        bucket_at ht.buckets (hash_function k ht.capacity) = []) ∧
      (Message.inserted_at (hash_function k ht.capacity) ∈ (run_insert ht k (some v) ok).1 ↔
        bucket_at ht.buckets (hash_function k ht.capacity) = []) ∧
      ((∃ v1, bucket_at ht.buckets (hash_function k ht.capacity) =
          [{ key := k, value := v1 }]) →
        Message.collision (hash_function k ht.capacity) ∈ (run_insert ht k (some v) ok).1 ∧
          (run_insert ht k (some v) ok).2.count = ht.count) ∧
      (run_insert ht k (some v) ok).2 = (insert ht k v ok).2 := by
  have hmem : ∀ msg : Message, msg ∈ (run_insert ht k (some v) ok).1 ↔
      (msg = Message.prompt_key ∨ msg = Message.prompt_value ∨
        msg = Message.hash_line k (hash_function k ht.capacity)) ∨
      msg ∈ (if bucket_at ht.buckets (hash_function k ht.capacity) ≠ [] then
          [Message.collision (hash_function k ht.capacity), Message.inserted_into_chain]
        else [Message.inserted_at (hash_function k ht.capacity)]) ∨
      msg ∈ handle_error (insert ht k v ok).1 := by
    intro msg
    unfold run_insert
    simp only [List.mem_append, List.mem_cons, List.mem_singleton, List.not_mem_nil,
      or_false, or_assoc]
  have herr : ∀ (s : Status) (msg : Message), msg ∈ handle_error s → ∃ t, msg = Message.error t := by
    intro s msg hm
    cases s <;> simp [handle_error] at hm <;> exact ⟨_, hm⟩
  have hcol : ∀ i, Message.collision i ∈ (run_insert ht k (some v) ok).1 ↔
      (bucket_at ht.buckets (hash_function k ht.capacity) ≠ [] ∧
        i = hash_function k ht.capacity) := by
    intro i
    rw [hmem]
    constructor
    · rintro (h | h | h)
      · simp at h
      · split at h
        · rename_i hb
          simp at h
          exact ⟨hb, h⟩
        · simp at h
      · obtain ⟨t, ht⟩ := herr _ _ h
        simp at ht
    · rintro ⟨hb, rfl⟩
      right; left
      rw [if_pos hb]
      simp
  have hins : ∀ i, Message.inserted_at i ∈ (run_insert ht k (some v) ok).1 ↔
      (bucket_at ht.buckets (hash_function k ht.capacity) = [] ∧
        i = hash_function k ht.capacity) := by
    intro i
    rw [hmem]
    constructor
    · rintro (h | h | h)
      · simp at h
      · split at h
        · simp at h
        · rename_i hb
          simp at h
          exact ⟨not_not.1 hb, h⟩
      · obtain ⟨t, ht⟩ := herr _ _ h
        simp at ht
    · rintro ⟨hb, rfl⟩
      right; left
      rw [if_neg (not_not.2 hb)]
      simp
  refine ⟨?_, ?_, ?_, ?_, ?_, rfl⟩
  · constructor
    · rintro ⟨i, hi⟩; exact ((hcol i).1 hi).1
    · intro hb; exact ⟨_, (hcol _).2 ⟨hb, rfl⟩⟩
  · constructor
    · intro hi; exact ((hcol _).1 hi).1
    · intro hb; exact (hcol _).2 ⟨hb, rfl⟩
  · constructor
    · rintro ⟨i, hi⟩; exact ((hins i).1 hi).1
    · intro hb; exact ⟨_, (hins _).2 ⟨hb, rfl⟩⟩
  · constructor
    · intro hi; exact ((hins _).1 hi).1
    · intro hb; exact (hins _).2 ⟨hb, rfl⟩
  · rintro ⟨v1, hb⟩
    refine ⟨(hcol _).2 ⟨by rw [hb]; simp, rfl⟩, ?_⟩
    show (insert ht k v ok).2.count = ht.count
    have hw : insert_walk k v (bucket_at ht.buckets (hash_function k ht.capacity)) =
        some [{ key := k, value := v }] := by
      rw [hb]; simp [insert_walk]
    rw [insert_of_some ht k v ok _ hw]

/-! ## Refinement of the abstract map -/

theorem WF63.search_status_iff {ht : HashTable} (h : WF63 ht) (k : List Nat) (v0 : Int) :
    (search ht k v0).1 = SUCCESS ↔ present ht k := by
  rcases search_walk_cases k v0
      (bucket_at ht.buckets (hash_function k ht.capacity)) with ⟨h1, e⟩ | ⟨w, h1, e⟩
  · have es : search ht k v0 = (ERR_KEY_NOT_FOUND, v0) := e
    constructor
    · intro hs; rw [es] at hs; simp at hs
    · intro hp; exact absurd (h.mem_bucket_of_present k hp) h1
  · have es : search ht k v0 = (SUCCESS, w) := e
    constructor
    · intro _
      exact present_of_mem_bucket ht k _ (List.mem_map_of_mem Node.key h1)
    · intro _; rw [es]

theorem WF63.delete_key_status {ht : HashTable} (h : WF63 ht) (k : List Nat) :
    ((delete_key ht k).1 = SUCCESS ↔ present ht k) ∧
      ((delete_key ht k).1 = SUCCESS ∨ (delete_key ht k).1 = ERR_KEY_NOT_FOUND) := by
  cases hw : delete_walk k (bucket_at ht.buckets (hash_function k ht.capacity)) with
  | none =>
    rw [delete_key_of_none ht k hw]
    have hn : ¬ present ht k :=
      fun hp => (delete_walk_none_iff k _).1 hw (h.mem_bucket_of_present k hp)
    exact ⟨⟨fun hs => by simp at hs, fun hp => absurd hp hn⟩, Or.inr rfl⟩
  | some chain =>
    rw [delete_key_of_some ht k chain hw]
    have hp : present ht k := by
      apply present_of_mem_bucket ht k (hash_function k ht.capacity)
      by_contra hc
      rw [(delete_walk_none_iff k _).2 hc] at hw
      simp at hw
    exact ⟨⟨fun _ => hp, fun _ => rfl⟩, Or.inl rfl⟩

theorem WF63.search_delete_key {ht : HashTable} (h : WF63 ht) (k k2 : List Nat) (v0 : Int) :
    search (delete_key ht k).2 k2 v0 =
      if k2 = k then (ERR_KEY_NOT_FOUND, v0) else search ht k2 v0 := by
  have hi := h.wf.idx_lt k
  have hrg := hash_function_range k ht.capacity h.wf.cap_pos h.wf.cap_int
  have hrg2 := hash_function_range k2 ht.capacity h.wf.cap_pos h.wf.cap_int
  cases hw : delete_walk k (bucket_at ht.buckets (hash_function k ht.capacity)) with
  | none =>
    rw [delete_key_of_none ht k hw]
    by_cases e : k2 = k
    · rw [if_pos e, e]
      exact search_walk_not_mem k v0 _ ((delete_walk_none_iff k _).1 hw)
    · rw [if_neg e]
  | some chain =>
    obtain ⟨a, v, b, e1, e2, ha⟩ := delete_walk_some k _ chain hw
    have hnd := h.nodup (hash_function k ht.capacity).toNat
    have hnot : k ∉ chain.map Node.key := by
      have e3 : ht.buckets.getD (hash_function k ht.capacity).toNat [] =
          a ++ { key := k, value := v } :: b := e1
      rw [e3] at hnd
      simp only [List.map_append, List.map_cons] at hnd
      have hb := (List.nodup_cons.1 (List.nodup_append.1 hnd).2.1).1
      rw [e2, List.map_append, List.mem_append]
      rintro (hx | hx)
      · exact ha hx
      · exact hb hx
    rw [delete_key_of_some ht k chain hw]
    by_cases e : k2 = k
    · rw [if_pos e, e]
      show search_walk k v0 (bucket_at (set_bucket ht.buckets _ chain) _) = _
      rw [bucket_at_set_bucket_same _ _ _ hi]
      exact search_walk_not_mem k v0 chain hnot
    · rw [if_neg e]
      show search_walk k2 v0 (bucket_at (set_bucket ht.buckets _ chain)
        (hash_function k2 ht.capacity)) =
        search_walk k2 v0 (bucket_at ht.buckets (hash_function k2 ht.capacity))
      by_cases e4 : hash_function k2 ht.capacity = hash_function k ht.capacity
      · rw [e4, bucket_at_set_bucket_same _ _ _ hi, e2, e1]
        exact (search_walk_remove k2 v0 a b _ (fun hc => e hc.symm)).symm
      · rw [bucket_at_set_bucket_ne _ _ _ _ hrg.1 hrg2.1 e4]

theorem Refines.init (c : Int) (h0 : 0 < c) (hc : is_int c) :
    Refines (init_table c true).2 ∅ :=
  { reach := ReachableWith.init c h0 hc
    search_eq := by
      intro k v0
      rw [search_init_table]
      unfold lookup_result
      rw [AList.lookup_empty] }

theorem Refines.of_insert {ht : HashTable} {m : AbstractMap} (h : Refines ht m) (k : List Nat)
    (v : Int) (hk : k.length ≤ 63) :
    Refines (insert ht k v true).2 (AList.insert k v m) :=
  { reach := ReachableWith.step ht (Call.insert k v true) h.reach hk
    search_eq := by
      intro k2 v0
      have hw := WF63_of_reachable ht h.reach
      by_cases e : k2 = k
      · subst e
        have hs : (insert ht k2 v true).1 = SUCCESS := by
          obtain ⟨h1, -, h3⟩ := hw.insert_status k2 v true
          by_cases hp : present ht k2
          · rw [h1 hp]
          · exact h3 hp rfl
        rw [hw.wf.search_insert k2 v v0 true hk hs]
        unfold lookup_result
        rw [AList.lookup_insert]
      · rw [hw.wf.search_insert_ne k k2 v v0 true hk e, h.search_eq]
        unfold lookup_result
        rw [AList.lookup_insert_ne e] }

theorem Refines.of_delete_key {ht : HashTable} {m : AbstractMap} (h : Refines ht m)
    (k : List Nat) : Refines (delete_key ht k).2 (AList.erase k m) :=
  { reach := ReachableWith.step ht (Call.delete_key k) h.reach trivial
    search_eq := by
      intro k2 v0
      have hw := WF63_of_reachable ht h.reach
      rw [hw.search_delete_key k k2 v0]
      by_cases e : k2 = k
      · rw [if_pos e, e]
        unfold lookup_result
        rw [AList.lookup_erase]
      · rw [if_neg e, h.search_eq]
        unfold lookup_result
        rw [AList.lookup_erase_ne e] }

theorem Refines.of_rehash_table {ht : HashTable} {m : AbstractMap} (h : Refines ht m)
    (ok : Bool) (mo : Nat → Bool) (hm : ∀ n, mo n = true) :
    Refines (rehash_table ht ok mo).2 m :=
  { reach := ReachableWith.step ht (Call.rehash_table ok mo) h.reach trivial
    search_eq := by
      intro k v0
      have hw := WF63_of_reachable ht h.reach
      cases hc : calloc_buckets (wrap_int (ht.capacity * 2)) ok with
      | none =>
        rw [rehash_table_of_fail ht ok mo hc]
        exact h.search_eq k v0
      | some nb =>
        obtain ⟨hok, h0, -⟩ := calloc_buckets_some _ _ _ hc
        have hd := wrap_double_pos ht.capacity hw.wf.cap_pos hw.wf.cap_int h0
        subst hok
        rw [(rehash_table_all_ok ht mo h.reach hm (by omega)).2.2.2 k v0]
        exact h.search_eq k v0 }

theorem Refines.run {ht : HashTable} {m : AbstractMap} (h : Refines ht m)
    (calls : List Call) (hok : ∀ call ∈ calls, call.no_failure63) :
    Refines (run_calls ht calls) (run_map m calls) := by
  induction calls generalizing ht m with
  | nil => exact h
  | cons c calls ih =>
    have hc := hok c (List.mem_cons_self _ _)
    have hrest : ∀ call ∈ calls, call.no_failure63 :=
      fun call hmem => hok call (List.mem_cons_of_mem _ hmem)
    show Refines (run_calls (c.run ht).2 calls) (run_map (Call.apply_map m c) calls)
    apply ih _ hrest
    cases c with
    | insert k v ok =>
      obtain ⟨hk, hm⟩ := hc
      subst hm
      exact h.of_insert k v hk
    | delete_key k => exact h.of_delete_key k
    | rehash_table ok mo => exact h.of_rehash_table ok mo hc.2

theorem Refines.mem_iff {ht : HashTable} {m : AbstractMap} (h : Refines ht m)
    (k : List Nat) : present ht k ↔ k ∈ m := by
  have hw := WF63_of_reachable ht h.reach
  rw [← hw.search_status_iff k 0, h.search_eq, ← AList.lookup_isSome]
  unfold lookup_result
  cases AList.lookup k m <;> simp

theorem Refines.count_eq {ht : HashTable} {m : AbstractMap} (h : Refines ht m) :
    ht.count = (m.entries.length : Int) := by
  have hw := WF63_of_reachable ht h.reach
  have hp : ((entries ht).map Node.key).Perm m.keys := by
    rw [List.perm_ext_iff_of_nodup hw.nodup_entries m.keys_nodup]
    intro k
    exact (h.mem_iff k).trans AList.mem_keys
  have hl := hp.length_eq
  rw [hw.wf.count_eq]
  unfold total_entries
  unfold AList.keys List.keys at hl
  simp only [List.length_map] at hl
  rw [hl]

/-- C29: the table refines a finite map.  For every sequence of `insert`, `delete_key` and
`rehash_table` calls with keys of at most 63 bytes and no allocation failure, applied to
`init_table(c)`, `c > 0`, and the same sequence applied to the abstract map starting empty
(insert = set, delete = erase, rehash = no change): `search(k)` on the table is the lookup
of `k` in the map for every key `k`, `count` is the size of the map, and a `delete_key(k)`
issued in that state returns `SUCCESS` exactly when the map contains `k` (and
`ERR_KEY_NOT_FOUND` otherwise). -/
theorem table_refines_map (c : Int) (calls : List Call) (h0 : 0 < c) (hc : is_int c)
    (hok : ∀ call ∈ calls, call.no_failure63) :
    (∀ (k : List Nat) (v0 : Int),
        search (run_calls (init_table c true).2 calls) k v0 =
          lookup_result (run_map ∅ calls) k v0) ∧
      (run_calls (init_table c true).2 calls).count =
        ((run_map ∅ calls).entries.length : Int) ∧
      (∀ k : List Nat,
        ((delete_key (run_calls (init_table c true).2 calls) k).1 = SUCCESS ↔
          k ∈ run_map ∅ calls) ∧
        ((delete_key (run_calls (init_table c true).2 calls) k).1 = SUCCESS ∨
          (delete_key (run_calls (init_table c true).2 calls) k).1 = ERR_KEY_NOT_FOUND)) := by
  have h := (Refines.init c h0 hc).run calls hok
  have hw := WF63_of_reachable _ h.reach
  refine ⟨h.search_eq, h.count_eq, fun k => ⟨?_, (hw.delete_key_status k).2⟩⟩
  exact (hw.delete_key_status k).1.trans (h.mem_iff k)

theorem sample_calls_no_failure : ∀ call ∈ sample_calls, call.no_failure63 := by
  intro call h
  simp only [sample_calls, List.mem_cons, List.mem_singleton, List.not_mem_nil,
    or_false] at h
  rcases h with rfl | rfl | rfl | rfl
  · exact ⟨by decide, rfl⟩
  · exact ⟨by decide, rfl⟩
  · exact trivial
  · exact ⟨rfl, fun _ => rfl⟩

theorem table_refines_map_witness :
    (0 : Int) < 10 ∧ is_int 10 ∧ (∀ call ∈ sample_calls, call.no_failure63) ∧
      search (run_calls (init_table 10 true).2 sample_calls) key_act 0 = (SUCCESS, 2) ∧
      search (run_calls (init_table 10 true).2 sample_calls) key_cat 0 =
        (ERR_KEY_NOT_FOUND, 0) ∧
      (run_calls (init_table 10 true).2 sample_calls).count = 1 :=
  ⟨by decide, by decide, sample_calls_no_failure,
    ((table_refines_map 10 sample_calls (by decide) (by decide)
      sample_calls_no_failure).1 key_act 0).trans (by decide),
    ((table_refines_map 10 sample_calls (by decide) (by decide)
      sample_calls_no_failure).1 key_cat 0).trans (by decide),
    (table_refines_map 10 sample_calls (by decide) (by decide)
      sample_calls_no_failure).2.1.trans (by decide)⟩

/-! ## The comparison of the load factor with 0.75 -/

theorem round_half_even_ge (x : ℚ) : ⌊x⌋ ≤ round_half_even x := by
  unfold round_half_even
  split
  · exact le_refl _
  · split
    · omega
    · split <;> omega

theorem round_half_even_le (x : ℚ) : round_half_even x ≤ ⌊x⌋ + 1 := by
  unfold round_half_even
  split
  · omega
  · split
    · omega
    · split <;> omega

theorem le_round_half_even (x : ℚ) (n : ℤ) (h : (n : ℚ) ≤ x) : n ≤ round_half_even x :=
  le_trans (Int.le_floor.2 h) (round_half_even_ge x)

theorem round_half_even_lt (x : ℚ) (n : ℤ) (h : x + 1 < (n : ℚ)) : round_half_even x < n := by
  have h1 := round_half_even_le x
  have h2 : ((⌊x⌋ : ℤ) : ℚ) ≤ x := Int.floor_le x
  have h3 : ((⌊x⌋ + 1 : ℤ) : ℚ) < (n : ℚ) := by push_cast; linarith
  have h4 : ⌊x⌋ + 1 < n := by exact_mod_cast h3
  omega

theorem round_half_even_le_of_le (x : ℚ) (n : ℤ) (h : x ≤ (n : ℚ)) :
    round_half_even x ≤ n := by
  rcases eq_or_lt_of_le h with e | hlt
  · have hf : ⌊x⌋ = n := by rw [e]; exact Int.floor_intCast n
    unfold round_half_even
    rw [hf, e]
    simp
  · have h1 := round_half_even_le x
    have h2 : ⌊x⌋ < n := Int.floor_lt.2 hlt
    omega

theorem round_double_pos_ge (q : ℚ) (hq : 3 / 4 ≤ q) : 3 / 4 ≤ round_double_pos q := by
  have hq0 : 0 < q := by linarith
  have hlo := Int.zpow_log_le_self (R := ℚ) (b := 2) (by norm_num) hq0
  have he : (-1 : ℤ) ≤ Int.log 2 q := by
    rw [← Int.zpow_le_iff_le_log (R := ℚ) (b := 2) (by norm_num) hq0]
    norm_num
    linarith
  have hs : (0 : ℚ) < (2 : ℚ) ^ (52 - Int.log 2 q) := zpow_pos (by norm_num) _
  unfold round_double_pos
  rw [le_div_iff₀ hs]
  push_cast at hlo
  rcases eq_or_lt_of_le he with e1 | e1
  · rw [← e1] at hlo ⊢
    have h53 : (2 : ℚ) ^ ((52 : ℤ) - -1) = 9007199254740992 := by norm_num
    rw [h53]
    have hx : ((6755399441055744 : ℤ) : ℚ) ≤ q * 9007199254740992 := by
      push_cast; linarith
    have := le_round_half_even _ _ hx
    have h2 : ((6755399441055744 : ℤ) : ℚ) ≤
        (round_half_even (q * 9007199254740992) : ℚ) := by exact_mod_cast this
    push_cast at h2
    linarith
  · have e0 : (0 : ℤ) ≤ Int.log 2 q := by omega
    have hs52 : (2 : ℚ) ^ (52 - Int.log 2 q) ≤ (2 : ℚ) ^ (52 : ℤ) :=
      zpow_le_zpow_right₀ (by norm_num) (by omega)
    have hmul : (2 : ℚ) ^ (Int.log 2 q) * (2 : ℚ) ^ (52 - Int.log 2 q) = (2 : ℚ) ^ (52 : ℤ) := by
      rw [← zpow_add₀ (by norm_num : (2 : ℚ) ≠ 0)]
      congr 1
      omega
    have h52 : (2 : ℚ) ^ (52 : ℤ) = 4503599627370496 := by norm_num
    have hx : ((4503599627370496 : ℤ) : ℚ) ≤ q * (2 : ℚ) ^ (52 - Int.log 2 q) := by
      push_cast
      rw [← h52, ← hmul]
      exact mul_le_mul_of_nonneg_right hlo (le_of_lt hs)
    have := le_round_half_even _ _ hx
    have h2 : ((4503599627370496 : ℤ) : ℚ) ≤
        (round_half_even (q * (2 : ℚ) ^ (52 - Int.log 2 q)) : ℚ) := by exact_mod_cast this
    push_cast at h2
    rw [h52] at hs52
    linarith

theorem round_double_pos_nonneg (q : ℚ) (hq : 0 < q) : 0 ≤ round_double_pos q := by
  have hs : (0 : ℚ) < (2 : ℚ) ^ (52 - Int.log 2 q) := zpow_pos (by norm_num) _
  unfold round_double_pos
  apply div_nonneg _ (le_of_lt hs)
  have hx : ((0 : ℤ) : ℚ) ≤ q * (2 : ℚ) ^ (52 - Int.log 2 q) := by
    push_cast
    exact le_of_lt (mul_pos hq hs)
  have := le_round_half_even _ _ hx
  exact_mod_cast this

theorem round_double_pos_lt (q : ℚ) (hq0 : 0 < q) (hq : q ≤ 3 / 4 - 1 / 8589934592) :
    round_double_pos q < 3 / 4 := by
  have hlo := Int.zpow_log_le_self (R := ℚ) (b := 2) (by norm_num) hq0
  have hhi := Int.lt_zpow_succ_log_self (R := ℚ) (b := 2) (by norm_num) q
  have he : Int.log 2 q < 0 := by
    rw [← Int.lt_zpow_iff_log_lt (R := ℚ) (b := 2) (by norm_num) hq0]
    norm_num
    linarith
  have hs : (0 : ℚ) < (2 : ℚ) ^ (52 - Int.log 2 q) := zpow_pos (by norm_num) _
  unfold round_double_pos
  rw [div_lt_iff₀ hs]
  push_cast at hlo hhi
  rcases eq_or_lt_of_le (show Int.log 2 q ≤ -1 by omega) with e1 | e1
  · rw [e1]
    have h53 : (2 : ℚ) ^ ((52 : ℤ) - -1) = 9007199254740992 := by norm_num
    rw [h53]
    have hx : q * 9007199254740992 + 1 < ((6755399441055744 : ℤ) : ℚ) := by
      push_cast; linarith
    have := round_half_even_lt _ _ hx
    have h2 : (round_half_even (q * 9007199254740992) : ℚ) <
        ((6755399441055744 : ℤ) : ℚ) := by exact_mod_cast this
    push_cast at h2
    linarith
  · have hs54 : (2 : ℚ) ^ (54 : ℤ) ≤ (2 : ℚ) ^ (52 - Int.log 2 q) :=
      zpow_le_zpow_right₀ (by norm_num) (by omega)
    have hmul : (2 : ℚ) ^ (Int.log 2 q + 1) * (2 : ℚ) ^ (52 - Int.log 2 q) =
        (2 : ℚ) ^ (53 : ℤ) := by
      rw [← zpow_add₀ (by norm_num : (2 : ℚ) ≠ 0)]
      congr 1
      omega
    have h53 : (2 : ℚ) ^ (53 : ℤ) = 9007199254740992 := by norm_num
    have h54 : (2 : ℚ) ^ (54 : ℤ) = 18014398509481984 := by norm_num
    have hx : q * (2 : ℚ) ^ (52 - Int.log 2 q) ≤ ((9007199254740992 : ℤ) : ℚ) := by
      push_cast
      rw [← h53, ← hmul]
      exact mul_le_mul_of_nonneg_right (le_of_lt hhi) (le_of_lt hs)
    have := round_half_even_le_of_le _ _ hx
    have h2 : (round_half_even (q * (2 : ℚ) ^ (52 - Int.log 2 q)) : ℚ) ≤
        ((9007199254740992 : ℤ) : ℚ) := by exact_mod_cast this
    push_cast at h2
    rw [h54] at hs54
    linarith

theorem exact_load_factor_lt (count c : Int) (h0 : 0 < c) :
    ((count : ℚ) / (c : ℚ) < 3 / 4 ↔ 4 * count < 3 * c) := by
  have hc : (0 : ℚ) < (c : ℚ) := by exact_mod_cast h0
  rw [div_lt_iff₀ hc]
  constructor
  · intro h
    have h2 : (4 : ℚ) * (count : ℚ) < 3 * (c : ℚ) := by linarith
    exact_mod_cast h2
  · intro h
    have h2 : (4 : ℚ) * (count : ℚ) < 3 * (c : ℚ) := by exact_mod_cast h
    linarith

theorem round_double_lt_iff (count c : Int) (h0 : 0 < c) (h1 : c ≤ 2147483647) :
    (round_double ((count : ℚ) / (c : ℚ)) < 3 / 4 ↔ 4 * count < 3 * c) := by
  have hc : (0 : ℚ) < (c : ℚ) := by exact_mod_cast h0
  have hc1 : (c : ℚ) ≤ 2147483647 := by exact_mod_cast h1
  constructor
  · intro h
    by_contra hn
    have h2 : ¬ ((count : ℚ) / (c : ℚ) < 3 / 4) := fun hq =>
      hn ((exact_load_factor_lt count c h0).1 hq)
    have h3 : (3 : ℚ) / 4 ≤ (count : ℚ) / (c : ℚ) := not_lt.1 h2
    have hpos : (0 : ℚ) < (count : ℚ) / (c : ℚ) := by linarith
    unfold round_double at h
    rw [if_pos hpos] at h
    have := round_double_pos_ge _ h3
    linarith
  · intro h
    unfold round_double
    split
    · rename_i hpos
      apply round_double_pos_lt _ hpos
      have h2 : 4 * count + 1 ≤ 3 * c := by omega
      have h3 : (4 : ℚ) * (count : ℚ) + 1 ≤ 3 * (c : ℚ) := by exact_mod_cast h2
      rw [div_le_iff₀ hc]
      have h4 : (1 : ℚ) / 8589934592 * (c : ℚ) ≤ 1 / 4 := by linarith
      linarith
    · split
      · rename_i hneg
        have := round_double_pos_nonneg (-((count : ℚ) / (c : ℚ))) (by linarith)
        linarith
      · norm_num

theorem run_stats_loop_max_chain (ht : HashTable) :
    (run_stats_loop ht).max_chain = longest_chain_spec ht := by
  unfold run_stats_loop longest_chain_spec chain_length
  rw [(foldl_run_stats_bucket ht.buckets (List.range ht.capacity.toNat) ⟨0, 0, 0⟩
    (le_refl _)).2.2]
  exact max_eq_right (foldr_max_nonneg _)

/-- C21: efficiency classification.  For every table with an `int` capacity `c > 0`,
`run_stats` prints GOOD exactly when `4 * count < 3 * c` (the load factor `count / c`, as an
exact rational, is below 0.75: the rounding of the `double` division does not change the
comparison) and the longest chain is below 3; in every other case it prints DEGRADING. -/
theorem efficiency_classification (ht : HashTable) (h0 : 0 < ht.capacity)
    (h1 : ht.capacity ≤ 2147483647) :
    (run_stats_efficiency ht = Efficiency.GOOD ↔
        (4 * ht.count < 3 * ht.capacity ∧ longest_chain_spec ht < 3)) ∧
      (run_stats_efficiency ht = Efficiency.DEGRADING ↔
        ¬ (4 * ht.count < 3 * ht.capacity ∧ longest_chain_spec ht < 3)) ∧
      (load_factor ht < 3 / 4 ↔ (ht.count : ℚ) / (ht.capacity : ℚ) < 3 / 4) ∧
      ((ht.count : ℚ) / (ht.capacity : ℚ) < 3 / 4 ↔ 4 * ht.count < 3 * ht.capacity) ∧
      (run_stats_loop ht).max_chain = longest_chain_spec ht := by
  have hl : load_factor ht < 3 / 4 ↔ 4 * ht.count < 3 * ht.capacity :=
    round_double_lt_iff ht.count ht.capacity h0 h1
  have hx := exact_load_factor_lt ht.count ht.capacity h0
  have hm := run_stats_loop_max_chain ht
  refine ⟨?_, ?_, hl.trans hx.symm, hx, hm⟩
  · unfold run_stats_efficiency
    rw [hm]
    constructor
    · intro h
      by_contra hn
      rw [if_neg (fun hc => hn ⟨hl.1 hc.1, hc.2⟩)] at h
      simp at h
    · intro h
      rw [if_pos ⟨hl.2 h.1, h.2⟩]
  · unfold run_stats_efficiency
    rw [hm]
    constructor
    · intro h hc
      rw [if_pos ⟨hl.2 hc.1, hc.2⟩] at h
      simp at h
    · intro h
      rw [if_neg (fun hc => h ⟨hl.1 hc.1, hc.2⟩)]

theorem efficiency_classification_witness :
    0 < table_cat_act.capacity ∧ table_cat_act.capacity ≤ 2147483647 ∧
      run_stats_efficiency table_cat_act = Efficiency.GOOD ∧
      run_stats_efficiency { table_cat_act with count := 8 } = Efficiency.DEGRADING :=
  ⟨by decide, by decide,
    (efficiency_classification table_cat_act (by decide) (by decide)).1.2
      ⟨by decide, by decide⟩,
    (efficiency_classification { table_cat_act with count := 8 } (by decide)
      (by decide)).2.1.2 (fun hc => absurd hc.1 (by decide))⟩

/-! ## Sizes of chains and statuses of the operations -/

theorem length_bucket_at_le (b : List (List Node)) (idx : Int) :
    (bucket_at b idx).length ≤ b.flatten.length := by
  by_cases h : idx.toNat < b.length
  · have := congrArg List.length (flatten_split b idx h)
    simp only [List.length_append] at this
    omega
  · unfold bucket_at
    rw [List.getD_eq_default _ _ (Nat.le_of_not_lt h)]
    simp

theorem length_flatten_set_bucket_le (b : List (List Node)) (idx : Int) (chain : List Node) :
    (set_bucket b idx chain).flatten.length + (bucket_at b idx).length ≤
      b.flatten.length + chain.length := by
  by_cases h : idx.toNat < b.length
  · exact le_of_eq (length_flatten_set_bucket b idx chain h)
  · have e : set_bucket b idx chain = b := by
      unfold set_bucket
      exact List.set_eq_of_length_le (Nat.le_of_not_lt h)
    have e2 : bucket_at b idx = [] := by
      unfold bucket_at
      exact List.getD_eq_default _ _ (Nat.le_of_not_lt h)
    rw [e, e2]
    simp

theorem length_entries_insert_le (ht : HashTable) (k : List Nat) (v : Int) (ok : Bool) :
    (entries (insert ht k v ok).2).length ≤ (entries ht).length + 1 := by
  cases hw : insert_walk k v (bucket_at ht.buckets (hash_function k ht.capacity)) with
  | some chain =>
    rw [insert_of_some ht k v ok chain hw]
    have h1 := length_flatten_set_bucket_le ht.buckets (hash_function k ht.capacity) chain
    have h2 := insert_walk_some_length k v _ chain hw
    unfold entries
    simp only
    omega
  | none =>
    cases ok with
    | false =>
      rw [insert_of_none_fail ht k v hw]
      exact Nat.le_succ _
    | true =>
      rw [insert_of_none_ok ht k v hw]
      have h1 := length_flatten_set_bucket_le ht.buckets (hash_function k ht.capacity)
        (bucket_at ht.buckets (hash_function k ht.capacity) ++
          [{ key := k.take 63, value := v }])
      unfold entries
      simp only [List.length_append, List.length_singleton] at h1 ⊢
      omega

theorem search_status_cases (ht : HashTable) (k : List Nat) (v0 : Int) :
    (search ht k v0).1 = SUCCESS ∨ (search ht k v0).1 = ERR_KEY_NOT_FOUND := by
  rcases search_walk_cases k v0
      (bucket_at ht.buckets (hash_function k ht.capacity)) with ⟨-, e⟩ | ⟨w, -, e⟩
  · right
    have es : search ht k v0 = (ERR_KEY_NOT_FOUND, v0) := e
    rw [es]
  · left
    have es : search ht k v0 = (SUCCESS, w) := e
    rw [es]

theorem insert_status_cases (ht : HashTable) (k : List Nat) (v : Int) (ok : Bool) :
    (insert ht k v ok).1 = SUCCESS ∨ (insert ht k v ok).1 = ERR_MEMORY_ALLOCATION := by
  cases hw : insert_walk k v (bucket_at ht.buckets (hash_function k ht.capacity)) with
  | some chain => rw [insert_of_some ht k v ok chain hw]; exact Or.inl rfl
  | none =>
    cases ok with
    | false => rw [insert_of_none_fail ht k v hw]; exact Or.inr rfl
    | true => rw [insert_of_none_ok ht k v hw]; exact Or.inl rfl

theorem delete_key_status_cases (ht : HashTable) (k : List Nat) :
    (delete_key ht k).1 = SUCCESS ∨ (delete_key ht k).1 = ERR_KEY_NOT_FOUND := by
  cases hw : delete_walk k (bucket_at ht.buckets (hash_function k ht.capacity)) with
  | some chain => rw [delete_key_of_some ht k chain hw]; exact Or.inl rfl
  | none => rw [delete_key_of_none ht k hw]; exact Or.inr rfl

theorem rehash_table_status_cases (ht : HashTable) (ok : Bool) (m : Nat → Bool) :
    (rehash_table ht ok m).1 = SUCCESS ∨ (rehash_table ht ok m).1 = ERR_MEMORY_ALLOCATION := by
  cases hc : calloc_buckets (wrap_int (ht.capacity * 2)) ok with
  | some nb => rw [rehash_table_of_ok ht ok m nb hc]; exact Or.inl rfl
  | none => rw [rehash_table_of_fail ht ok m hc]; exact Or.inr rfl

/-! ## Exact arithmetic of `hash_function`, over-long keys -/

/-- C38: exact arithmetic of `hash_function` with a signed 8-bit `char` and a 32-bit
`unsigned int`.  For every key and capacity `c` with `0 < c <= 2^31 - 1` the result is
`((sum over the bytes b of s(b)) mod 2^32) mod c`, where `s(b) = b` for `b < 128` and
`s(b) = b + 2^32 - 256` for `b >= 128`; for a key of fewer than `2^25` bytes, all below 128,
it is the plain byte sum modulo `c`. -/
theorem hash_function_exact (key : List Nat) (c : Int) (h0 : 0 < c) (h1 : c ≤ 2147483647) :
    hash_function key c =
        ((((key.map (fun b => if b < 128 then b else b + 4294967296 - 256)).sum : Nat) : Int) %
          4294967296) % c ∧
      (key.length < 33554432 → (∀ b ∈ key, b < 128) →
        hash_function key c = ((key.sum : Nat) : Int) % c) := by
  have hc : ((c.toNat : Nat) : Int) = c := Int.toNat_of_nonneg (le_of_lt h0)
  have hs : key.map (fun b => if b < 128 then b else b + 4294967296 - 256) =
      key.map char_to_unsigned := by
    apply List.map_congr_left
    intro b _
    rfl
  constructor
  · rw [hash_function_eq_sum key c h0 h1, hs]
    push_cast
    rw [hc]
  · intro hl ha
    rw [hash_function_eq_sum key c h0 h1, map_char_to_unsigned_ascii key ha]
    have hle := sum_le_of_ascii key ha
    have hlt : key.sum % 4294967296 = key.sum := Nat.mod_eq_of_lt (by omega)
    rw [hlt]
    push_cast
    rw [hc]

theorem hash_function_exact_witness :
    (0 : Int) < 11 ∧ (11 : Int) ≤ 2147483647 ∧
      hash_function [128, 65] 11 =
        (((([128, 65] : List Nat).map
          (fun b => if b < 128 then b else b + 4294967296 - 256)).sum : Nat) : Int) %
            4294967296 % 11 ∧
      hash_function key_cat 11 = ((key_cat.sum : Nat) : Int) % 11 :=
  ⟨by decide, by decide,
    (hash_function_exact [128, 65] 11 (by decide) (by decide)).1,
    (hash_function_exact key_cat 11 (by decide) (by decide)).2 (by decide) (by decide)⟩

/-- C37: for some sequence of successful inserts, `rehash_table` changes `count`.  Inserting
the same 64-byte key twice (values 1 and 2) into the table of `init_table(10)` succeeds twice
and gives count 2, with two entries whose stored keys are the same 63 bytes; the following
`rehash_table`, no allocation failing, returns `SUCCESS` and leaves capacity 20 and a single
entry, holding value 2, with count 1. -/
theorem rehash_table_merges_truncated_keys :
    key_a63b.length = 64 ∧
      (insert table_empty key_a63b 1 true).1 = SUCCESS ∧
      (insert table_long key_a63b 2 true).1 = SUCCESS ∧
      table_long_twice.count = 2 ∧
      entries table_long_twice =
        [{ key := key_a63, value := 1 }, { key := key_a63, value := 2 }] ∧
      key_a63.length = 63 ∧
      (rehash_table table_long_twice true (fun _ => true)).1 = SUCCESS ∧
      (rehash_table table_long_twice true (fun _ => true)).2.capacity = 20 ∧
      entries (rehash_table table_long_twice true (fun _ => true)).2 =
        [{ key := key_a63, value := 2 }] ∧
      (rehash_table table_long_twice true (fun _ => true)).2.count = 1 :=
  ⟨by decide, by decide, by decide, by decide, by decide, by decide, by decide, by decide,
    by decide, by decide⟩

theorem short_insert (ht : HashTable) (k : List Nat) (v : Int) (ok : Bool)
    (hs : ∀ n ∈ entries ht, n.key.length ≤ 63) :
    ∀ n ∈ entries (insert ht k v ok).2, n.key.length ≤ 63 := by
  have hold : ∀ n ∈ bucket_at ht.buckets (hash_function k ht.capacity), n.key.length ≤ 63 :=
    fun n hn => hs n ((mem_entries_iff ht n).2 ⟨_, hn⟩)
  have key : ∀ chain : List Node, (∀ n ∈ chain, n.key.length ≤ 63) →
      ∀ n, (∃ i : Nat, n ∈ (set_bucket ht.buckets (hash_function k ht.capacity) chain).getD i [])
        → n.key.length ≤ 63 := by
    intro chain hch n hn
    obtain ⟨i, hi⟩ := hn
    rw [getD_set_bucket] at hi
    split at hi
    · exact hch n hi
    · exact hs n ((mem_entries_iff ht n).2 ⟨i, hi⟩)
  cases hw : insert_walk k v (bucket_at ht.buckets (hash_function k ht.capacity)) with
  | some chain =>
    rw [insert_of_some ht k v ok chain hw]
    intro n hn
    apply key chain _ n ((mem_entries_iff _ n).1 hn)
    intro x hx
    have hk : x.key ∈ chain.map Node.key := List.mem_map_of_mem Node.key hx
    rw [insert_walk_some_keys k v _ chain hw] at hk
    obtain ⟨y, hy, e⟩ := List.mem_map.1 hk
    rw [← e]
    exact hold y hy
  | none =>
    cases ok with
    | false => rw [insert_of_none_fail ht k v hw]; exact hs
    | true =>
      rw [insert_of_none_ok ht k v hw]
      intro n hn
      apply key _ _ n ((mem_entries_iff _ n).1 hn)
      intro x hx
      rcases List.mem_append.1 hx with h1 | h1
      · exact hold x h1
      · simp only [List.mem_singleton] at h1
        rw [h1]
        exact le_trans (List.length_take_le _ _) (le_refl _)

theorem short_delete_key (ht : HashTable) (k : List Nat)
    (hs : ∀ n ∈ entries ht, n.key.length ≤ 63) :
    ∀ n ∈ entries (delete_key ht k).2, n.key.length ≤ 63 := by
  cases hw : delete_walk k (bucket_at ht.buckets (hash_function k ht.capacity)) with
  | none => rw [delete_key_of_none ht k hw]; exact hs
  | some chain =>
    rw [delete_key_of_some ht k chain hw]
    obtain ⟨a, v, b, e1, e2, -⟩ := delete_walk_some k _ chain hw
    intro n hn
    obtain ⟨i, hi⟩ := (mem_entries_iff _ n).1 hn
    simp only at hi
    rw [getD_set_bucket] at hi
    split at hi
    · apply hs n
      apply (mem_entries_iff ht n).2
      refine ⟨(hash_function k ht.capacity).toNat, ?_⟩
      have hb : bucket_at ht.buckets (hash_function k ht.capacity) =
          ht.buckets.getD (hash_function k ht.capacity).toNat [] := rfl
      rw [← hb, e1]
      rw [e2] at hi
      rcases List.mem_append.1 hi with h1 | h1
      · exact List.mem_append_left _ h1
      · exact List.mem_append_right _ (List.mem_cons_of_mem _ h1)
    · exact hs n ((mem_entries_iff ht n).2 ⟨i, hi⟩)

theorem short_migrate_chain (l : List Node) (ht : HashTable) (m : Nat → Bool)
    (hs : ∀ n ∈ entries ht, n.key.length ≤ 63) :
    ∀ n ∈ entries (migrate_chain l ht m).1, n.key.length ≤ 63 := by
  induction l generalizing ht m with
  | nil => exact hs
  | cons a l ih => exact ih _ _ (short_insert ht a.key a.value (m 0) hs)

theorem short_migrate_buckets (old : List (List Node)) (is : List Nat) (ht : HashTable)
    (m : Nat → Bool) (hs : ∀ n ∈ entries ht, n.key.length ≤ 63) :
    ∀ n ∈ entries (migrate_buckets old is ht m).1, n.key.length ≤ 63 := by
  induction is generalizing ht m with
  | nil => exact hs
  | cons i is ih => exact ih _ _ (short_migrate_chain _ ht m hs)

theorem short_rehash_table (ht : HashTable) (ok : Bool) (m : Nat → Bool)
    (hs : ∀ n ∈ entries ht, n.key.length ≤ 63) :
    ∀ n ∈ entries (rehash_table ht ok m).2, n.key.length ≤ 63 := by
  cases hc : calloc_buckets (wrap_int (ht.capacity * 2)) ok with
  | none => rw [rehash_table_of_fail ht ok m hc]; exact hs
  | some nb =>
    rw [rehash_table_of_ok ht ok m nb hc]
    obtain ⟨-, -, rfl⟩ := calloc_buckets_some _ _ _ hc
    apply short_migrate_buckets
    intro n hn
    simp [entries, flatten_replicate_nil] at hn

theorem short_of_reachable (ht : HashTable) (h : Reachable ht) :
    ∀ n ∈ entries ht, n.key.length ≤ 63 := by
  induction h with
  | init c hpos hint =>
    intro n hn
    rw [entries_init_table] at hn
    simp at hn
  | step ht c _ _ ih =>
    cases c with
    | insert k v ok => exact short_insert ht k v ok ih
    | delete_key k => exact short_delete_key ht k ih
    | rehash_table ok m => exact short_rehash_table ht ok m ih

theorem not_present_of_long (ht : HashTable) (k : List Nat) (hr : Reachable ht)
    (hk : 64 ≤ k.length) : ¬ present ht k := by
  intro hp
  obtain ⟨n, hn, e⟩ := List.mem_map.1 hp
  have := short_of_reachable ht hr n hn
  rw [e] at this
  omega

/-- C36, as amended: over-long keys are stored truncated and are never found.  On every
table built by `init_table`, `insert`, `delete_key` and `rehash_table`, for every key `k` of
64 or more bytes: `search(k)` and `delete_key(k)` return `ERR_KEY_NOT_FOUND` (the table being
left as it was); every `insert(k, v)` whose `malloc` gives a block returns `SUCCESS`, adds a
new entry holding the first 63 bytes of `k` at the tail of its bucket and increments `count`;
and right after that insert `search(k)` and `delete_key(k)` still return
`ERR_KEY_NOT_FOUND`. -/
theorem long_key_never_found (ht : HashTable) (k : List Nat) (v v0 : Int)
    (hr : Reachable ht) (hk : 64 ≤ k.length) :
    search ht k v0 = (ERR_KEY_NOT_FOUND, v0) ∧
      delete_key ht k = (ERR_KEY_NOT_FOUND, ht) ∧
      (insert ht k v true).1 = SUCCESS ∧
      (insert ht k v true).2.count = ht.count + 1 ∧
      bucket_at (insert ht k v true).2.buckets (hash_function k ht.capacity) =
        bucket_at ht.buckets (hash_function k ht.capacity) ++
          [{ key := k.take 63, value := v }] ∧
      (entries (insert ht k v true).2).length = (entries ht).length + 1 ∧
      search (insert ht k v true).2 k v0 = (ERR_KEY_NOT_FOUND, v0) ∧
      (delete_key (insert ht k v true).2 k).1 = ERR_KEY_NOT_FOUND := by
  have h := WF_of_reachable _ ht hr
  have hn := not_present_of_long ht k hr hk
  have hr2 : Reachable (insert ht k v true).2 :=
    ReachableWith.step ht (Call.insert k v true) hr trivial
  have hn2 := not_present_of_long _ k hr2 hk
  have hdel : ∀ t : HashTable, ¬ present t k → delete_key t k = (ERR_KEY_NOT_FOUND, t) := by
    intro t ht
    apply delete_key_of_none
    rw [delete_walk_none_iff]
    exact fun hm => ht (present_of_mem_bucket t k _ hm)
  obtain ⟨e, hp⟩ := h.entries_insert_absent k v hn
  refine ⟨search_of_not_present ht k v0 hn, hdel ht hn, by rw [e], by rw [e], ?_, ?_,
    search_of_not_present _ k v0 hn2, by rw [hdel _ hn2]⟩
  · rw [e]
    exact bucket_at_set_bucket_same _ _ _ (h.idx_lt k)
  · rw [hp.length_eq]
    rfl

theorem long_key_never_found_witness :
    Reachable table_cat ∧ 64 ≤ key_a63b.length ∧
      search table_cat key_a63b 0 = (ERR_KEY_NOT_FOUND, 0) ∧
      (insert table_cat key_a63b 5 true).2.count = table_cat.count + 1 ∧
      search (insert table_cat key_a63b 5 true).2 key_a63b 0 = (ERR_KEY_NOT_FOUND, 0) :=
  ⟨reachable_of_reachable63 _ reachable63_table_cat, by decide,
    (long_key_never_found table_cat key_a63b 5 0
      (reachable_of_reachable63 _ reachable63_table_cat) (by decide)).1,
    (long_key_never_found table_cat key_a63b 5 0
      (reachable_of_reachable63 _ reachable63_table_cat) (by decide)).2.2.2.1,
    (long_key_never_found table_cat key_a63b 5 0
      (reachable_of_reachable63 _ reachable63_table_cat) (by decide)).2.2.2.2.2.2.1⟩

/-- C36 fails for an `insert` whose `malloc` returns `NULL`: on the empty table of capacity
10, `insert` of the 64-byte key `aaa...ab` then returns `ERR_MEMORY_ALLOCATION`, adds no
entry and leaves `count` at 0. -/
theorem long_key_never_found_counterexample :
    Reachable table_empty ∧ 64 ≤ key_a63b.length ∧
      insert table_empty key_a63b 1 false = (ERR_MEMORY_ALLOCATION, table_empty) ∧
      table_empty.count = 0 ∧ entries table_empty = [] :=
  ⟨reachable_of_reachable63 _ reachable63_table_empty, by decide, by decide, by decide,
    by decide⟩

/-! ## Insert followed by delete -/

theorem delete_walk_append (k : List Nat) (l : List Node) (n : Node)
    (hl : k ∉ l.map Node.key) (hn : n.key = k) : delete_walk k (l ++ [n]) = some l := by
  induction l with
  | nil => simp [delete_walk, hn]
  | cons a l ih =>
    simp only [List.map_cons, List.mem_cons, not_or] at hl
    have e : ¬ a.key = k := fun e => hl.1 e.symm
    simp [delete_walk, e, ih hl.2]

theorem set_bucket_restore (b : List (List Node)) (idx : Int) (chain : List Node) :
    set_bucket (set_bucket b idx chain) idx (bucket_at b idx) = b := by
  apply list_ext_getD
  · simp [length_set_bucket]
  · intro i
    rw [getD_set_bucket, getD_set_bucket, length_set_bucket]
    by_cases e : i = idx.toNat ∧ idx.toNat < b.length
    · rw [if_pos e, e.1]; rfl
    · rw [if_neg e, if_neg e]

theorem WF.insert_then_delete {ht : HashTable} (h : WF ht) (k : List Nat) (v : Int)
    (hk : k.length ≤ 63) (hn : ¬ present ht k) :
    (insert ht k v true).1 = SUCCESS ∧ delete_key (insert ht k v true).2 k = (SUCCESS, ht) := by
  have hw : insert_walk k v (bucket_at ht.buckets (hash_function k ht.capacity)) = none :=
    (insert_walk_none_iff k v _).2 (fun hm => hn (present_of_mem_bucket ht k _ hm))
  have hnot := (insert_walk_none_iff k v _).1 hw
  have hi := h.idx_lt k
  rw [insert_of_none_ok ht k v hw, List.take_of_length_le hk]
  refine ⟨rfl, ?_⟩
  have hd : delete_walk k
      (bucket_at (set_bucket ht.buckets (hash_function k ht.capacity)
        (bucket_at ht.buckets (hash_function k ht.capacity) ++ [{ key := k, value := v }]))
        (hash_function k ht.capacity)) =
      some (bucket_at ht.buckets (hash_function k ht.capacity)) := by
    rw [bucket_at_set_bucket_same _ _ _ hi]
    exact delete_walk_append k _ _ hnot rfl
  rw [delete_key_of_some _ k _ hd]
  simp only [set_bucket_restore, add_sub_cancel_right]

/-- C33, as amended: insert then delete is the identity.  On a reachable table `t`, for a
key `k` of at most 63 bytes that is absent from `t`, `insert(k, v)` followed by
`delete_key(k)` leaves the table `t` again (same capacity, same count, same entries in the
same order in every chain), whatever the `malloc` of `insert` does; both calls return
`SUCCESS` when that `malloc` gives a block; when it returns `NULL`, `insert` returns
`ERR_MEMORY_ALLOCATION` and `delete_key` returns `ERR_KEY_NOT_FOUND`. -/
theorem insert_then_delete_identity (ht : HashTable) (k : List Nat) (v : Int) (ok : Bool)
    (hr : Reachable ht) (hk : k.length ≤ 63) (hn : ¬ present ht k) :
    (delete_key (insert ht k v ok).2 k).2 = ht ∧
      (ok = true → (insert ht k v ok).1 = SUCCESS ∧
        (delete_key (insert ht k v ok).2 k).1 = SUCCESS) ∧
      (ok = false → (insert ht k v ok).1 = ERR_MEMORY_ALLOCATION ∧
        (delete_key (insert ht k v ok).2 k).1 = ERR_KEY_NOT_FOUND) := by
  cases ok with
  | true =>
    obtain ⟨h1, h2⟩ := (WF_of_reachable _ ht hr).insert_then_delete k v hk hn
    exact ⟨by rw [h2], fun _ => ⟨h1, by rw [h2]⟩, fun hc => Bool.noConfusion hc⟩
  | false =>
    have hw : insert_walk k v (bucket_at ht.buckets (hash_function k ht.capacity)) = none :=
      (insert_walk_none_iff k v _).2 (fun hm => hn (present_of_mem_bucket ht k _ hm))
    have hd : delete_walk k (bucket_at ht.buckets (hash_function k ht.capacity)) = none :=
      (delete_walk_none_iff k _).2 (fun hm => hn (present_of_mem_bucket ht k _ hm))
    rw [insert_of_none_fail ht k v hw, delete_key_of_none ht k hd]
    exact ⟨rfl, fun hc => Bool.noConfusion hc, fun _ => ⟨rfl, rfl⟩⟩

theorem insert_then_delete_identity_witness :
    Reachable table_cat ∧ key_act.length ≤ 63 ∧ ¬ present table_cat key_act ∧
      (delete_key (insert table_cat key_act 2 false).2 key_act).2 = table_cat ∧
      (delete_key (insert table_cat key_act 2 true).2 key_act).2 = table_cat ∧
      (insert table_cat key_act 2 true).1 = SUCCESS ∧
      (delete_key (insert table_cat key_act 2 true).2 key_act).1 = SUCCESS :=
  ⟨reachable_of_reachable63 _ reachable63_table_cat, by decide, by decide,
    (insert_then_delete_identity table_cat key_act 2 false
      (reachable_of_reachable63 _ reachable63_table_cat) (by decide) (by decide)).1,
    (insert_then_delete_identity table_cat key_act 2 true
      (reachable_of_reachable63 _ reachable63_table_cat) (by decide) (by decide)).1,
    (insert_then_delete_identity table_cat key_act 2 true
      (reachable_of_reachable63 _ reachable63_table_cat) (by decide) (by decide)).2.1 rfl⟩

/-- C33 fails when the `malloc` of `insert` returns `NULL`: on the table holding
`"cat" -> 1`, for the absent key `"act"`, `insert` returns `ERR_MEMORY_ALLOCATION` and the
following `delete_key` returns `ERR_KEY_NOT_FOUND`, not `SUCCESS` twice. -/
theorem insert_then_delete_identity_counterexample :
    Reachable table_cat ∧ key_act.length ≤ 63 ∧ ¬ present table_cat key_act ∧
      (insert table_cat key_act 2 false).1 = ERR_MEMORY_ALLOCATION ∧
      (delete_key (insert table_cat key_act 2 false).2 key_act).1 = ERR_KEY_NOT_FOUND :=
  ⟨reachable_of_reachable63 _ reachable63_table_cat, by decide, by decide, by decide,
    by decide⟩

/-! ## Relations between the counters of `run_stats` -/

theorem run_stats_loop_collisions (ht : HashTable) :
    (run_stats_loop ht).collisions = collisions_spec ht := by
  unfold run_stats_loop collisions_spec chain_length
  rw [(foldl_run_stats_bucket ht.buckets _ ⟨0, 0, 0⟩ (le_refl _)).2.1]
  simp

theorem run_stats_loop_used_buckets (ht : HashTable) :
    (run_stats_loop ht).used_buckets = used_buckets_spec ht := by
  unfold run_stats_loop used_buckets_spec
  rw [(foldl_run_stats_bucket ht.buckets _ ⟨0, 0, 0⟩ (le_refl _)).1]
  simp

theorem sum_collisions_eq (b : List (List Node)) (is : List Nat) :
    (is.map (fun i : Nat => max (((bucket_at b (i : Int)).length : Int) - 1) 0)).sum =
      ((is.map (fun i : Nat => (bucket_at b (i : Int)).length)).sum : Int) -
        ((is.filter (fun i : Nat => decide (bucket_at b (i : Int) ≠ []))).length : Int) := by
  induction is with
  | nil => simp
  | cons i is ih =>
    simp only [List.map_cons, List.sum_cons, ih, List.filter_cons]
    cases hb : bucket_at b (i : Int) with
    | nil => simp
    | cons a l =>
      simp only [List.length_cons, ne_eq, reduceCtorEq, not_false_eq_true, decide_True,
        if_true, Nat.cast_add, Nat.cast_one]
      have : (0 : Int) ≤ (l.length : Int) := Int.ofNat_nonneg _
      rw [max_eq_left (by omega)]
      omega

theorem WF.count_eq_sum {ht : HashTable} (h : WF ht) :
    ht.count =
      (((List.range ht.capacity.toNat).map
        (fun i : Nat => (bucket_at ht.buckets (i : Int)).length)).sum : Int) := by
  rw [h.count_eq]
  unfold total_entries
  rw [← entries_by_index_eq ht h.len]
  unfold entries_by_index
  rw [List.length_flatten, List.map_map]
  rfl

/-- C34: on every table reachable from `init_table(c)`, `c > 0`, by `insert`, `delete_key`
and `rehash_table` calls, the counters computed by the loop of `run_stats` satisfy
collisions = count - used buckets, used buckets <= capacity, and longest chain = 0 exactly
when count = 0. -/
theorem stats_relations (ht : HashTable) (hr : Reachable ht) :
    (run_stats_loop ht).collisions = ht.count - (run_stats_loop ht).used_buckets ∧
      (run_stats_loop ht).used_buckets ≤ ht.capacity ∧
      ((run_stats_loop ht).max_chain = 0 ↔ ht.count = 0) := by
  have h := WF_of_reachable _ ht hr
  have hu := run_stats_loop_used_buckets ht
  have hm := run_stats_loop_max_chain ht
  refine ⟨?_, ?_, ?_⟩
  · rw [run_stats_loop_collisions, hu, h.count_eq_sum]
    unfold collisions_spec used_buckets_spec chain_length
    exact sum_collisions_eq ht.buckets _
  · rw [hu]
    unfold used_buckets_spec
    have hle := List.length_filter_le
      (fun i : Nat => decide (bucket_at ht.buckets (i : Int) ≠ []))
      (List.range ht.capacity.toNat)
    rw [List.length_range] at hle
    have hp := h.cap_pos
    omega
  · rw [hm]
    constructor
    · intro h0
      have hall : ∀ i : Nat, bucket_at ht.buckets (i : Int) = [] := by
        intro i
        by_cases hi : i < ht.capacity.toNat
        · have hge := foldr_max_ge
            ((List.range ht.capacity.toNat).map (fun i : Nat => chain_length ht i))
            (chain_length ht i) (List.mem_map.2 ⟨i, List.mem_range.2 hi, rfl⟩)
          unfold longest_chain_spec at h0
          rw [h0] at hge
          unfold chain_length at hge
          have hz : (bucket_at ht.buckets (i : Int)).length = 0 := by omega
          exact List.length_eq_zero.1 hz
        · unfold bucket_at
          apply List.getD_eq_default
          rw [h.len]
          simpa using Nat.le_of_not_lt hi
      rw [h.count_eq_sum]
      have : (List.range ht.capacity.toNat).map
          (fun i : Nat => (bucket_at ht.buckets (i : Int)).length) =
          (List.range ht.capacity.toNat).map (fun _ => 0) := by
        apply List.map_congr_left
        intro i _
        rw [hall i]
        rfl
      rw [this]
      simp
    · intro h0
      have he : entries ht = [] := by
        have hc := h.count_eq
        unfold total_entries at hc
        rw [h0] at hc
        have hz : (entries ht).length = 0 := by omega
        exact List.length_eq_zero.1 hz
      rcases foldr_max_attained
          ((List.range ht.capacity.toNat).map (fun i : Nat => chain_length ht i)) with e | e
      · exact e
      · obtain ⟨i, -, e2⟩ := List.mem_map.1 e
        unfold longest_chain_spec
        rw [← e2]
        unfold chain_length
        rw [bucket_at_nil_of_entries_nil ht he i]
        rfl

theorem stats_relations_witness :
    Reachable table_cat_act ∧
      ((run_stats_loop table_cat_act).collisions =
          table_cat_act.count - (run_stats_loop table_cat_act).used_buckets ∧
        (run_stats_loop table_cat_act).used_buckets ≤ table_cat_act.capacity ∧
        ((run_stats_loop table_cat_act).max_chain = 0 ↔ table_cat_act.count = 0)) :=
  ⟨reachable_of_reachable63 _ reachable63_table_cat_act,
    stats_relations table_cat_act (reachable_of_reachable63 _ reachable63_table_cat_act)⟩

/-! ## Where `rehash_table` puts the entries of a chain -/

theorem WF.not_present_insert {t : HashTable} (h : WF t) (k k2 : List Nat) (v : Int)
    (hk : k.length ≤ 63) (hn : ¬ present t k) (hne : k2 ≠ k) (hn2 : ¬ present t k2) :
    ¬ present (insert t k v true).2 k2 := by
  obtain ⟨-, hp⟩ := h.entries_insert_absent k v hn
  rw [List.take_of_length_le hk] at hp
  intro hpres
  unfold present at hpres
  have := (hp.map Node.key).subset hpres
  simp only [List.map_cons, List.mem_cons] at this
  rcases this with e | e2
  · exact hne e
  · exact hn2 e2

theorem migrate_chain_bucket (l : List Node) (t : HashTable) (m : Nat → Bool) (h : WF t)
    (hl : ∀ n ∈ l, n.key.length ≤ 63) (hnd : (l.map Node.key).Nodup)
    (hdis : ∀ n ∈ l, ¬ present t n.key) (j : Nat) :
    List.Sublist (bucket_at (migrate_chain l t m).1.buckets (j : Int))
        (bucket_at t.buckets (j : Int) ++
          l.filter (fun n => decide (hash_function n.key t.capacity = (j : Int)))) ∧
      ((∀ n, m n = true) →
        bucket_at (migrate_chain l t m).1.buckets (j : Int) =
          bucket_at t.buckets (j : Int) ++
            l.filter (fun n => decide (hash_function n.key t.capacity = (j : Int)))) := by
  induction l generalizing t m with
  | nil =>
    refine ⟨?_, fun _ => ?_⟩
    · show List.Sublist (bucket_at t.buckets (j : Int)) _
      simp
    · show bucket_at t.buckets (j : Int) = _
      simp
  | cons a l ih =>
    simp only [List.map_cons, List.nodup_cons] at hnd
    have ha := hl a (List.mem_cons_self _ _)
    have hna := hdis a (List.mem_cons_self _ _)
    have hl2 : ∀ n ∈ l, n.key.length ≤ 63 := fun n hn => hl n (List.mem_cons_of_mem _ hn)
    show List.Sublist
        (bucket_at (migrate_chain l (insert t a.key a.value (m 0)).2
          (fun n => m (n + 1))).1.buckets (j : Int)) _ ∧
      (_ → bucket_at (migrate_chain l (insert t a.key a.value (m 0)).2
          (fun n => m (n + 1))).1.buckets (j : Int) = _)
    cases hm0 : m 0 with
    | false =>
      have hw : insert_walk a.key a.value
          (bucket_at t.buckets (hash_function a.key t.capacity)) = none :=
        (insert_walk_none_iff _ _ _).2 (fun hm => hna (present_of_mem_bucket t _ _ hm))
      rw [insert_of_none_fail t a.key a.value hw]
      obtain ⟨s1, -⟩ := ih t (fun n => m (n + 1)) h hl2 hnd.2
        (fun n hn => hdis n (List.mem_cons_of_mem _ hn))
      refine ⟨s1.trans ?_, ?_⟩
      · apply List.Sublist.append_left
        exact List.Sublist.filter _ (List.sublist_cons_self a l)
      · intro hall
        rw [hall 0] at hm0
        exact absurd hm0 (by decide)
    | true =>
      obtain ⟨-, -, hcap, -, hb, hother⟩ := h.insert_absent a.key a.value ha hna
      have h1 := WF_insert t a.key a.value true h
      have hdis1 : ∀ n ∈ l, ¬ present (insert t a.key a.value true).2 n.key := by
        intro n hn
        apply h.not_present_insert a.key n.key a.value ha hna
        · intro e
          apply hnd.1
          rw [← e]
          exact List.mem_map_of_mem Node.key hn
        · exact hdis n (List.mem_cons_of_mem _ hn)
      obtain ⟨s1, e1⟩ := ih (insert t a.key a.value true).2 (fun n => m (n + 1)) h1 hl2 hnd.2
        hdis1
      rw [hcap] at s1 e1
      have hnode : ({ key := a.key, value := a.value } : Node) = a := rfl
      rw [hnode] at hb
      by_cases hj : hash_function a.key t.capacity = (j : Int)
      · rw [hj] at hb
        rw [hb] at s1 e1
        have ef : (a :: l).filter (fun n => decide (hash_function n.key t.capacity = (j : Int))) =
            a :: l.filter (fun n => decide (hash_function n.key t.capacity = (j : Int))) :=
          List.filter_cons_of_pos (by simpa using hj)
        rw [ef]
        simp only [List.append_assoc, List.singleton_append] at s1 e1
        exact ⟨s1, fun hall => e1 (fun n => hall (n + 1))⟩
      · have hbj := hother j (fun e => hj e.symm)
        rw [hbj] at s1 e1
        have ef : (a :: l).filter (fun n => decide (hash_function n.key t.capacity = (j : Int))) =
            l.filter (fun n => decide (hash_function n.key t.capacity = (j : Int))) :=
          List.filter_cons_of_neg (by simpa using hj)
        rw [ef]
        exact ⟨s1, fun hall => e1 (fun n => hall (n + 1))⟩

theorem flatten_eq_nil_of_getD (L : List (List Node)) (h : ∀ i : Nat, L.getD i [] = []) :
    L.flatten = [] := by
  induction L with
  | nil => rfl
  | cons x L ih =>
    have h0 : x = [] := h 0
    rw [List.flatten_cons, h0, ih (fun i => h (i + 1))]
    rfl

theorem flatten_eq_getD (L : List (List Node)) (i0 : Nat)
    (h : ∀ i : Nat, i ≠ i0 → L.getD i [] = []) : L.flatten = L.getD i0 [] := by
  induction L generalizing i0 with
  | nil => rfl
  | cons x L ih =>
    cases i0 with
    | zero =>
      rw [List.flatten_cons, flatten_eq_nil_of_getD L (fun i => h (i + 1) (by omega))]
      simp
    | succ n =>
      have h0 : x = [] := h 0 (by omega)
      rw [List.flatten_cons, h0, ih n (fun i hi => h (i + 1) (by omega))]
      rfl

theorem mod_double_mod (s c : Nat) : s % (2 * c) % c = s % c :=
  Nat.mod_mod_of_dvd s (Dvd.intro_left 2 rfl)

theorem hash_function_double (k : List Nat) (c : Int) (h0 : 0 < c)
    (h1 : 2 * c ≤ 2147483647) :
    hash_function k c = (((hash_function k (2 * c)).toNat % c.toNat : Nat) : Int) := by
  rw [hash_function_eq k c h0 (by omega), hash_function_eq k (2 * c) (by omega) h1]
  have e : (2 * c).toNat = 2 * c.toNat := by omega
  rw [Int.toNat_ofNat, e, mod_double_mod]

theorem WF63.filter_entries_double {ht : HashTable} (h : WF63 ht)
    (hc : 2 * ht.capacity ≤ 2147483647) (j : Nat) :
    (entries ht).filter (fun n => decide (hash_function n.key (2 * ht.capacity) = (j : Int))) =
      (bucket_at ht.buckets ((j % ht.capacity.toNat : Nat) : Int)).filter
        (fun n => decide (hash_function n.key (2 * ht.capacity) = (j : Int))) := by
  unfold entries
  rw [List.filter_flatten]
  rw [flatten_eq_getD _ (j % ht.capacity.toNat)]
  · rw [getD_map_chain _ _ (by rfl)]
    unfold bucket_at
    rw [Int.toNat_ofNat]
  · intro i hi
    rw [getD_map_chain _ _ (by rfl)]
    apply List.filter_eq_nil_iff.2
    intro n hn hd
    apply hi
    have hp := h.placed i n.key (List.mem_map_of_mem Node.key hn)
    rw [hash_function_double n.key ht.capacity h.wf.cap_pos hc] at hp
    have hd2 : hash_function n.key (2 * ht.capacity) = (j : Int) := by simpa using hd
    rw [hd2, Int.toNat_ofNat] at hp
    exact (Int.ofNat_inj.1 hp).symm

theorem WF63.rehash_table_bucket {ht : HashTable} (h : WF63 ht) (ok : Bool) (m : Nat → Bool)
    (hs : (rehash_table ht ok m).1 = SUCCESS) :
    (rehash_table ht ok m).2.capacity = 2 * ht.capacity ∧ 2 * ht.capacity ≤ 2147483647 ∧
      ∀ j : Nat,
        List.Sublist (bucket_at (rehash_table ht ok m).2.buckets (j : Int))
          ((bucket_at ht.buckets ((j % ht.capacity.toNat : Nat) : Int)).filter
            (fun n => decide (hash_function n.key (2 * ht.capacity) = (j : Int)))) ∧
        ((∀ n, m n = true) →
          bucket_at (rehash_table ht ok m).2.buckets (j : Int) =
            (bucket_at ht.buckets ((j % ht.capacity.toNat : Nat) : Int)).filter
              (fun n => decide (hash_function n.key (2 * ht.capacity) = (j : Int)))) := by
  cases hc : calloc_buckets (wrap_int (ht.capacity * 2)) ok with
  | none =>
    rw [rehash_table_of_fail ht ok m hc] at hs
    cases hs
  | some nb =>
    obtain ⟨-, h0, rfl⟩ := calloc_buckets_some _ _ _ hc
    have hw := wrap_double_pos ht.capacity h.wf.cap_pos h.wf.cap_int h0
    have hpos := h.wf.cap_pos
    have e2 : ht.capacity * 2 = 2 * ht.capacity := mul_comm _ _
    rw [rehash_table_of_ok ht ok m _ hc, h.wf.migrate_buckets_eq, hw.1, e2]
    rw [e2] at hw
    refine ⟨migrate_chain_capacity _ _ _, hw.2, fun j => ?_⟩
    have key := migrate_chain_bucket (entries ht)
      ⟨List.replicate (2 * ht.capacity).toNat [], 2 * ht.capacity, 0⟩ m
      (WF_empty _ (by omega) hw.2)
      (fun n hn => by
        obtain ⟨i, hi⟩ := (mem_entries_iff ht n).1 hn
        exact h.short i n.key (List.mem_map_of_mem Node.key hi))
      h.nodup_entries
      (fun n _ hpres => by
        unfold present entries at hpres
        simp [flatten_replicate_nil] at hpres)
      j
    have hnil : bucket_at (List.replicate (2 * ht.capacity).toNat ([] : List Node)) (j : Int) =
        [] := by
      unfold bucket_at
      exact getD_replicate_nil _ _
    simp only [hnil, List.nil_append] at key
    rw [h.filter_entries_double hw.2 j] at key
    exact key

theorem mod_double_cases (r c i : Nat) (hr : r < 2 * c) (hi : r % c = i) :
    r = i ∨ r = i + c := by
  by_cases h : r < c
  · left
    rw [Nat.mod_eq_of_lt h] at hi
    exact hi
  · right
    have h2 : c ≤ r := Nat.le_of_not_lt h
    rw [Nat.mod_eq_sub_mod h2, Nat.mod_eq_of_lt (by omega)] at hi
    omega

/-- When the bucket array and every re-created entry are allocated, `rehash_table` on a
table of capacity `c` built from keys of at most 63 bytes splits each chain: an entry of old
bucket `i` is in new bucket `i` or in new bucket `i + c`, and every new chain is a sublist
of the old chain it comes from, so the relative order of its entries is kept. -/
theorem rehash_table_splits_all_ok (ht : HashTable) (m : Nat → Bool) (hr : Reachable63 ht)
    (hm : ∀ n, m n = true) (hc : 2 * ht.capacity ≤ 2147483647) :
    (rehash_table ht true m).1 = SUCCESS ∧
      (∀ (i : Nat) (n : Node), n ∈ bucket_at ht.buckets (i : Int) →
        n ∈ bucket_at (rehash_table ht true m).2.buckets (i : Int) ∨
          n ∈ bucket_at (rehash_table ht true m).2.buckets ((i : Int) + ht.capacity)) ∧
      ∀ j : Nat, List.Sublist (bucket_at (rehash_table ht true m).2.buckets (j : Int))
        (bucket_at ht.buckets ((j % ht.capacity.toNat : Nat) : Int)) := by
  have h := WF63_of_reachable ht hr
  have hs := (rehash_table_all_ok ht m hr hm hc).1
  obtain ⟨-, -, hb⟩ := h.rehash_table_bucket true m hs
  have hpos := h.wf.cap_pos
  refine ⟨hs, ?_, fun j => (hb j).1.trans (List.filter_sublist _)⟩
  intro i n hn
  have hbi : bucket_at ht.buckets (i : Int) = ht.buckets.getD i [] := by
    unfold bucket_at; simp
  have hp := h.placed i n.key (List.mem_map_of_mem Node.key (hbi ▸ hn))
  have hrange := hash_function_range n.key (2 * ht.capacity) (by omega) hc
  rw [hash_function_double n.key ht.capacity hpos hc] at hp
  have hmod : (hash_function n.key (2 * ht.capacity)).toNat % ht.capacity.toNat = i :=
    Int.ofNat_inj.1 hp
  have hcast : (((hash_function n.key (2 * ht.capacity)).toNat : Nat) : Int) =
      hash_function n.key (2 * ht.capacity) := Int.toNat_of_nonneg hrange.1
  have hmem : n ∈ bucket_at (rehash_table ht true m).2.buckets
      (((hash_function n.key (2 * ht.capacity)).toNat : Nat) : Int) := by
    rw [(hb _).2 hm, hmod]
    exact List.mem_filter.2 ⟨hn, by simpa using hcast.symm⟩
  rcases mod_double_cases _ ht.capacity.toNat i (by omega) hmod with e | e
  · left
    rw [e] at hmem
    exact hmem
  · right
    rw [e] at hmem
    have e3 : ((i + ht.capacity.toNat : Nat) : Int) = (i : Int) + ht.capacity := by omega
    rw [e3] at hmem
    exact hmem

/-- C31: the first `malloc` of the migration failing, `rehash_table` on the table holding
"cat" and "act" in bucket 2 of 10 returns `SUCCESS` with "cat" moved neither to new bucket 2
nor to new bucket 12 (where "act" is): the entry is in no bucket of the new table. -/
theorem rehash_table_failed_malloc_moves_nowhere :
    table_cat_act.capacity = 10 ∧
      bucket_at table_cat_act.buckets 2 =
        [{ key := key_cat, value := 1 }, { key := key_act, value := 2 }] ∧
      (rehash_table table_cat_act true (fun n => decide (n ≠ 0))).1 = SUCCESS ∧
      (rehash_table table_cat_act true (fun n => decide (n ≠ 0))).2.capacity = 20 ∧
      bucket_at (rehash_table table_cat_act true (fun n => decide (n ≠ 0))).2.buckets 2 = [] ∧
      bucket_at (rehash_table table_cat_act true (fun n => decide (n ≠ 0))).2.buckets 12 =
        [{ key := key_act, value := 2 }] ∧
      entries (rehash_table table_cat_act true (fun n => decide (n ≠ 0))).2 =
        [{ key := key_act, value := 2 }] := by
  refine ⟨by decide, by decide, by decide, by decide, by decide, by decide, by decide⟩

/-! ## Statistics before and after `rehash_table` -/

theorem length_filter_add_le (l : List Node) (p q : Node → Bool)
    (h : ∀ x, ¬ (p x = true ∧ q x = true)) :
    (l.filter p).length + (l.filter q).length ≤ l.length := by
  induction l with
  | nil => simp
  | cons a l ih =>
    simp only [List.filter_cons, List.length_cons]
    have := h a
    cases hp : p a <;> cases hq : q a <;> simp_all <;> omega

theorem sum_map_add_le (l : List Nat) (f g k : Nat → Int)
    (h : ∀ i ∈ l, f i + g i ≤ k i) : (l.map f).sum + (l.map g).sum ≤ (l.map k).sum := by
  induction l with
  | nil => simp
  | cons a l ih =>
    simp only [List.map_cons, List.sum_cons]
    have h1 := h a (List.mem_cons_self _ _)
    have h2 := ih (fun i hi => h i (List.mem_cons_of_mem _ hi))
    omega

theorem max_pred_add_le (a b n : Nat) (h : a + b ≤ n) :
    max ((a : Int) - 1) 0 + max ((b : Int) - 1) 0 ≤ max ((n : Int) - 1) 0 := by
  omega

/-- C32: for every table reachable with keys of at most 63 bytes, whatever the allocations
of the call do, the longest chain and the collisions counted by `run_stats` after
`rehash_table` are at most what they were before; in particular after a `rehash_table` that
returns `SUCCESS`. -/
theorem rehash_table_stats_not_worse (ht : HashTable) (ok : Bool) (m : Nat → Bool)
    (hr : Reachable63 ht) :
    (run_stats_loop (rehash_table ht ok m).2).max_chain ≤ (run_stats_loop ht).max_chain ∧
      (run_stats_loop (rehash_table ht ok m).2).collisions ≤
        (run_stats_loop ht).collisions := by
  have h := WF63_of_reachable ht hr
  cases hcal : calloc_buckets (wrap_int (ht.capacity * 2)) ok with
  | none =>
    rw [rehash_table_of_fail ht ok m hcal]
    exact ⟨le_refl _, le_refl _⟩
  | some nb =>
    have hs : (rehash_table ht ok m).1 = SUCCESS := by
      rw [rehash_table_of_ok ht ok m nb hcal]
    obtain ⟨hcap, hc, hb⟩ := h.rehash_table_bucket ok m hs
    have hpos := h.wf.cap_pos
    have hlen : ∀ j : Nat, chain_length (rehash_table ht ok m).2 j ≤
        (((bucket_at ht.buckets ((j % ht.capacity.toNat : Nat) : Int)).filter
          (fun n => decide (hash_function n.key (2 * ht.capacity) = (j : Int)))).length : Int) := by
      intro j
      unfold chain_length
      exact Int.ofNat_le.2 (hb j).1.length_le
    have hlen2 : ∀ j : Nat, chain_length (rehash_table ht ok m).2 j ≤
        chain_length ht (j % ht.capacity.toNat) := by
      intro j
      refine (hlen j).trans ?_
      unfold chain_length
      exact Int.ofNat_le.2 (List.length_filter_le _ _)
    rw [run_stats_loop_max_chain, run_stats_loop_max_chain, run_stats_loop_collisions,
      run_stats_loop_collisions]
    constructor
    · rcases foldr_max_attained ((List.range (rehash_table ht ok m).2.capacity.toNat).map
          (fun i : Nat => chain_length (rehash_table ht ok m).2 i)) with e | e
      · unfold longest_chain_spec
        rw [e]
        exact foldr_max_nonneg _
      · obtain ⟨j, -, e2⟩ := List.mem_map.1 e
        unfold longest_chain_spec
        rw [← e2]
        refine (hlen2 j).trans ?_
        apply foldr_max_ge
        exact List.mem_map.2 ⟨j % ht.capacity.toNat,
          List.mem_range.2 (Nat.mod_lt _ (by omega)), rfl⟩
    · unfold collisions_spec
      have e2 : (rehash_table ht ok m).2.capacity.toNat =
          ht.capacity.toNat + ht.capacity.toNat := by
        rw [hcap]; omega
      rw [e2, List.range_add, List.map_append, List.sum_append, List.map_map]
      apply sum_map_add_le
      intro i hi
      have hi2 : i < ht.capacity.toNat := List.mem_range.1 hi
      have ha := hlen i
      have hb2 := hlen (ht.capacity.toNat + i)
      rw [Nat.mod_eq_of_lt hi2] at ha
      rw [Nat.add_mod_left, Nat.mod_eq_of_lt hi2] at hb2
      have hdis := length_filter_add_le (bucket_at ht.buckets (i : Int))
        (fun n => decide (hash_function n.key (2 * ht.capacity) = (i : Int)))
        (fun n => decide (hash_function n.key (2 * ht.capacity) =
          ((ht.capacity.toNat + i : Nat) : Int)))
        (by
          intro x hx
          simp only [decide_eq_true_eq] at hx
          have := hx.1.symm.trans hx.2
          omega)
      have hnn : ∀ j : Nat, ∃ a : Nat, chain_length (rehash_table ht ok m).2 j = (a : Int) :=
        fun j => ⟨_, rfl⟩
      obtain ⟨a, ea⟩ := hnn i
      obtain ⟨b, eb⟩ := hnn (ht.capacity.toNat + i)
      show max (chain_length (rehash_table ht ok m).2 i - 1) 0 +
        max (chain_length (rehash_table ht ok m).2 (ht.capacity.toNat + i) - 1) 0 ≤
        max (chain_length ht i - 1) 0
      rw [ea] at ha ⊢
      rw [eb] at hb2 ⊢
      unfold chain_length
      apply max_pred_add_le
      omega

theorem rehash_table_stats_not_worse_witness :
    Reachable63 table_cat_act ∧
      (rehash_table table_cat_act true (fun _ => true)).1 = SUCCESS ∧
      (run_stats_loop table_cat_act).max_chain = 2 ∧
      (run_stats_loop table_cat_act).collisions = 1 ∧
      (run_stats_loop (rehash_table table_cat_act true (fun _ => true)).2).max_chain ≤
        (run_stats_loop table_cat_act).max_chain ∧
      (run_stats_loop (rehash_table table_cat_act true (fun _ => true)).2).collisions ≤
        (run_stats_loop table_cat_act).collisions :=
  ⟨reachable63_table_cat_act, by decide, by decide, by decide,
    rehash_table_stats_not_worse table_cat_act true (fun _ => true) reachable63_table_cat_act⟩

/-! ## Collision lines of `run_insert` and the collisions counter -/

theorem sum_map_single_change (is : List Nat) (f g : Nat → Int) (i0 : Nat)
    (hnd : is.Nodup) (hi : i0 ∈ is) (h : ∀ i, i ≠ i0 → g i = f i) :
    (is.map g).sum = (is.map f).sum + (g i0 - f i0) := by
  induction is with
  | nil => simp at hi
  | cons a is ih =>
    simp only [List.nodup_cons] at hnd
    simp only [List.map_cons, List.sum_cons]
    by_cases e : a = i0
    · subst e
      have : is.map g = is.map f := by
        apply List.map_congr_left
        intro i hi2
        exact h i (fun e2 => hnd.1 (e2 ▸ hi2))
      rw [this]
      omega
    · have hi2 : i0 ∈ is := by
        rcases List.mem_cons.1 hi with e2 | e2
        · exact absurd e2.symm e
        · exact e2
      rw [ih hnd.2 hi2, h a e]
      omega

theorem WF.collisions_insert_absent {t : HashTable} (h : WF t) (k : List Nat) (v : Int)
    (hk : k.length ≤ 63) (hn : ¬ present t k) :
    collisions_spec (insert t k v true).2 =
      collisions_spec t +
        (if bucket_at t.buckets (hash_function k t.capacity) ≠ [] then 1 else 0) := by
  obtain ⟨-, -, hcap, -, hb, hother⟩ := h.insert_absent k v hk hn
  have hr := hash_function_range k t.capacity h.cap_pos h.cap_int
  have hcast : (((hash_function k t.capacity).toNat : Nat) : Int) = hash_function k t.capacity :=
    Int.toNat_of_nonneg hr.1
  unfold collisions_spec
  rw [hcap]
  rw [sum_map_single_change (List.range t.capacity.toNat)
    (fun i : Nat => max (chain_length t i - 1) 0)
    (fun i : Nat => max (chain_length (insert t k v true).2 i - 1) 0)
    (hash_function k t.capacity).toNat (List.nodup_range _)
    (List.mem_range.2 (by omega))
    (fun i hi => by
      show max (chain_length (insert t k v true).2 i - 1) 0 = max (chain_length t i - 1) 0
      unfold chain_length
      rw [hother i (fun e => hi (by omega))])]
  congr 1
  show max (chain_length (insert t k v true).2 (hash_function k t.capacity).toNat - 1) 0 -
    max (chain_length t (hash_function k t.capacity).toNat - 1) 0 = _
  unfold chain_length
  rw [hcast, hb, List.length_append, List.length_singleton]
  cases hl : bucket_at t.buckets (hash_function k t.capacity) with
  | nil => simp
  | cons a l =>
    simp only [List.length_cons, ne_eq, reduceCtorEq, not_false_eq_true, if_true]
    push_cast
    omega

theorem collision_events_run_insert (t : HashTable) (k : List Nat) (v : Int) :
    collision_events (run_insert t k (some v) true).1 =
      (if bucket_at t.buckets (hash_function k t.capacity) ≠ [] then 1 else 0) +
        collision_events (handle_error (insert t k v true).1) := by
  unfold collision_events run_insert
  by_cases hb : bucket_at t.buckets (hash_function k t.capacity) = []
  · simp [hb, List.countP_append, List.countP_cons, is_collision_line]
  · simp [hb, List.countP_append, List.countP_cons, is_collision_line]
    exact Nat.add_comm _ _

theorem run_inserts_collisions (calls : List (List Nat × Option Int × Bool)) (t : HashTable)
    (h : WF t) (hk : ∀ x ∈ calls, x.1.length ≤ 63) (hnd : (calls.map (fun x => x.1)).Nodup)
    (hm : ∀ x ∈ calls, x.2.2 = true) (hdis : ∀ x ∈ calls, ¬ present t x.1) :
    collisions_spec (run_inserts calls t).2 =
      collisions_spec t + ((collision_events (run_inserts calls t).1 : Nat) : Int) := by
  induction calls generalizing t with
  | nil => simp [run_inserts, collision_events]
  | cons x calls ih =>
    obtain ⟨key, value, ok⟩ := x
    simp only [List.map_cons, List.nodup_cons] at hnd
    have hok : ok = true := hm _ (List.mem_cons_self _ _)
    subst hok
    have hlen : key.length ≤ 63 := hk _ (List.mem_cons_self _ _)
    have habs : ¬ present t key := hdis _ (List.mem_cons_self _ _)
    have hk2 : ∀ x ∈ calls, x.1.length ≤ 63 := fun x hx => hk x (List.mem_cons_of_mem _ hx)
    have hm2 : ∀ x ∈ calls, x.2.2 = true := fun x hx => hm x (List.mem_cons_of_mem _ hx)
    show collisions_spec (run_inserts calls (run_insert t key value true).2).2 =
      collisions_spec t +
        ((collision_events ((run_insert t key value true).1 ++
          (run_inserts calls (run_insert t key value true).2).1) : Nat) : Int)
    cases value with
    | none =>
      have e : run_insert t key none true =
          ([Message.prompt_key, Message.prompt_value] ++ handle_error ERR_INVALID_INPUT, t) := rfl
      rw [e]
      rw [ih t h hk2 hnd.2 hm2 (fun x hx => hdis x (List.mem_cons_of_mem _ hx))]
      simp [collision_events, List.countP_append, List.countP_cons, is_collision_line,
        handle_error]
    | some v =>
      have e2 : (run_insert t key (some v) true).2 = (insert t key v true).2 := rfl
      have hdis2 : ∀ x ∈ calls, ¬ present (insert t key v true).2 x.1 := by
        intro x hx
        apply h.not_present_insert key x.1 v hlen habs
        · intro e
          apply hnd.1
          rw [← e]
          exact List.mem_map_of_mem (fun x => x.1) hx
        · exact hdis x (List.mem_cons_of_mem _ hx)
      rw [e2, ih _ (WF_insert t key v true h) hk2 hnd.2 hm2 hdis2,
        h.collisions_insert_absent key v hlen habs]
      have hc : collision_events ((run_insert t key (some v) true).1 ++
          (run_inserts calls (insert t key v true).2).1) =
          collision_events (run_insert t key (some v) true).1 +
            collision_events (run_inserts calls (insert t key v true).2).1 := by
        unfold collision_events
        exact List.countP_append _ _ _
      rw [hc, collision_events_run_insert, (h.insert_absent key v hlen habs).1]
      have h0 : collision_events (handle_error SUCCESS) = 0 := rfl
      rw [h0]
      split <;> push_cast <;> omega

/-- C35, as amended: starting from `init_table(c)`, `c > 0`, for every sequence of
`run_insert` calls with pairwise distinct keys of at most 63 bytes in which the allocation
of every `insert` succeeds, the number of calls that found the target bucket non-empty (the
"Collision detected" lines) equals the collisions counter of `run_stats` on the final
table. -/
theorem collision_events_eq_collisions (c : Int) (h0 : 0 < c) (h1 : c ≤ 2147483647)
    (calls : List (List Nat × Option Int × Bool)) (hk : ∀ x ∈ calls, x.1.length ≤ 63)
    (hnd : (calls.map (fun x => x.1)).Nodup) (hm : ∀ x ∈ calls, x.2.2 = true) :
    ((collision_events (run_inserts calls (init_table c true).2).1 : Nat) : Int) =
      (run_stats_loop (run_inserts calls (init_table c true).2).2).collisions := by
  have e : (init_table c true).2 =
      { buckets := List.replicate c.toNat [], capacity := c, count := 0 } := by
    rw [init_table_ok c (by omega)]
  have h := WF_empty c h0 h1
  rw [← e] at h
  have hdis : ∀ x ∈ calls, ¬ present (init_table c true).2 x.1 := by
    intro x _ hp
    unfold present at hp
    rw [entries_init_table] at hp
    simp at hp
  have hz : collisions_spec (init_table c true).2 = 0 := by
    unfold collisions_spec chain_length
    have hmap : (List.range (init_table c true).2.capacity.toNat).map
        (fun i : Nat =>
          max (((bucket_at (init_table c true).2.buckets (i : Int)).length : Int) - 1) 0) =
        (List.range (init_table c true).2.capacity.toNat).map (fun _ => (0 : Int)) := by
      apply List.map_congr_left
      intro i _
      rw [bucket_at_nil_of_entries_nil _ (entries_init_table c true) i]
      rfl
    rw [hmap]
    simp
  rw [run_stats_loop_collisions, run_inserts_collisions calls _ h hk hnd hm hdis, hz]
  simp

theorem collision_events_eq_collisions_witness :
    collision_events (run_inserts sample_inserts (init_table 10 true).2).1 = 1 ∧
      ((collision_events (run_inserts sample_inserts (init_table 10 true).2).1 : Nat) : Int) =
        (run_stats_loop (run_inserts sample_inserts (init_table 10 true).2).2).collisions :=
  ⟨by decide,
    collision_events_eq_collisions 10 (by decide) (by decide) sample_inserts (by decide)
      (by decide) (by decide)⟩

theorem collision_events_eq_collisions_counterexample :
    (sample_inserts_failing.map (fun x => x.1)).Nodup ∧
      (∀ x ∈ sample_inserts_failing, x.1.length ≤ 63) ∧
      collision_events (run_inserts sample_inserts_failing (init_table 10 true).2).1 = 1 ∧
      (run_stats_loop (run_inserts sample_inserts_failing (init_table 10 true).2).2).collisions
        = 0 ∧
      (run_inserts sample_inserts_failing (init_table 10 true).2).2 = table_cat := by
  refine ⟨by decide, by decide, by decide, by decide, by decide⟩

/-! ## Finite chains in memory -/

theorem mem_is_seg_congr (heap heap2 : Mem.Heap) (cells : List (Nat × Node)) (p q : Nat)
    (h : ∀ a ∈ cells.map Prod.fst, heap2 a = heap a) (hs : Mem.is_seg heap p cells q) :
    Mem.is_seg heap2 p cells q := by
  induction cells generalizing p with
  | nil => exact hs
  | cons c rest ih =>
    obtain ⟨hp, hp0, next, hh, hr⟩ := hs
    refine ⟨hp, hp0, next, ?_, ih next (fun a ha => h a (List.mem_cons_of_mem _ ha)) hr⟩
    rw [h p (by rw [hp]; exact List.mem_cons_self _ _)]
    exact hh

theorem mem_is_seg_append (heap : Mem.Heap) (xs ys : List (Nat × Node)) (p q : Nat) :
    Mem.is_seg heap p (xs ++ ys) q ↔ ∃ r, Mem.is_seg heap p xs r ∧ Mem.is_seg heap r ys q := by
  induction xs generalizing p with
  | nil =>
    constructor
    · intro h
      exact ⟨p, rfl, h⟩
    · rintro ⟨r, hr, h⟩
      have e : p = r := hr
      rw [e]
      exact h
  | cons c rest ih =>
    constructor
    · rintro ⟨hp, hp0, next, hh, hr⟩
      obtain ⟨r, h1, h2⟩ := (ih next).1 hr
      exact ⟨r, ⟨hp, hp0, next, hh, h1⟩, h2⟩
    · rintro ⟨r, ⟨hp, hp0, next, hh, h1⟩, h2⟩
      exact ⟨hp, hp0, next, hh, (ih next).2 ⟨r, h1, h2⟩⟩

theorem mem_is_seg_live (heap : Mem.Heap) (cells : List (Nat × Node)) (p q : Nat)
    (hs : Mem.is_seg heap p cells q) : ∀ a ∈ cells.map Prod.fst, a ≠ 0 ∧ heap a ≠ none := by
  induction cells generalizing p with
  | nil => intro a ha; simp at ha
  | cons c rest ih =>
    obtain ⟨hp, hp0, next, hh, hr⟩ := hs
    intro a ha
    simp only [List.map_cons, List.mem_cons] at ha
    rcases ha with e | e
    · rw [e, ← hp]
      refine ⟨hp0, ?_⟩
      rw [hh]
      simp
    · exact ih next hr a e

theorem mem_is_seg_head (heap : Mem.Heap) (c : Nat × Node) (rest : List (Nat × Node))
    (p q : Nat) (hs : Mem.is_seg heap p (c :: rest) q) : p = c.1 ∧ p ≠ 0 :=
  ⟨hs.1, hs.2.1⟩

theorem mem_is_chain_null (heap : Mem.Heap) (cells : List (Nat × Node))
    (hs : Mem.is_chain heap 0 cells) : cells = [] := by
  cases cells with
  | nil => rfl
  | cons c rest => exact absurd rfl hs.2.1

theorem mem_fresh_ne (heap : Mem.Heap) (a b : Nat) (ha : heap a ≠ none)
    (hb : b = 0 ∨ heap b = none) (h0 : a ≠ 0) : a ≠ b := by
  intro e
  rcases hb with hb | hb
  · exact h0 (e.trans hb)
  · rw [e] at ha
    exact ha hb

/-! ## The loops on a finite chain -/

theorem mem_hash_loop_eq (key : List Nat) (fuel i sum : Nat) (h : key.length - i < fuel) :
    Mem.hash_loop key fuel i sum = some (hash_sum (key.drop i) sum) := by
  induction fuel generalizing i sum with
  | zero => omega
  | succ fuel ih =>
    unfold Mem.hash_loop
    by_cases hi : i < key.length
    · rw [List.get?_eq_get hi]
      simp only
      rw [ih (i + 1) _ (by omega), List.drop_eq_getElem_cons hi]
      rfl
    · rw [List.get?_eq_none.2 (Nat.le_of_not_lt hi), List.drop_of_length_le (Nat.le_of_not_lt hi)]
      rfl

theorem mem_hash_function_eq (key : List Nat) (capacity : Int) (n : Nat)
    (h : key.length < n) :
    Mem.hash_function key capacity n = some (hash_function key capacity) := by
  unfold Mem.hash_function
  rw [mem_hash_loop_eq key n 0 0 (by omega)]
  rfl

theorem mem_search_loop_eq (heap : Mem.Heap) (key : List Nat) (value : Int)
    (cells : List (Nat × Node)) (fuel p : Nat) (hc : Mem.is_chain heap p cells)
    (hf : cells.length < fuel) :
    Mem.search_loop heap key value fuel p =
      some (search_walk key value (cells.map Prod.snd)) := by
  induction cells generalizing fuel p with
  | nil =>
    cases fuel with
    | zero => simp at hf
    | succ fuel =>
      have e : p = 0 := hc
      unfold Mem.search_loop
      rw [if_pos e]
      rfl
  | cons c rest ih =>
    cases fuel with
    | zero => simp at hf
    | succ fuel =>
      obtain ⟨-, hp0, next, hh, hr⟩ := hc
      unfold Mem.search_loop
      rw [if_neg hp0, hh]
      simp only [List.map_cons, search_walk]
      by_cases e : c.2.key = key
      · rw [if_pos e, if_pos e]
      · rw [if_neg e, if_neg e]
        exact ih fuel next hr (by simpa using hf)

theorem mem_chain_len_loop_eq (heap : Mem.Heap) (cells : List (Nat × Node))
    (fuel p : Nat) (len : Int) (hc : Mem.is_chain heap p cells) (hf : cells.length < fuel) :
    Mem.chain_len_loop heap fuel p len = some (chain_len_walk (cells.map Prod.snd) len) := by
  induction cells generalizing fuel p len with
  | nil =>
    cases fuel with
    | zero => simp at hf
    | succ fuel =>
      have e : p = 0 := hc
      unfold Mem.chain_len_loop
      rw [if_pos e]
      rfl
  | cons c rest ih =>
    cases fuel with
    | zero => simp at hf
    | succ fuel =>
      obtain ⟨-, hp0, next, hh, hr⟩ := hc
      unfold Mem.chain_len_loop
      rw [if_neg hp0, hh]
      exact ih fuel next (len + 1) hr (by simpa using hf)

theorem exists_first_key (key : List Nat) (cells : List (Nat × Node))
    (h : key ∈ cells.map (fun c => c.2.key)) :
    ∃ pre c post, cells = pre ++ c :: post ∧ c.2.key = key ∧
      key ∉ pre.map (fun c => c.2.key) := by
  induction cells with
  | nil => simp at h
  | cons x rest ih =>
    by_cases e : x.2.key = key
    · exact ⟨[], x, rest, rfl, e, by simp⟩
    · simp only [List.map_cons, List.mem_cons] at h
      rcases h with h | h
      · exact absurd h.symm e
      · obtain ⟨pre, c, post, h1, h2, h3⟩ := ih h
        refine ⟨x :: pre, c, post, by rw [h1]; rfl, h2, ?_⟩
        simp only [List.map_cons, List.mem_cons, not_or]
        exact ⟨fun e2 => e e2.symm, h3⟩

theorem insert_walk_split (key : List Nat) (v : Int) (pre post : List Node) (x : Node)
    (hpre : key ∉ pre.map Node.key) (hx : x.key = key) :
    insert_walk key v (pre ++ x :: post) = some (pre ++ { x with value := v } :: post) := by
  induction pre with
  | nil => simp [insert_walk, hx]
  | cons a pre ih =>
    simp only [List.map_cons, List.mem_cons, not_or] at hpre
    have e : ¬ a.key = key := fun e => hpre.1 e.symm
    simp [insert_walk, e, ih hpre.2]

theorem delete_walk_split (key : List Nat) (pre post : List Node) (x : Node)
    (hpre : key ∉ pre.map Node.key) (hx : x.key = key) :
    delete_walk key (pre ++ x :: post) = some (pre ++ post) := by
  induction pre with
  | nil => simp [delete_walk, hx]
  | cons a pre ih =>
    simp only [List.map_cons, List.mem_cons, not_or] at hpre
    have e : ¬ a.key = key := fun e => hpre.1 e.symm
    simp [delete_walk, e, ih hpre.2]

theorem mem_find_loop_absent (heap : Mem.Heap) (key : List Nat) (cells : List (Nat × Node))
    (fuel p : Nat) (hc : Mem.is_chain heap p cells) (hf : cells.length < fuel)
    (hk : key ∉ cells.map (fun c => c.2.key)) : Mem.find_loop heap key fuel p = some 0 := by
  induction cells generalizing fuel p with
  | nil =>
    cases fuel with
    | zero => simp at hf
    | succ fuel =>
      have e : p = 0 := hc
      unfold Mem.find_loop
      rw [if_pos e]
  | cons c rest ih =>
    cases fuel with
    | zero => simp at hf
    | succ fuel =>
      obtain ⟨-, hp0, next, hh, hr⟩ := hc
      simp only [List.map_cons, List.mem_cons, not_or] at hk
      unfold Mem.find_loop
      rw [if_neg hp0, hh]
      simp only
      rw [if_neg (fun e => hk.1 e.symm)]
      exact ih fuel next hr (by simpa using hf) hk.2

theorem mem_find_loop_found (heap : Mem.Heap) (key : List Nat) (pre post : List (Nat × Node))
    (c : Nat × Node) (fuel p q : Nat) (hc : Mem.is_seg heap p (pre ++ c :: post) q)
    (hf : pre.length < fuel) (hk : key ∉ pre.map (fun c => c.2.key)) (hx : c.2.key = key) :
    Mem.find_loop heap key fuel p = some c.1 ∧ c.1 ≠ 0 := by
  induction pre generalizing fuel p with
  | nil =>
    cases fuel with
    | zero => simp at hf
    | succ fuel =>
      obtain ⟨hp, hp0, next, hh, -⟩ := hc
      unfold Mem.find_loop
      rw [if_neg hp0, hh]
      simp only
      rw [if_pos hx, hp]
      exact ⟨rfl, hp ▸ hp0⟩
  | cons x pre ih =>
    cases fuel with
    | zero => simp at hf
    | succ fuel =>
      obtain ⟨-, hp0, next, hh, hr⟩ := hc
      simp only [List.map_cons, List.mem_cons, not_or] at hk
      unfold Mem.find_loop
      rw [if_neg hp0, hh]
      simp only
      rw [if_neg (fun e => hk.1 e.symm)]
      exact ih fuel next hr (by simpa using hf) hk.2

theorem mem_tail_loop_eq (heap : Mem.Heap) (pre : List (Nat × Node)) (c : Nat × Node)
    (fuel p : Nat) (hc : Mem.is_chain heap p (pre ++ [c])) (hf : pre.length < fuel) :
    Mem.tail_loop heap fuel p = some c.1 := by
  induction pre generalizing fuel p with
  | nil =>
    cases fuel with
    | zero => simp at hf
    | succ fuel =>
      obtain ⟨hp, -, next, hh, hr⟩ := hc
      have e : next = 0 := hr
      unfold Mem.tail_loop
      rw [hh]
      simp only
      rw [if_pos e, hp]
  | cons x pre ih =>
    cases fuel with
    | zero => simp at hf
    | succ fuel =>
      obtain ⟨-, -, next, hh, hr⟩ := hc
      have hn0 : next ≠ 0 := by
        cases pre with
        | nil => exact hr.2.1
        | cons y pre => exact hr.2.1
      unfold Mem.tail_loop
      rw [hh]
      simp only
      rw [if_neg hn0]
      exact ih fuel next hr (by simpa using hf)

theorem mem_delete_loop_absent (heap : Mem.Heap) (key : List Nat) (cells : List (Nat × Node))
    (fuel prev p : Nat) (hc : Mem.is_chain heap p cells) (hf : cells.length < fuel)
    (hk : key ∉ cells.map (fun c => c.2.key)) :
    ∃ last, Mem.delete_loop heap key fuel prev p = some (last, 0) := by
  induction cells generalizing fuel prev p with
  | nil =>
    cases fuel with
    | zero => simp at hf
    | succ fuel =>
      have e : p = 0 := hc
      unfold Mem.delete_loop
      rw [if_pos e]
      exact ⟨prev, rfl⟩
  | cons c rest ih =>
    cases fuel with
    | zero => simp at hf
    | succ fuel =>
      obtain ⟨-, hp0, next, hh, hr⟩ := hc
      simp only [List.map_cons, List.mem_cons, not_or] at hk
      unfold Mem.delete_loop
      rw [if_neg hp0, hh]
      simp only
      rw [if_neg (fun e => hk.1 e.symm)]
      exact ih fuel p next hr (by simpa using hf) hk.2

theorem mem_delete_loop_found (heap : Mem.Heap) (key : List Nat)
    (pre post : List (Nat × Node)) (c : Nat × Node) (fuel prev p q : Nat)
    (hc : Mem.is_seg heap p (pre ++ c :: post) q) (hf : pre.length < fuel)
    (hk : key ∉ pre.map (fun c => c.2.key)) (hx : c.2.key = key) :
    Mem.delete_loop heap key fuel prev p =
      some ((pre.map Prod.fst).getLastD prev, c.1) := by
  induction pre generalizing fuel prev p with
  | nil =>
    cases fuel with
    | zero => simp at hf
    | succ fuel =>
      obtain ⟨hp, hp0, next, hh, -⟩ := hc
      unfold Mem.delete_loop
      rw [if_neg hp0, hh]
      simp only
      rw [if_pos hx, hp]
      rfl
  | cons x pre ih =>
    cases fuel with
    | zero => simp at hf
    | succ fuel =>
      obtain ⟨hp, hp0, next, hh, hr⟩ := hc
      simp only [List.map_cons, List.mem_cons, not_or] at hk
      unfold Mem.delete_loop
      rw [if_neg hp0, hh]
      simp only
      rw [if_neg (fun e => hk.1 e.symm), ih fuel p next hr (by simpa using hf) hk.2, hp,
        List.map_cons, List.getLastD_cons]

/-! ## The chains of a table in memory -/

theorem layout_getD_set (L : List (List (Nat × Node))) (i j : Nat) (X : List (Nat × Node))
    (h : i < L.length) : (L.set i X).getD j [] = if j = i then X else L.getD j [] := by
  by_cases hj : j < L.length
  · rw [List.getD_eq_getElem _ _ (by simpa using hj), List.getD_eq_getElem _ _ hj,
      List.getElem_set]
    by_cases e : i = j
    · subst e; simp
    · have e2 : ¬ j = i := fun h => e h.symm
      simp [e, e2]
  · have h1 : (L.set i X).getD j [] = [] := by
      apply List.getD_eq_default; simpa using Nat.le_of_not_lt hj
    have h2 : L.getD j [] = [] := List.getD_eq_default _ _ (Nat.le_of_not_lt hj)
    rw [h1, h2, if_neg (by omega)]

theorem heads_getD_set (b : List Nat) (i j x : Nat) (h : i < b.length) :
    (b.set i x).getD j 0 = if j = i then x else b.getD j 0 := by
  by_cases hj : j < b.length
  · rw [List.getD_eq_getElem _ _ (by simpa using hj), List.getD_eq_getElem _ _ hj,
      List.getElem_set]
    by_cases e : i = j
    · subst e; simp
    · have e2 : ¬ j = i := fun h => e h.symm
      simp [e, e2]
  · have h1 : (b.set i x).getD j 0 = 0 := by
      apply List.getD_eq_default; simpa using Nat.le_of_not_lt hj
    have h2 : b.getD j 0 = 0 := List.getD_eq_default _ _ (Nat.le_of_not_lt hj)
    rw [h1, h2, if_neg (by omega)]

theorem layout_flatten_split (L : List (List (Nat × Node))) (i : Nat) (h : i < L.length) :
    L.flatten = (L.take i).flatten ++ (L.getD i [] ++ (L.drop (i + 1)).flatten) := by
  have e : L = L.take i ++ L.getD i [] :: L.drop (i + 1) := by
    rw [List.getD_eq_getElem _ _ h]
    simp
  conv_lhs => rw [e]
  simp

theorem layout_flatten_set (L : List (List (Nat × Node))) (i : Nat) (X : List (Nat × Node))
    (h : i < L.length) :
    (L.set i X).flatten = (L.take i).flatten ++ (X ++ (L.drop (i + 1)).flatten) := by
  rw [List.set_eq_take_append_cons_drop, if_pos h]
  simp

theorem layout_mem_addr (L : List (List (Nat × Node))) (i a : Nat)
    (ha : a ∈ (L.getD i []).map Prod.fst) : a ∈ L.flatten.map Prod.fst := by
  by_cases h : i < L.length
  · rw [layout_flatten_split L i h]
    simp only [List.map_append, List.mem_append]
    exact Or.inr (Or.inl ha)
  · rw [List.getD_eq_default _ _ (Nat.le_of_not_lt h)] at ha
    simp at ha

theorem layout_nodup_chain (L : List (List (Nat × Node)))
    (hnd : (L.flatten.map Prod.fst).Nodup) (i : Nat) :
    ((L.getD i []).map Prod.fst).Nodup := by
  by_cases h : i < L.length
  · rw [layout_flatten_split L i h] at hnd
    simp only [List.map_append] at hnd
    exact (List.nodup_append.1 (List.nodup_append.1 hnd).2.1).1
  · rw [List.getD_eq_default _ _ (Nat.le_of_not_lt h)]
    exact List.nodup_nil

theorem layout_disjoint (L : List (List (Nat × Node)))
    (hnd : (L.flatten.map Prod.fst).Nodup) (i j a : Nat) (hij : i ≠ j)
    (hi : a ∈ (L.getD i []).map Prod.fst) : a ∉ (L.getD j []).map Prod.fst := by
  induction L generalizing i j with
  | nil => simp at hi
  | cons X L ih =>
    simp only [List.flatten_cons, List.map_append] at hnd
    obtain ⟨-, h2, h3⟩ := List.nodup_append.1 hnd
    cases i with
    | zero =>
      cases j with
      | zero => exact absurd rfl hij
      | succ j =>
        intro hj
        exact h3 hi (layout_mem_addr L j a hj)
    | succ i =>
      cases j with
      | zero =>
        intro hj
        exact h3 hj (layout_mem_addr L i a hi)
      | succ j => exact ih h2 i j (fun e => hij (by rw [e])) hi

theorem layout_nodup_set_sublist (L : List (List (Nat × Node))) (i : Nat)
    (X : List (Nat × Node)) (h : i < L.length) (hnd : (L.flatten.map Prod.fst).Nodup)
    (hs : (X.map Prod.fst).Sublist ((L.getD i []).map Prod.fst)) :
    ((L.set i X).flatten.map Prod.fst).Nodup := by
  rw [layout_flatten_split L i h] at hnd
  rw [layout_flatten_set L i X h]
  simp only [List.map_append] at hnd ⊢
  exact hnd.sublist
    ((List.Sublist.refl _).append (hs.append (List.Sublist.refl _)))

theorem layout_nodup_set_append (L : List (List (Nat × Node))) (i : Nat) (c : Nat × Node)
    (h : i < L.length) (hnd : (L.flatten.map Prod.fst).Nodup)
    (hc : c.1 ∉ L.flatten.map Prod.fst) :
    ((L.set i (L.getD i [] ++ [c])).flatten.map Prod.fst).Nodup := by
  rw [layout_flatten_split L i h] at hnd hc
  rw [layout_flatten_set L i _ h]
  simp only [List.map_append, List.map_cons, List.map_nil] at hnd hc ⊢
  have hp : (List.map Prod.fst (L.take i).flatten ++
      (List.map Prod.fst (L.getD i []) ++ [c.1] ++
        List.map Prod.fst (L.drop (i + 1)).flatten)).Perm
      (c.1 :: (List.map Prod.fst (L.take i).flatten ++
        (List.map Prod.fst (L.getD i []) ++
          List.map Prod.fst (L.drop (i + 1)).flatten))) := by
    have e1 : List.map Prod.fst (L.take i).flatten ++
        (List.map Prod.fst (L.getD i []) ++ [c.1] ++
          List.map Prod.fst (L.drop (i + 1)).flatten) =
        (List.map Prod.fst (L.take i).flatten ++ List.map Prod.fst (L.getD i [])) ++
          c.1 :: List.map Prod.fst (L.drop (i + 1)).flatten := by simp
    have e2 : List.map Prod.fst (L.take i).flatten ++
        (List.map Prod.fst (L.getD i []) ++ List.map Prod.fst (L.drop (i + 1)).flatten) =
        (List.map Prod.fst (L.take i).flatten ++ List.map Prod.fst (L.getD i [])) ++
          List.map Prod.fst (L.drop (i + 1)).flatten := by simp
    rw [e1, e2]
    exact List.perm_middle
  exact hp.nodup_iff.2 (List.nodup_cons.2 ⟨hc, hnd⟩)

theorem layout_mem_set (L : List (List (Nat × Node))) (i : Nat) (X : List (Nat × Node))
    (h : i < L.length) (c : Nat × Node) (hc : c ∈ (L.set i X).flatten) :
    c ∈ X ∨ c ∈ L.flatten := by
  rw [layout_flatten_set L i X h] at hc
  rw [layout_flatten_split L i h]
  simp only [List.mem_append] at hc ⊢
  rcases hc with hc | hc | hc
  · exact Or.inr (Or.inl hc)
  · exact Or.inl hc
  · exact Or.inr (Or.inr (Or.inr hc))

theorem layout_getD_map (L : List (List (Nat × Node))) (i : Nat) :
    (L.map (fun cells => cells.map Prod.snd)).getD i [] = (L.getD i []).map Prod.snd := by
  by_cases hi : i < L.length
  · rw [List.getD_eq_getElem _ _ (by simpa using hi), List.getD_eq_getElem _ _ hi]
    simp
  · rw [List.getD_eq_default _ _ (by simpa using Nat.le_of_not_lt hi),
      List.getD_eq_default _ _ (Nat.le_of_not_lt hi)]
    rfl

theorem entries_table_of (ht : Mem.HashTable) (L : List (List (Nat × Node))) :
    entries (Mem.table_of ht L) = L.flatten.map Prod.snd := by
  unfold entries Mem.table_of
  rw [List.map_flatten]

theorem mem_valid_congr (ht : Mem.HashTable) (L : List (List (Nat × Node)))
    (heap2 : Mem.Heap) (hv : Mem.Valid ht L)
    (h : ∀ a ∈ L.flatten.map Prod.fst, heap2 a = ht.heap a) :
    Mem.Valid { ht with heap := heap2 } L :=
  { cap_pos := hv.cap_pos
    cap_int := hv.cap_int
    len := hv.len
    len_layout := hv.len_layout
    chains := fun i hi =>
      mem_is_seg_congr ht.heap heap2 _ _ _
        (fun a ha => h a (layout_mem_addr L i a ha)) (hv.chains i hi)
    separate := hv.separate
    short := hv.short }

/-! ## Unfolding `insert` and `delete_key` in memory -/

theorem mem_insert_of_found (ht : Mem.HashTable) (key : List Nat) (value : Int)
    (new_node n : Nat) (idx : Int) (current : Nat)
    (h1 : Mem.hash_function key ht.capacity n = some idx)
    (h2 : Mem.find_loop ht.heap key n (Mem.bucket_at ht.buckets idx) = some current)
    (h3 : current ≠ 0) :
    Mem.insert ht key value new_node n =
      some (SUCCESS,
        { ht with
          heap := Mem.store ht.heap current (fun node => { node with value := value }) }) := by
  unfold Mem.insert
  simp only [h1, h2]
  rw [if_pos h3]

theorem mem_insert_of_null (ht : Mem.HashTable) (key : List Nat) (value : Int)
    (n : Nat) (idx : Int) (h1 : Mem.hash_function key ht.capacity n = some idx)
    (h2 : Mem.find_loop ht.heap key n (Mem.bucket_at ht.buckets idx) = some 0) :
    Mem.insert ht key value 0 n = some (ERR_MEMORY_ALLOCATION, ht) := by
  unfold Mem.insert
  simp only [h1, h2]
  simp

theorem mem_insert_of_head (ht : Mem.HashTable) (key : List Nat) (value : Int)
    (new_node n : Nat) (idx : Int) (h1 : Mem.hash_function key ht.capacity n = some idx)
    (h2 : Mem.find_loop ht.heap key n (Mem.bucket_at ht.buckets idx) = some 0)
    (h3 : new_node ≠ 0) (h4 : Mem.bucket_at ht.buckets idx = 0) :
    Mem.insert ht key value new_node n =
      some (SUCCESS,
        { ht with
          heap := Function.update ht.heap new_node
            (some { key := key.take 63, value := value, next := 0 })
          buckets := ht.buckets.set idx.toNat new_node
          count := ht.count + 1 }) := by
  unfold Mem.insert
  simp only [h1, h2]
  simp [h3, h4, MAX_KEY_LEN]

theorem mem_insert_of_tail (ht : Mem.HashTable) (key : List Nat) (value : Int)
    (new_node n : Nat) (idx : Int) (tail : Nat)
    (h1 : Mem.hash_function key ht.capacity n = some idx)
    (h2 : Mem.find_loop ht.heap key n (Mem.bucket_at ht.buckets idx) = some 0)
    (h3 : new_node ≠ 0) (h4 : Mem.bucket_at ht.buckets idx ≠ 0)
    (h5 : Mem.tail_loop (Function.update ht.heap new_node
        (some { key := key.take 63, value := value, next := 0 })) n
        (Mem.bucket_at ht.buckets idx) = some tail) :
    Mem.insert ht key value new_node n =
      some (SUCCESS,
        { ht with
          heap := Mem.store (Function.update ht.heap new_node
            (some { key := key.take 63, value := value, next := 0 })) tail
            (fun node => { node with next := new_node })
          count := ht.count + 1 }) := by
  unfold Mem.insert
  simp only [h1, h2]
  have e : MAX_KEY_LEN - 1 = 63 := rfl
  simp only [e] at h5 ⊢
  simp [h3, h4, h5]

theorem mem_delete_key_of_null (ht : Mem.HashTable) (key : List Nat) (n : Nat) (idx : Int)
    (last : Nat) (h1 : Mem.hash_function key ht.capacity n = some idx)
    (h2 : Mem.delete_loop ht.heap key n 0 (Mem.bucket_at ht.buckets idx) = some (last, 0)) :
    Mem.delete_key ht key n = some (ERR_KEY_NOT_FOUND, ht) := by
  unfold Mem.delete_key
  simp only [h1, h2]
  simp

theorem mem_delete_key_of_head (ht : Mem.HashTable) (key : List Nat) (n : Nat) (idx : Int)
    (current : Nat) (node : Mem.Node)
    (h1 : Mem.hash_function key ht.capacity n = some idx)
    (h2 : Mem.delete_loop ht.heap key n 0 (Mem.bucket_at ht.buckets idx) = some (0, current))
    (h3 : current ≠ 0) (h4 : ht.heap current = some node) :
    Mem.delete_key ht key n =
      some (SUCCESS,
        { ht with
          heap := Function.update ht.heap current none
          buckets := ht.buckets.set idx.toNat node.next
          count := ht.count - 1 }) := by
  unfold Mem.delete_key
  simp only [h1, h2]
  simp [h3, h4]

theorem mem_delete_key_of_prev (ht : Mem.HashTable) (key : List Nat) (n : Nat) (idx : Int)
    (prev current : Nat) (node : Mem.Node)
    (h1 : Mem.hash_function key ht.capacity n = some idx)
    (h2 : Mem.delete_loop ht.heap key n 0 (Mem.bucket_at ht.buckets idx) =
      some (prev, current))
    (h3 : current ≠ 0) (h4 : ht.heap current = some node) (h5 : prev ≠ 0) :
    Mem.delete_key ht key n =
      some (SUCCESS,
        { ht with
          heap := Function.update
            (Mem.store ht.heap prev (fun p => { p with next := node.next })) current none
          count := ht.count - 1 }) := by
  unfold Mem.delete_key
  simp only [h1, h2]
  simp [h3, h4, h5]

theorem keys_map_snd (cells : List (Nat × Node)) :
    (cells.map Prod.snd).map Node.key = cells.map (fun c => c.2.key) := by
  induction cells with
  | nil => rfl
  | cons c rest ih => simp [ih]

theorem mem_valid_live (ht : Mem.HashTable) (L : List (List (Nat × Node)))
    (hv : Mem.Valid ht L) (a : Nat) (ha : a ∈ L.flatten.map Prod.fst) :
    a ≠ 0 ∧ ht.heap a ≠ none := by
  obtain ⟨c, hc, rfl⟩ := List.mem_map.1 ha
  obtain ⟨cells, hcells, hmem⟩ := List.mem_flatten.1 hc
  obtain ⟨i, hi, e⟩ := List.getElem_of_mem hcells
  have hi2 : i < ht.buckets.length := by rw [← hv.len_layout]; exact hi
  have hch := hv.chains i hi2
  rw [List.getD_eq_getElem _ _ hi, e] at hch
  exact mem_is_seg_live ht.heap cells _ _ hch c.1 (List.mem_map_of_mem Prod.fst hmem)

theorem mem_valid_idx (ht : Mem.HashTable) (L : List (List (Nat × Node)))
    (hv : Mem.Valid ht L) (key : List Nat) :
    (hash_function key ht.capacity).toNat < L.length ∧
      (L.getD (hash_function key ht.capacity).toNat []).length ≤ L.flatten.length ∧
      bucket_at (Mem.table_of ht L).buckets (hash_function key ht.capacity) =
        (L.getD (hash_function key ht.capacity).toNat []).map Prod.snd := by
  have h1 : (hash_function key ht.capacity).toNat < L.length := by
    rw [hv.len_layout, hv.len]
    exact hash_function_toNat_lt key _ hv.cap_pos hv.cap_int
  refine ⟨h1, ?_, ?_⟩
  · have := congrArg List.length (layout_flatten_split L _ h1)
    simp only [List.length_append] at this
    omega
  · unfold bucket_at Mem.table_of
    exact layout_getD_map L _

theorem table_of_set (ht ht1 : Mem.HashTable) (L : List (List (Nat × Node))) (idx : Int)
    (X : List (Nat × Node)) (hc : ht1.capacity = ht.capacity) :
    Mem.table_of ht1 (L.set idx.toNat X) =
      { buckets := set_bucket (Mem.table_of ht L).buckets idx (X.map Prod.snd)
        capacity := ht.capacity
        count := ht1.count } := by
  unfold Mem.table_of set_bucket
  rw [List.map_set, hc]

/-! ## `insert` in memory against `insert` on lists -/

theorem mem_insert_overwrite (ht : Mem.HashTable) (L : List (List (Nat × Node)))
    (key : List Nat) (value : Int) (new_node n : Nat) (ok : Bool) (hv : Mem.Valid ht L)
    (hk : key.length < n) (hl : L.flatten.length < n)
    (hmem : key ∈ (L.getD (hash_function key ht.capacity).toNat []).map (fun c => c.2.key)) :
    ∃ ht1 L1,
      Mem.insert ht key value new_node n =
        some ((insert (Mem.table_of ht L) key value ok).1, ht1) ∧
      Mem.Valid ht1 L1 ∧
      Mem.table_of ht1 L1 = (insert (Mem.table_of ht L) key value ok).2 ∧
      (∀ a, a ∉ L.flatten.map Prod.fst → ht1.heap a = ht.heap a) ∧
      (∀ a ∈ L1.flatten.map Prod.fst, a ∈ L.flatten.map Prod.fst) := by
  obtain ⟨hi, hlen, hb⟩ := mem_valid_idx ht L hv key
  have hhash := mem_hash_function_eq key ht.capacity n hk
  have hi2 : (hash_function key ht.capacity).toNat < ht.buckets.length := by
    rw [← hv.len_layout]; exact hi
  have hch := hv.chains _ hi2
  have hnd := layout_nodup_chain L hv.separate (hash_function key ht.capacity).toNat
  obtain ⟨idx, hidx⟩ : ∃ idx, hash_function key ht.capacity = idx := ⟨_, rfl⟩
  rw [hidx] at hi hlen hb hhash hi2 hch hnd hmem
  obtain ⟨pre, c, post, hsplit, hx, hpre⟩ := exists_first_key key _ hmem
  rw [hsplit] at hch hnd hlen hb
  have hplen : pre.length < n := by
    simp only [List.length_append, List.length_cons] at hlen
    omega
  obtain ⟨hfind, hc0⟩ := mem_find_loop_found ht.heap key pre post c n _ 0 hch hplen hpre hx
  obtain ⟨r, hseg1, hr, -, next, hh, hseg2⟩ :=
    (mem_is_seg_append ht.heap pre (c :: post) _ 0).1 hch
  subst hr
  simp only [List.map_append, List.map_cons] at hnd
  obtain ⟨-, hnd2, hdisj⟩ := List.nodup_append.1 hnd
  have hcpre : c.1 ∉ pre.map Prod.fst := fun h => hdisj h (List.mem_cons_self _ _)
  have hcpost : c.1 ∉ post.map Prod.fst := (List.nodup_cons.1 hnd2).1
  have hppost : ∀ a ∈ pre.map Prod.fst, a ≠ c.1 := fun a ha e => hcpre (e ▸ ha)
  have hstore : Mem.store ht.heap c.1 (fun node => { node with value := value }) =
      Function.update ht.heap c.1 (some { key := c.2.key, value := value, next := next }) := by
    unfold Mem.store
    rw [hh]
  have hcL : c.1 ∈ L.flatten.map Prod.fst := by
    apply layout_mem_addr L idx.toNat
    rw [hsplit]
    simp
  have hins : insert (Mem.table_of ht L) key value ok =
      (SUCCESS, ⟨set_bucket (Mem.table_of ht L).buckets idx
        (pre.map Prod.snd ++ ⟨c.2.key, value⟩ :: post.map Prod.snd),
        ht.capacity, ht.count⟩) := by
    have hw : insert_walk key value (bucket_at (Mem.table_of ht L).buckets idx) =
        some (pre.map Prod.snd ++ ⟨c.2.key, value⟩ :: post.map Prod.snd) := by
      rw [hb]
      simp only [List.map_append, List.map_cons]
      exact insert_walk_split key value (pre.map Prod.snd) (post.map Prod.snd) c.2
        (by rw [keys_map_snd]; exact hpre) hx
    subst hidx
    exact insert_of_some (Mem.table_of ht L) key value ok _ hw
  rw [hins]
  refine ⟨⟨Function.update ht.heap c.1 (some ⟨c.2.key, value, next⟩), ht.buckets, ht.capacity,
      ht.count⟩,
    L.set idx.toNat (pre ++ (c.1, ⟨c.2.key, value⟩) :: post), ?_, ?_, ?_, ?_, ?_⟩
  · rw [mem_insert_of_found ht key value new_node n idx c.1 hhash hfind hc0, hstore]
  · refine ⟨hv.cap_pos, hv.cap_int, hv.len, ?_, ?_, ?_, ?_⟩
    · rw [List.length_set]; exact hv.len_layout
    · intro j hj
      show Mem.is_chain (Function.update ht.heap c.1 _) (ht.buckets.getD j 0) _
      rw [layout_getD_set L idx.toNat j _ hi]
      by_cases e : j = idx.toNat
      · rw [if_pos e, e]
        refine (mem_is_seg_append _ pre _ _ 0).2 ⟨c.1, ?_, rfl, hc0, next, ?_, ?_⟩
        · exact mem_is_seg_congr ht.heap _ pre _ _
            (fun a ha => Function.update_noteq (hppost a ha) _ _) hseg1
        · exact Function.update_same _ _ _
        · exact mem_is_seg_congr ht.heap _ post _ _
            (fun a ha => Function.update_noteq
              (fun e2 => hcpost (by rw [← e2]; exact ha)) _ _) hseg2
      · rw [if_neg e]
        refine mem_is_seg_congr ht.heap _ _ _ _ (fun a ha => ?_) (hv.chains j hj)
        apply Function.update_noteq
        intro e2
        refine layout_disjoint L hv.separate j idx.toNat a e ha ?_
        rw [hsplit, e2]
        simp
    · apply layout_nodup_set_sublist L idx.toNat _ hi hv.separate
      rw [hsplit]
      simp
    · intro x hxm
      rcases layout_mem_set L idx.toNat _ hi x hxm with h1 | h1
      · have hsub : ∀ y ∈ L.getD idx.toNat [], y.2.key.length ≤ 63 := by
          intro y hy
          apply hv.short
          rw [layout_flatten_split L idx.toNat hi]
          simp only [List.mem_append]
          exact Or.inr (Or.inl hy)
        rw [hsplit] at hsub
        simp only [List.mem_append, List.mem_cons] at h1
        rcases h1 with h1 | h1 | h1
        · exact hsub x (by simp [h1])
        · rw [h1]
          exact hsub c (by simp)
        · exact hsub x (by simp [h1])
      · exact hv.short x h1
  · rw [table_of_set ht
      ⟨Function.update ht.heap c.1 (some ⟨c.2.key, value, next⟩), ht.buckets, ht.capacity,
        ht.count⟩ L idx _ rfl]
    simp
  · intro a ha
    exact Function.update_noteq (fun e => ha (by rw [e]; exact hcL)) _ _
  · intro a ha
    obtain ⟨x, hxm, rfl⟩ := List.mem_map.1 ha
    rcases layout_mem_set L idx.toNat _ hi x hxm with h1 | h1
    · apply layout_mem_addr L idx.toNat
      rw [hsplit]
      simp only [List.mem_append, List.mem_cons] at h1
      rcases h1 with h1 | h1 | h1
      · exact List.mem_map_of_mem Prod.fst (by simp [h1])
      · rw [h1]
        simp
      · exact List.mem_map_of_mem Prod.fst (by simp [h1])
    · exact List.mem_map_of_mem Prod.fst h1

theorem mem_insert_absent (ht : Mem.HashTable) (L : List (List (Nat × Node)))
    (key : List Nat) (value : Int) (new_node n : Nat) (hv : Mem.Valid ht L)
    (hnew : new_node = 0 ∨ ht.heap new_node = none)
    (hk : key.length < n) (hl : L.flatten.length < n)
    (habs : key ∉ (L.getD (hash_function key ht.capacity).toNat []).map (fun c => c.2.key)) :
    ∃ ht1 L1,
      Mem.insert ht key value new_node n =
        some ((insert (Mem.table_of ht L) key value (decide (new_node ≠ 0))).1, ht1) ∧
      Mem.Valid ht1 L1 ∧
      Mem.table_of ht1 L1 =
        (insert (Mem.table_of ht L) key value (decide (new_node ≠ 0))).2 ∧
      (∀ a, a ∉ L.flatten.map Prod.fst → a ≠ new_node → ht1.heap a = ht.heap a) ∧
      (∀ a ∈ L1.flatten.map Prod.fst,
        a ∈ L.flatten.map Prod.fst ∨ (a = new_node ∧ new_node ≠ 0)) := by
  obtain ⟨hi, hlen, hb⟩ := mem_valid_idx ht L hv key
  have hhash := mem_hash_function_eq key ht.capacity n hk
  have hi2 : (hash_function key ht.capacity).toNat < ht.buckets.length := by
    rw [← hv.len_layout]; exact hi
  have hch := hv.chains _ hi2
  have hnd := layout_nodup_chain L hv.separate (hash_function key ht.capacity).toNat
  obtain ⟨idx, hidx⟩ : ∃ idx, hash_function key ht.capacity = idx := ⟨_, rfl⟩
  rw [hidx] at hi hlen hb hhash hi2 hch hnd habs
  have hw : insert_walk key value (bucket_at (Mem.table_of ht L).buckets idx) = none := by
    rw [hb]
    apply (insert_walk_none_iff key value _).2
    rw [keys_map_snd]
    exact habs
  have hfind := mem_find_loop_absent ht.heap key _ n _ hch (by omega) habs
  by_cases h0 : new_node = 0
  · subst h0
    refine ⟨ht, L, ?_, hv, ?_, fun _ _ _ => rfl, fun a ha => Or.inl ha⟩
    · rw [mem_insert_of_null ht key value n idx hhash hfind]
      subst hidx
      rw [show decide ((0 : Nat) ≠ 0) = false by decide,
        insert_of_none_fail (Mem.table_of ht L) key value hw]
    · subst hidx
      rw [show decide ((0 : Nat) ≠ 0) = false by decide,
        insert_of_none_fail (Mem.table_of ht L) key value hw]
  · have hfresh : ht.heap new_node = none := by
      rcases hnew with h | h
      · exact absurd h h0
      · exact h
    have hdec : decide (new_node ≠ 0) = true := by simp [h0]
    have hins : insert (Mem.table_of ht L) key value (decide (new_node ≠ 0)) =
        (SUCCESS, ⟨set_bucket (Mem.table_of ht L).buckets idx
          ((L.getD idx.toNat []).map Prod.snd ++ [⟨key.take 63, value⟩]),
          ht.capacity, ht.count + 1⟩) := by
      rw [hdec, ← hb]
      subst hidx
      exact insert_of_none_ok (Mem.table_of ht L) key value hw
    rw [hins]
    have hlive : ∀ a ∈ L.flatten.map Prod.fst, a ≠ new_node := by
      intro a ha e
      exact (mem_valid_live ht L hv a ha).2 (by rw [e]; exact hfresh)
    have hsep : ((L.set idx.toNat
        (L.getD idx.toNat [] ++ [(new_node, ⟨key.take 63, value⟩)])).flatten.map
          Prod.fst).Nodup :=
      layout_nodup_set_append L idx.toNat _ hi hv.separate (fun h => hlive _ h rfl)
    have hshort : ∀ x ∈ (L.set idx.toNat
        (L.getD idx.toNat [] ++ [(new_node, ⟨key.take 63, value⟩)])).flatten,
        x.2.key.length ≤ 63 := by
      intro x hxm
      rcases layout_mem_set L idx.toNat _ hi x hxm with h1 | h1
      · simp only [List.mem_append, List.mem_singleton] at h1
        rcases h1 with h1 | h1
        · apply hv.short
          rw [layout_flatten_split L idx.toNat hi]
          simp only [List.mem_append]
          exact Or.inr (Or.inl h1)
        · rw [h1]
          exact List.length_take_le _ _
      · exact hv.short x h1
    have haddr : ∀ a ∈ (L.set idx.toNat
        (L.getD idx.toNat [] ++ [(new_node, ⟨key.take 63, value⟩)])).flatten.map Prod.fst,
        a ∈ L.flatten.map Prod.fst ∨ (a = new_node ∧ new_node ≠ 0) := by
      intro a ha
      obtain ⟨x, hxm, rfl⟩ := List.mem_map.1 ha
      rcases layout_mem_set L idx.toNat _ hi x hxm with h1 | h1
      · simp only [List.mem_append, List.mem_singleton] at h1
        rcases h1 with h1 | h1
        · exact Or.inl (layout_mem_addr L idx.toNat _ (List.mem_map_of_mem Prod.fst h1))
        · rw [h1]
          exact Or.inr ⟨rfl, h0⟩
      · exact Or.inl (List.mem_map_of_mem Prod.fst h1)
    by_cases hhead : ht.buckets.getD idx.toNat 0 = 0
    · rw [hhead] at hch
      have hnil := mem_is_chain_null ht.heap _ hch
      refine ⟨⟨Function.update ht.heap new_node (some ⟨key.take 63, value, 0⟩),
        ht.buckets.set idx.toNat new_node, ht.capacity, ht.count + 1⟩,
        L.set idx.toNat (L.getD idx.toNat [] ++ [(new_node, ⟨key.take 63, value⟩)]),
        ?_, ?_, ?_, ?_, haddr⟩
      · rw [mem_insert_of_head ht key value new_node n idx hhash hfind h0 hhead]
      · refine ⟨hv.cap_pos, ?_, ?_, ?_, ?_, hsep, hshort⟩
        · exact hv.cap_int
        · show (ht.buckets.set idx.toNat new_node).length = _
          rw [List.length_set]; exact hv.len
        · show _ = (ht.buckets.set idx.toNat new_node).length
          rw [List.length_set, List.length_set]; exact hv.len_layout
        · intro j hj
          have hj2 : j < ht.buckets.length := by
            have : j < (ht.buckets.set idx.toNat new_node).length := hj
            rwa [List.length_set] at this
          show Mem.is_chain (Function.update ht.heap new_node _)
            ((ht.buckets.set idx.toNat new_node).getD j 0) _
          rw [layout_getD_set L idx.toNat j _ hi, heads_getD_set ht.buckets idx.toNat j _ hi2]
          by_cases e : j = idx.toNat
          · rw [if_pos e, if_pos e, hnil]
            exact ⟨rfl, h0, 0, Function.update_same _ _ _, rfl⟩
          · rw [if_neg e, if_neg e]
            refine mem_is_seg_congr ht.heap _ _ _ _ (fun a ha => ?_) (hv.chains j hj2)
            exact Function.update_noteq (hlive a (layout_mem_addr L j a ha)) _ _
      · rw [table_of_set ht
          ⟨Function.update ht.heap new_node (some ⟨key.take 63, value, 0⟩),
            ht.buckets.set idx.toNat new_node, ht.capacity, ht.count + 1⟩ L idx _ rfl]
        simp
      · intro a _ hne
        exact Function.update_noteq hne _ _
    · have hne : L.getD idx.toNat [] ≠ [] := by
        intro e
        rw [e] at hch
        exact hhead hch
      rcases List.eq_nil_or_concat (L.getD idx.toNat []) with e | ⟨pre, c, e⟩
      · exact absurd e hne
      · rw [List.concat_eq_append] at e
        rw [e] at hch hnd hlen
        obtain ⟨r, hseg1, hr, hc0, next, hh, hnext⟩ :=
          (mem_is_seg_append ht.heap pre [c] _ 0).1 hch
        subst hr
        have hn0 : next = 0 := hnext
        subst hn0
        have hcL : c.1 ∈ L.flatten.map Prod.fst := by
          apply layout_mem_addr L idx.toNat
          rw [e]
          simp
        have hcn : c.1 ≠ new_node := hlive c.1 hcL
        simp only [List.map_append, List.map_cons, List.map_nil] at hnd
        obtain ⟨-, -, hdisj⟩ := List.nodup_append.1 hnd
        have hpre : ∀ a ∈ pre.map Prod.fst, a ≠ c.1 :=
          fun a ha e2 => hdisj ha (by rw [e2]; exact List.mem_singleton_self _)
        have hpreL : ∀ a ∈ pre.map Prod.fst, a ≠ new_node := by
          intro a ha
          apply hlive
          apply layout_mem_addr L idx.toNat
          rw [e]
          simp only [List.map_append, List.mem_append]
          exact Or.inl ha
        have hch1 : Mem.is_chain (Function.update ht.heap new_node
            (some ⟨key.take 63, value, 0⟩)) (ht.buckets.getD idx.toNat 0) (pre ++ [c]) := by
          refine mem_is_seg_congr ht.heap _ _ _ _ (fun a ha => ?_) hch
          apply Function.update_noteq
          apply hlive
          apply layout_mem_addr L idx.toNat
          rw [e]
          exact ha
        have htail := mem_tail_loop_eq _ pre c n _ hch1
          (by simp only [List.length_append, List.length_singleton] at hlen; omega)
        have hstore : Mem.store (Function.update ht.heap new_node
            (some ⟨key.take 63, value, 0⟩)) c.1 (fun node => { node with next := new_node }) =
            Function.update (Function.update ht.heap new_node
              (some ⟨key.take 63, value, 0⟩)) c.1 (some ⟨c.2.key, c.2.value, new_node⟩) := by
          unfold Mem.store
          rw [Function.update_noteq hcn, hh]
        refine ⟨⟨Function.update (Function.update ht.heap new_node
            (some ⟨key.take 63, value, 0⟩)) c.1 (some ⟨c.2.key, c.2.value, new_node⟩),
          ht.buckets, ht.capacity, ht.count + 1⟩,
          L.set idx.toNat (L.getD idx.toNat [] ++ [(new_node, ⟨key.take 63, value⟩)]),
          ?_, ?_, ?_, ?_, haddr⟩
        · rw [mem_insert_of_tail ht key value new_node n idx c.1 hhash hfind h0 hhead htail,
            hstore]
        · refine ⟨hv.cap_pos, hv.cap_int, hv.len, ?_, ?_, hsep, hshort⟩
          · rw [List.length_set]; exact hv.len_layout
          · intro j hj
            show Mem.is_chain (Function.update (Function.update ht.heap new_node _) c.1 _)
              (ht.buckets.getD j 0) _
            rw [layout_getD_set L idx.toNat j _ hi]
            by_cases e3 : j = idx.toNat
            · rw [if_pos e3, e3, e, List.append_assoc]
              refine (mem_is_seg_append _ pre _ _ 0).2 ⟨c.1, ?_, rfl, hc0, new_node, ?_,
                rfl, h0, 0, ?_, rfl⟩
              · refine mem_is_seg_congr ht.heap _ pre _ _ (fun a ha => ?_) hseg1
                rw [Function.update_noteq (hpre a ha), Function.update_noteq (hpreL a ha)]
              · exact Function.update_same _ _ _
              · rw [Function.update_noteq (fun e4 => hcn e4.symm)]
                exact Function.update_same _ _ _
            · rw [if_neg e3]
              refine mem_is_seg_congr ht.heap _ _ _ _ (fun a ha => ?_) (hv.chains j hj)
              rw [Function.update_noteq, Function.update_noteq]
              · exact hlive a (layout_mem_addr L j a ha)
              · intro e4
                refine layout_disjoint L hv.separate j idx.toNat a e3 ha ?_
                rw [e, e4]
                simp
        · rw [table_of_set ht
            ⟨Function.update (Function.update ht.heap new_node
              (some ⟨key.take 63, value, 0⟩)) c.1 (some ⟨c.2.key, c.2.value, new_node⟩),
              ht.buckets, ht.capacity, ht.count + 1⟩ L idx _ rfl]
          simp
        · intro a ha hne2
          show Function.update (Function.update ht.heap new_node _) c.1 _ a = ht.heap a
          rw [Function.update_noteq (fun e4 => ha (by rw [e4]; exact hcL)),
            Function.update_noteq hne2]

theorem mem_insert_ok (ht : Mem.HashTable) (L : List (List (Nat × Node)))
    (key : List Nat) (value : Int) (new_node n : Nat) (hv : Mem.Valid ht L)
    (hnew : new_node = 0 ∨ ht.heap new_node = none)
    (hk : key.length < n) (hl : L.flatten.length < n) :
    ∃ ht1 L1,
      Mem.insert ht key value new_node n =
        some ((insert (Mem.table_of ht L) key value (decide (new_node ≠ 0))).1, ht1) ∧
      Mem.Valid ht1 L1 ∧
      Mem.table_of ht1 L1 =
        (insert (Mem.table_of ht L) key value (decide (new_node ≠ 0))).2 ∧
      (∀ a, a ∉ L.flatten.map Prod.fst → a ≠ new_node → ht1.heap a = ht.heap a) ∧
      (∀ a ∈ L1.flatten.map Prod.fst,
        a ∈ L.flatten.map Prod.fst ∨ (a = new_node ∧ new_node ≠ 0)) := by
  by_cases hmem :
    key ∈ (L.getD (hash_function key ht.capacity).toNat []).map (fun c => c.2.key)
  · obtain ⟨ht1, L1, h1, h2, h3, h4, h5⟩ :=
      mem_insert_overwrite ht L key value new_node n (decide (new_node ≠ 0)) hv hk hl hmem
    exact ⟨ht1, L1, h1, h2, h3, fun a ha _ => h4 a ha, fun a ha => Or.inl (h5 a ha)⟩
  · exact mem_insert_absent ht L key value new_node n hv hnew hk hl hmem

/-! ## `delete_key` in memory against `delete_key` on lists -/

theorem mem_delete_key_ok (ht : Mem.HashTable) (L : List (List (Nat × Node)))
    (key : List Nat) (n : Nat) (hv : Mem.Valid ht L)
    (hk : key.length < n) (hl : L.flatten.length < n) :
    ∃ ht1 L1,
      Mem.delete_key ht key n = some ((delete_key (Mem.table_of ht L) key).1, ht1) ∧
      Mem.Valid ht1 L1 ∧
      Mem.table_of ht1 L1 = (delete_key (Mem.table_of ht L) key).2 := by
  obtain ⟨hi, hlen, hb⟩ := mem_valid_idx ht L hv key
  have hhash := mem_hash_function_eq key ht.capacity n hk
  have hi2 : (hash_function key ht.capacity).toNat < ht.buckets.length := by
    rw [← hv.len_layout]; exact hi
  have hch := hv.chains _ hi2
  have hnd := layout_nodup_chain L hv.separate (hash_function key ht.capacity).toNat
  by_cases hmem :
    key ∈ (L.getD (hash_function key ht.capacity).toNat []).map (fun c => c.2.key)
  · obtain ⟨idx, hidx⟩ : ∃ idx, hash_function key ht.capacity = idx := ⟨_, rfl⟩
    rw [hidx] at hi hlen hb hhash hi2 hch hnd hmem
    obtain ⟨pre, c, post, hsplit, hx, hpre⟩ := exists_first_key key _ hmem
    rw [hsplit] at hch hnd hlen hb
    have hplen : pre.length < n := by
      simp only [List.length_append, List.length_cons] at hlen
      omega
    have hloop := mem_delete_loop_found ht.heap key pre post c n 0 _ 0 hch hplen hpre hx
    obtain ⟨r, hseg1, hr, hc0, next, hh, hseg2⟩ :=
      (mem_is_seg_append ht.heap pre (c :: post) _ 0).1 hch
    subst hr
    simp only [List.map_append, List.map_cons] at hnd
    obtain ⟨hndpre, hnd2, hdisj⟩ := List.nodup_append.1 hnd
    have hcpre : ∀ a ∈ pre.map Prod.fst, a ≠ c.1 :=
      fun a ha e => hdisj ha (by rw [e]; exact List.mem_cons_self _ _)
    have hcpost : ∀ a ∈ post.map Prod.fst, a ≠ c.1 :=
      fun a ha e => (List.nodup_cons.1 hnd2).1 (by rw [← e]; exact ha)
    have hprepost : ∀ a ∈ pre.map Prod.fst, a ∉ post.map Prod.fst :=
      fun a ha hp => hdisj ha (List.mem_cons_of_mem _ hp)
    have hins : delete_key (Mem.table_of ht L) key =
        (SUCCESS, ⟨set_bucket (Mem.table_of ht L).buckets idx
          ((pre ++ post).map Prod.snd), ht.capacity, ht.count - 1⟩) := by
      have hw : delete_walk key (bucket_at (Mem.table_of ht L).buckets idx) =
          some ((pre ++ post).map Prod.snd) := by
        rw [hb]
        simp only [List.map_append, List.map_cons]
        exact delete_walk_split key (pre.map Prod.snd) (post.map Prod.snd) c.2
          (by rw [keys_map_snd]; exact hpre) hx
      subst hidx
      exact delete_key_of_some (Mem.table_of ht L) key _ hw
    rw [hins]
    have hother : ∀ j, j ≠ idx.toNat → ∀ a ∈ (L.getD j []).map Prod.fst,
        a ∉ (pre ++ c :: post).map Prod.fst := by
      intro j hj a ha
      rw [← hsplit]
      exact layout_disjoint L hv.separate j idx.toNat a hj ha
    have hsep : ((L.set idx.toNat (pre ++ post)).flatten.map Prod.fst).Nodup := by
      apply layout_nodup_set_sublist L idx.toNat _ hi hv.separate
      rw [hsplit]
      simp only [List.map_append, List.map_cons]
      exact (List.Sublist.refl _).append (List.sublist_cons_self _ _)
    have hshort : ∀ x ∈ (L.set idx.toNat (pre ++ post)).flatten, x.2.key.length ≤ 63 := by
      intro x hxm
      rcases layout_mem_set L idx.toNat _ hi x hxm with h1 | h1
      · apply hv.short
        rw [layout_flatten_split L idx.toNat hi, hsplit]
        simp only [List.mem_append, List.mem_cons] at h1 ⊢
        rcases h1 with h1 | h1
        · exact Or.inr (Or.inl (Or.inl h1))
        · exact Or.inr (Or.inl (Or.inr (Or.inr h1)))
      · exact hv.short x h1
    rcases List.eq_nil_or_concat pre with e | ⟨pre2, x, e⟩
    · subst e
      have hhead : ht.buckets.getD idx.toNat 0 = c.1 := hseg1
      refine ⟨⟨Function.update ht.heap c.1 none, ht.buckets.set idx.toNat next, ht.capacity,
        ht.count - 1⟩, L.set idx.toNat ([] ++ post), ?_, ?_, ?_⟩
      · exact mem_delete_key_of_head ht key n idx c.1 _ hhash hloop hc0 hh
      · refine ⟨hv.cap_pos, hv.cap_int, ?_, ?_, ?_, hsep, hshort⟩
        · show (ht.buckets.set idx.toNat next).length = _
          rw [List.length_set]; exact hv.len
        · show _ = (ht.buckets.set idx.toNat next).length
          rw [List.length_set, List.length_set]; exact hv.len_layout
        · intro j hj
          have hj2 : j < ht.buckets.length := by
            have : j < (ht.buckets.set idx.toNat next).length := hj
            rwa [List.length_set] at this
          show Mem.is_chain (Function.update ht.heap c.1 none)
            ((ht.buckets.set idx.toNat next).getD j 0) _
          rw [layout_getD_set L idx.toNat j _ hi, heads_getD_set ht.buckets idx.toNat j _ hi2]
          by_cases e : j = idx.toNat
          · rw [if_pos e, if_pos e]
            exact mem_is_seg_congr ht.heap _ post _ _
              (fun a ha => Function.update_noteq (hcpost a ha) _ _) hseg2
          · rw [if_neg e, if_neg e]
            refine mem_is_seg_congr ht.heap _ _ _ _ (fun a ha => ?_) (hv.chains j hj2)
            apply Function.update_noteq
            intro e2
            apply hother j e a ha
            rw [e2]
            simp
      · rw [table_of_set ht
          ⟨Function.update ht.heap c.1 none, ht.buckets.set idx.toNat next, ht.capacity,
            ht.count - 1⟩ L idx _ rfl]
    · rw [List.concat_eq_append] at e
      subst e
      obtain ⟨r, hseg3, hr, hx0, nx, hhx, hnx⟩ :=
        (mem_is_seg_append ht.heap pre2 [x] _ c.1).1 hseg1
      subst hr
      have hnx2 : nx = c.1 := hnx
      subst hnx2
      have hlast : (List.map Prod.fst (pre2 ++ [x])).getLastD 0 = x.1 := by
        rw [List.map_append]
        exact List.getLastD_concat _ _ _
      rw [hlast] at hloop
      have hxc : x.1 ≠ c.1 := hcpre x.1 (by simp)
      have hstore : Mem.store ht.heap x.1
          (fun p => { p with next := (⟨c.2.key, c.2.value, next⟩ : Mem.Node).next }) =
          Function.update ht.heap x.1 (some ⟨x.2.key, x.2.value, next⟩) := by
        unfold Mem.store
        rw [hhx]
      simp only [List.map_append, List.map_cons, List.map_nil] at hndpre
      obtain ⟨-, -, hdisj2⟩ := List.nodup_append.1 hndpre
      have hpre2x : ∀ a ∈ pre2.map Prod.fst, a ≠ x.1 :=
        fun a ha e => hdisj2 ha (by rw [e]; exact List.mem_singleton_self _)
      refine ⟨⟨Function.update (Function.update ht.heap x.1
          (some ⟨x.2.key, x.2.value, next⟩)) c.1 none, ht.buckets, ht.capacity, ht.count - 1⟩,
        L.set idx.toNat (pre2 ++ [x] ++ post), ?_, ?_, ?_⟩
      · rw [mem_delete_key_of_prev ht key n idx x.1 c.1 _ hhash hloop hc0 hh hx0, hstore]
      · refine ⟨hv.cap_pos, hv.cap_int, hv.len, ?_, ?_, hsep, hshort⟩
        · rw [List.length_set]; exact hv.len_layout
        · intro j hj
          show Mem.is_chain (Function.update (Function.update ht.heap x.1 _) c.1 none)
            (ht.buckets.getD j 0) _
          rw [layout_getD_set L idx.toNat j _ hi]
          by_cases e : j = idx.toNat
          · rw [if_pos e, e, List.append_assoc]
            refine (mem_is_seg_append _ pre2 _ _ 0).2 ⟨x.1, ?_, rfl, hx0, next, ?_, ?_⟩
            · refine mem_is_seg_congr ht.heap _ pre2 _ _ (fun a ha => ?_) hseg3
              rw [Function.update_noteq (hcpre a (by simp [ha])),
                Function.update_noteq (hpre2x a ha)]
            · rw [Function.update_noteq hxc]
              exact Function.update_same _ _ _
            · refine mem_is_seg_congr ht.heap _ post _ _ (fun a ha => ?_) hseg2
              rw [Function.update_noteq (hcpost a ha), Function.update_noteq]
              intro e2
              exact hprepost x.1 (by simp) (by rw [← e2]; exact ha)
          · rw [if_neg e]
            refine mem_is_seg_congr ht.heap _ _ _ _ (fun a ha => ?_) (hv.chains j hj)
            rw [Function.update_noteq, Function.update_noteq]
            · intro e2
              apply hother j e a ha
              rw [e2]
              simp
            · intro e2
              apply hother j e a ha
              rw [e2]
              simp
      · rw [table_of_set ht
          ⟨Function.update (Function.update ht.heap x.1
            (some ⟨x.2.key, x.2.value, next⟩)) c.1 none, ht.buckets, ht.capacity,
            ht.count - 1⟩ L idx _ rfl]
  · have hw : delete_walk key (bucket_at (Mem.table_of ht L).buckets
        (hash_function key ht.capacity)) = none := by
      rw [hb]
      apply (delete_walk_none_iff key _).2
      rw [keys_map_snd]
      exact hmem
    obtain ⟨last, hloop⟩ := mem_delete_loop_absent ht.heap key _ n 0 _ hch (by omega) hmem
    refine ⟨ht, L, ?_, hv, ?_⟩
    · rw [mem_delete_key_of_null ht key n _ last hhash hloop,
        delete_key_of_none (Mem.table_of ht L) key hw]
    · rw [delete_key_of_none (Mem.table_of ht L) key hw]

/-! ## `rehash_table` in memory against `rehash_table` on lists -/

theorem migrate_chain_zip (l : List Node) (bs : List Bool) (t : HashTable)
    (hb : bs.length = l.length) :
    (migrate_chain l t (fun i => bs.getD i true)).1 =
      (l.zip bs).foldl (fun t x => (insert t x.1.key x.1.value x.2).2) t := by
  induction l generalizing bs t with
  | nil => rfl
  | cons a l ih =>
    cases bs with
    | nil => simp at hb
    | cons b bs =>
      show (migrate_chain l (insert t a.key a.value b).2 (fun i => bs.getD i true)).1 = _
      rw [ih bs _ (by simpa using hb)]
      rfl

theorem mem_migrate_chain_ok (malloc : Nat → Mem.Heap → Nat)
    (hmalloc : Mem.is_allocator malloc) (n : Nat) (P : List Nat) (cs : List (Nat × Node)) :
    ∀ (fuel curr : Nat) (ht : Mem.HashTable) (L : List (List (Nat × Node))) (k : Nat),
      Mem.Valid ht L → Mem.is_chain ht.heap curr cs → (cs.map Prod.fst).Nodup →
      (∀ a ∈ cs.map Prod.fst, a ∉ L.flatten.map Prod.fst) →
      (∀ a ∈ P, a ∉ cs.map Prod.fst ∧ a ∉ L.flatten.map Prod.fst ∧ a ≠ 0 ∧
        ht.heap a ≠ none) →
      (∀ c ∈ cs, c.2.key.length ≤ 63) →
      cs.length < fuel → L.flatten.length + cs.length + 64 ≤ n →
      ∃ ht1 L1 bs,
        Mem.migrate_chain malloc n fuel curr ht k = some (ht1, k + cs.length) ∧
        Mem.Valid ht1 L1 ∧ bs.length = cs.length ∧
        Mem.table_of ht1 L1 =
          ((cs.map Prod.snd).zip bs).foldl (fun t x => (insert t x.1.key x.1.value x.2).2)
            (Mem.table_of ht L) ∧
        (∀ a ∈ P, a ∉ L1.flatten.map Prod.fst ∧ ht1.heap a = ht.heap a) ∧
        L1.flatten.length ≤ L.flatten.length + cs.length := by
  induction cs with
  | nil =>
    intro fuel curr ht L k hv hch _ _ hP _ hf _
    cases fuel with
    | zero => simp at hf
    | succ fuel =>
      have e : curr = 0 := hch
      refine ⟨ht, L, [], ?_, hv, rfl, rfl, fun a ha => ⟨(hP a ha).2.1, rfl⟩, Nat.le_refl _⟩
      unfold Mem.migrate_chain
      rw [if_pos e]
      rfl
  | cons c rest ih =>
    intro fuel curr ht L k hv hch hnd hdis hP hshort hf hn
    cases fuel with
    | zero => simp at hf
    | succ fuel =>
      obtain ⟨hp, hp0, next, hh, hr⟩ := hch
      simp only [List.map_cons, List.nodup_cons] at hnd
      have hclen : c.2.key.length ≤ 63 := hshort c (List.mem_cons_self _ _)
      have hnew := hmalloc k ht.heap
      obtain ⟨ht1, L1, hins, hv1, htab, hframe, haddr⟩ :=
        mem_insert_ok ht L c.2.key c.2.value (malloc k ht.heap) n hv hnew (by omega) (by omega)
      have hcurr_live : ht.heap curr ≠ none := by rw [hh]; simp
      have hcurrL : curr ∉ L.flatten.map Prod.fst :=
        hdis curr (by rw [hp]; exact List.mem_cons_self _ _)
      have hcurr_new : curr ≠ malloc k ht.heap := mem_fresh_ne ht.heap _ _ hcurr_live hnew hp0
      have hcurrL1 : curr ∉ L1.flatten.map Prod.fst := by
        intro h
        rcases haddr curr h with h1 | h1
        · exact hcurrL h1
        · exact hcurr_new h1.1
      have hrest_live := mem_is_seg_live ht.heap rest next 0 hr
      have hrest_eq : ∀ a ∈ rest.map Prod.fst,
          Function.update ht1.heap curr none a = ht.heap a := by
        intro a ha
        have hane : a ≠ curr := by
          intro e
          apply hnd.1
          rw [← hp, ← e]
          exact ha
        rw [Function.update_noteq hane]
        apply hframe a (hdis a (List.mem_cons_of_mem _ ha))
        exact mem_fresh_ne ht.heap _ _ (hrest_live a ha).2 hnew (hrest_live a ha).1
      have hv2 : Mem.Valid ⟨Function.update ht1.heap curr none, ht1.buckets, ht1.capacity,
          ht1.count⟩ L1 :=
        mem_valid_congr ht1 L1 _ hv1
          (fun a ha => Function.update_noteq (fun e => hcurrL1 (by rw [← e]; exact ha)) _ _)
      have hdis2 : ∀ a ∈ rest.map Prod.fst, a ∉ L1.flatten.map Prod.fst := by
        intro a ha h
        rcases haddr a h with h1 | h1
        · exact hdis a (List.mem_cons_of_mem _ ha) h1
        · exact mem_fresh_ne ht.heap _ _ (hrest_live a ha).2 hnew (hrest_live a ha).1 h1.1
      have hP2 : ∀ a ∈ P, a ∉ rest.map Prod.fst ∧ a ∉ L1.flatten.map Prod.fst ∧ a ≠ 0 ∧
          Function.update ht1.heap curr none a ≠ none := by
        intro a ha
        obtain ⟨h1, h2, h3, h4⟩ := hP a ha
        have hane : a ≠ malloc k ht.heap := mem_fresh_ne ht.heap _ _ h4 hnew h3
        refine ⟨fun h => h1 (List.mem_cons_of_mem _ h), ?_, h3, ?_⟩
        · intro h
          rcases haddr a h with h5 | h5
          · exact h2 h5
          · exact hane h5.1
        · rw [Function.update_noteq (fun e => h1 (by rw [e, hp]; exact List.mem_cons_self _ _)),
            hframe a h2 hane]
          exact h4
      have hlen1 : L1.flatten.length ≤ L.flatten.length + 1 := by
        have h1 := length_entries_insert_le (Mem.table_of ht L) c.2.key c.2.value
          (decide (malloc k ht.heap ≠ 0))
        rw [← htab, entries_table_of, entries_table_of, List.length_map, List.length_map] at h1
        exact h1
      obtain ⟨ht3, L3, bs, hmig, hv3, hbl, htab3, hP3, hlen3⟩ :=
        ih fuel next ⟨Function.update ht1.heap curr none, ht1.buckets, ht1.capacity, ht1.count⟩
          L1 (k + 1) hv2
          (mem_is_seg_congr ht.heap _ rest next 0 hrest_eq hr) hnd.2 hdis2 hP2
          (fun x hx => hshort x (List.mem_cons_of_mem _ hx))
          (by simpa using hf)
          (by simp only [List.length_cons] at hn; omega)
      refine ⟨ht3, L3, decide (malloc k ht.heap ≠ 0) :: bs, ?_, hv3, by simp [hbl], ?_, ?_, ?_⟩
      · unfold Mem.migrate_chain
        rw [if_neg hp0, hh]
        simp only
        rw [hins]
        simp only
        rw [hmig]
        simp only [List.length_cons]
        congr 2
        omega
      · rw [htab3]
        simp only [List.map_cons, List.zip_cons_cons, List.foldl_cons]
        rw [← htab]
        rfl
      · intro a ha
        obtain ⟨h1, h2, h3, h4⟩ := hP a ha
        refine ⟨(hP3 a ha).1, ?_⟩
        rw [(hP3 a ha).2]
        show Function.update ht1.heap curr none a = ht.heap a
        rw [Function.update_noteq (fun e => h1 (by rw [e, hp]; exact List.mem_cons_self _ _))]
        exact hframe a h2 (mem_fresh_ne ht.heap _ _ h4 hnew h3)
      · simp only [List.length_cons]
        omega

theorem forall2_chain_congr (heap heap2 : Mem.Heap) (heads : List Nat)
    (css : List (List (Nat × Node)))
    (h : ∀ a ∈ css.flatten.map Prod.fst, heap2 a = heap a)
    (hf : List.Forall₂ (fun hd cs => Mem.is_chain heap hd cs) heads css) :
    List.Forall₂ (fun hd cs => Mem.is_chain heap2 hd cs) heads css := by
  induction hf with
  | nil => exact List.Forall₂.nil
  | cons hd tl ih =>
    refine List.Forall₂.cons ?_ (ih (fun a ha => h a ?_))
    · refine mem_is_seg_congr heap heap2 _ _ _ (fun a ha => h a ?_) hd
      simp only [List.flatten_cons, List.map_append, List.mem_append]
      exact Or.inl ha
    · simp only [List.flatten_cons, List.map_append, List.mem_append]
      exact Or.inr ha

theorem forall2_chain_live (heap : Mem.Heap) (heads : List Nat)
    (css : List (List (Nat × Node)))
    (hf : List.Forall₂ (fun hd cs => Mem.is_chain heap hd cs) heads css) :
    ∀ a ∈ css.flatten.map Prod.fst, a ≠ 0 ∧ heap a ≠ none := by
  induction hf with
  | nil => intro a ha; simp at ha
  | cons hd tl ih =>
    intro a ha
    simp only [List.flatten_cons, List.map_append, List.mem_append] at ha
    rcases ha with ha | ha
    · exact mem_is_seg_live heap _ _ _ hd a ha
    · exact ih a ha

theorem mem_migrate_buckets_ok (malloc : Nat → Mem.Heap → Nat)
    (hmalloc : Mem.is_allocator malloc) (n : Nat) (old_buckets : List Nat)
    (old_capacity : Int) (Lo : List (List (Nat × Node)))
    (hcap : old_capacity.toNat = Lo.length) (hcap0 : 0 ≤ old_capacity)
    (hlen : old_buckets.length = Lo.length) (d : Nat) :
    ∀ (i fuel : Nat) (ht : Mem.HashTable) (L : List (List (Nat × Node))) (k : Nat),
      Lo.length - i = d → i ≤ Lo.length → d < fuel → Mem.Valid ht L →
      List.Forall₂ (fun hd cs => Mem.is_chain ht.heap hd cs) (old_buckets.drop i)
        (Lo.drop i) →
      ((Lo.drop i).flatten.map Prod.fst).Nodup →
      (∀ a ∈ (Lo.drop i).flatten.map Prod.fst, a ∉ L.flatten.map Prod.fst) →
      (∀ c ∈ (Lo.drop i).flatten, c.2.key.length ≤ 63) →
      L.flatten.length + (Lo.drop i).flatten.length + 64 ≤ n →
      ∃ ht1 L1 bs k1,
        Mem.migrate_buckets old_buckets old_capacity malloc n fuel i ht k = some (ht1, k1) ∧
        Mem.Valid ht1 L1 ∧ bs.length = (Lo.drop i).flatten.length ∧
        Mem.table_of ht1 L1 =
          (((Lo.drop i).flatten.map Prod.snd).zip bs).foldl
            (fun t x => (insert t x.1.key x.1.value x.2).2) (Mem.table_of ht L) := by
  induction d with
  | zero =>
    intro i fuel ht L k hd hi hf hv _ _ _ _ _
    cases fuel with
    | zero => simp at hf
    | succ fuel =>
      have e : i = Lo.length := by omega
      have hdrop : Lo.drop i = [] := List.drop_of_length_le (by omega)
      refine ⟨ht, L, [], k, ?_, hv, by rw [hdrop]; rfl, by rw [hdrop]; rfl⟩
      unfold Mem.migrate_buckets
      rw [if_neg (by omega)]
  | succ d ih =>
    intro i fuel ht L k hd hi hf hv hch hnd hdis hshort hn
    cases fuel with
    | zero => simp at hf
    | succ fuel =>
      have hi2 : i < Lo.length := by omega
      have hi3 : i < old_buckets.length := by omega
      rw [List.drop_eq_getElem_cons hi2] at hch hnd hdis hshort hn ⊢
      rw [List.drop_eq_getElem_cons hi3] at hch
      obtain ⟨hhead, hrest⟩ := List.forall₂_cons.1 hch
      simp only [List.flatten_cons, List.map_append, List.length_append] at hnd hdis hshort hn ⊢
      obtain ⟨hnd1, hnd2, hdisj⟩ := List.nodup_append.1 hnd
      have hlive := forall2_chain_live ht.heap _ _ hrest
      obtain ⟨ht1, L1, bs1, hmig, hv1, hbl1, htab1, hP1, hlen1⟩ :=
        mem_migrate_chain_ok malloc hmalloc n ((Lo.drop (i + 1)).flatten.map Prod.fst)
          Lo[i] n old_buckets[i] ht L k hv hhead hnd1
          (fun a ha => hdis a (List.mem_append.2 (Or.inl ha)))
          (fun a ha => ⟨fun h => hdisj h ha, hdis a (List.mem_append.2 (Or.inr ha)),
            hlive a ha⟩)
          (fun c hc => hshort c (List.mem_append.2 (Or.inl hc)))
          (by omega) (by omega)
      obtain ⟨ht2, L2, bs2, k2, hmig2, hv2, hbl2, htab2⟩ :=
        ih (i + 1) fuel ht1 L1 (k + Lo[i].length) (by omega) (by omega) (by omega) hv1
          (forall2_chain_congr ht.heap ht1.heap _ _ (fun a ha => (hP1 a ha).2) hrest)
          hnd2 (fun a ha => (hP1 a ha).1)
          (fun c hc => hshort c (List.mem_append.2 (Or.inr hc)))
          (by omega)
      refine ⟨ht2, L2, bs1 ++ bs2, k2, ?_, hv2, ?_, ?_⟩
      · unfold Mem.migrate_buckets
        rw [if_pos (by omega)]
        have hb : Mem.bucket_at old_buckets (i : Int) = old_buckets[i] := by
          unfold Mem.bucket_at
          rw [Int.toNat_ofNat, List.getD_eq_getElem _ _ hi3]
        rw [hb, hmig]
        exact hmig2
      · rw [List.length_append, hbl1, hbl2]
      · rw [htab2, htab1, List.zip_append (by rw [List.length_map, hbl1]), List.foldl_append]

theorem mem_valid_empty (heap : Mem.Heap) (c : Int) (h0 : 0 < c) (h1 : c ≤ 2147483647) :
    Mem.Valid ⟨heap, List.replicate c.toNat 0, c, 0⟩ (List.replicate c.toNat []) := by
  refine ⟨h0, h1, by simp, by simp, ?_, by simp, by simp⟩
  intro i hi
  have hi2 : i < c.toNat := by simpa using hi
  show Mem.is_chain heap ((List.replicate c.toNat 0).getD i 0)
    ((List.replicate c.toNat []).getD i [])
  rw [List.getD_eq_getElem _ _ (by simpa using hi2), List.getD_eq_getElem _ _ (by simpa using hi2),
    List.getElem_replicate, List.getElem_replicate]
  rfl

theorem mem_valid_forall2 (ht : Mem.HashTable) (L : List (List (Nat × Node)))
    (hv : Mem.Valid ht L) :
    List.Forall₂ (fun hd cs => Mem.is_chain ht.heap hd cs) ht.buckets L := by
  apply List.forall₂_iff_get.2
  refine ⟨hv.len_layout.symm, fun i h1 h2 => ?_⟩
  have := hv.chains i h1
  rw [List.getD_eq_getElem _ _ h1, List.getD_eq_getElem _ _ h2] at this
  rw [List.get_eq_getElem, List.get_eq_getElem]
  exact this

theorem mem_rehash_table_ok (ht : Mem.HashTable) (L : List (List (Nat × Node)))
    (calloc_ok : Bool) (malloc : Nat → Mem.Heap → Nat) (n : Nat) (hv : Mem.Valid ht L)
    (hmalloc : Mem.is_allocator malloc) (hn : L.length + L.flatten.length + 64 ≤ n) :
    ∃ ht1 L1 m,
      Mem.rehash_table ht calloc_ok malloc n =
        some ((rehash_table (Mem.table_of ht L) calloc_ok m).1, ht1) ∧
      Mem.Valid ht1 L1 ∧
      Mem.table_of ht1 L1 = (rehash_table (Mem.table_of ht L) calloc_ok m).2 := by
  by_cases hc : calloc_ok = true ∧ 0 ≤ wrap_int (ht.capacity * 2)
  · have hw := wrap_double_pos ht.capacity hv.cap_pos hv.cap_int hc.2
    have hpos := hv.cap_pos
    have hcm : Mem.calloc_buckets (wrap_int (ht.capacity * 2)) calloc_ok =
        some (List.replicate (wrap_int (ht.capacity * 2)).toNat 0) := by
      unfold Mem.calloc_buckets
      rw [if_pos hc]
    have hcl : calloc_buckets (wrap_int ((Mem.table_of ht L).capacity * 2)) calloc_ok =
        some (List.replicate (wrap_int (ht.capacity * 2)).toNat []) := by
      show calloc_buckets (wrap_int (ht.capacity * 2)) calloc_ok = _
      unfold calloc_buckets
      rw [if_pos hc]
    have hv0 := mem_valid_empty ht.heap (wrap_int (ht.capacity * 2)) (by omega) (by omega)
    have hcap : ht.capacity.toNat = L.length := by rw [hv.len_layout, hv.len]
    obtain ⟨ht1, L1, bs, k1, hmig, hv1, hbl, htab⟩ :=
      mem_migrate_buckets_ok malloc hmalloc n ht.buckets ht.capacity L hcap (by omega)
        hv.len_layout.symm L.length 0 n
        ⟨ht.heap, List.replicate (wrap_int (ht.capacity * 2)).toNat 0,
          wrap_int (ht.capacity * 2), 0⟩
        (List.replicate (wrap_int (ht.capacity * 2)).toNat []) 0 (by omega) (by omega)
        (by omega) hv0 (mem_valid_forall2 ht L hv) hv.separate
        (fun a _ h => by simp at h) hv.short
        (by
          rw [List.flatten_replicate_nil]
          show 0 + L.flatten.length + 64 ≤ n
          omega)
    rw [List.drop_zero] at hbl htab
    refine ⟨ht1, L1, fun i => bs.getD i true, ?_, hv1, ?_⟩
    · rw [rehash_table_of_ok (Mem.table_of ht L) calloc_ok _ _ hcl]
      unfold Mem.rehash_table
      simp only [hcm, hmig]
    · rw [rehash_table_of_ok (Mem.table_of ht L) calloc_ok _ _ hcl, htab,
        migrate_buckets_eq_chain]
      have hlenA : (Mem.table_of ht L).capacity.toNat = (Mem.table_of ht L).buckets.length := by
        show ht.capacity.toNat = (L.map _).length
        rw [List.length_map, hcap]
      rw [hlenA, map_bucket_at_range]
      have hflat : (Mem.table_of ht L).buckets.flatten = L.flatten.map Prod.snd :=
        entries_table_of ht L
      rw [hflat, migrate_chain_zip _ bs _ (by rw [hbl, List.length_map])]
      simp [Mem.table_of]
  · have hcm : Mem.calloc_buckets (wrap_int (ht.capacity * 2)) calloc_ok = none := by
      unfold Mem.calloc_buckets
      rw [if_neg hc]
    have hcl : calloc_buckets (wrap_int ((Mem.table_of ht L).capacity * 2)) calloc_ok =
        none := by
      show calloc_buckets (wrap_int (ht.capacity * 2)) calloc_ok = _
      unfold calloc_buckets
      rw [if_neg hc]
    refine ⟨ht, L, fun _ => true, ?_, hv, ?_⟩
    · rw [rehash_table_of_fail (Mem.table_of ht L) calloc_ok _ hcl]
      unfold Mem.rehash_table
      simp only [hcm]
    · rw [rehash_table_of_fail (Mem.table_of ht L) calloc_ok _ hcl]

/-! ## `search` and the loop of `run_stats` in memory -/

theorem mem_search_ok (ht : Mem.HashTable) (L : List (List (Nat × Node)))
    (key : List Nat) (v0 : Int) (n : Nat) (hv : Mem.Valid ht L)
    (hk : key.length < n) (hl : L.flatten.length < n) :
    Mem.search ht key v0 n = some (search (Mem.table_of ht L) key v0) := by
  obtain ⟨hi, hlen, hb⟩ := mem_valid_idx ht L hv key
  have hi2 : (hash_function key ht.capacity).toNat < ht.buckets.length := by
    rw [← hv.len_layout]; exact hi
  unfold Mem.search
  rw [mem_hash_function_eq key ht.capacity n hk]
  simp only
  unfold Mem.bucket_at
  rw [mem_search_loop_eq ht.heap key v0 _ n _ (hv.chains _ hi2) (by omega)]
  unfold search
  rw [← hb]
  rfl

theorem mem_run_stats_loop_ok (ht : Mem.HashTable) (L : List (List (Nat × Node)))
    (n : Nat) (hv : Mem.Valid ht L) (hl : L.flatten.length < n) (d : Nat) :
    ∀ (i fuel : Nat) (st : Stats), L.length - i = d → i ≤ L.length → d < fuel →
      Mem.run_stats_loop ht n fuel i st =
        some ((List.range' i d).foldl (run_stats_bucket (Mem.table_of ht L).buckets) st) := by
  have hcap : ht.capacity.toNat = L.length := by rw [hv.len_layout, hv.len]
  have hpos := hv.cap_pos
  induction d with
  | zero =>
    intro i fuel st hd hi hf
    cases fuel with
    | zero => simp at hf
    | succ fuel =>
      unfold Mem.run_stats_loop
      rw [if_neg (by omega)]
      rfl
  | succ d ih =>
    intro i fuel st hd hi hf
    cases fuel with
    | zero => simp at hf
    | succ fuel =>
      have hi2 : i < L.length := by omega
      have hi3 : i < ht.buckets.length := by rw [← hv.len_layout]; exact hi2
      have hch := hv.chains i hi3
      have hb : bucket_at (Mem.table_of ht L).buckets (i : Int) =
          (L.getD i []).map Prod.snd := by
        unfold bucket_at Mem.table_of
        rw [Int.toNat_ofNat]
        exact layout_getD_map L i
      have hlen : (L.getD i []).length ≤ L.flatten.length := by
        have := congrArg List.length (layout_flatten_split L i hi2)
        simp only [List.length_append] at this
        omega
      have hhead : Mem.bucket_at ht.buckets (i : Int) = ht.buckets.getD i 0 := by
        unfold Mem.bucket_at
        rw [Int.toNat_ofNat]
      unfold Mem.run_stats_loop
      rw [if_pos (by omega), List.range'_succ, List.foldl_cons, hhead]
      by_cases h0 : ht.buckets.getD i 0 = 0
      · rw [h0] at hch
        have hnil := mem_is_chain_null ht.heap _ hch
        have hst : run_stats_bucket (Mem.table_of ht L).buckets st i = st := by
          unfold run_stats_bucket
          rw [hb, hnil]
          simp
        rw [if_neg (not_not.2 h0), hst]
        exact ih (i + 1) fuel st (by omega) (by omega) (by omega)
      · have hne : (L.getD i []).map Prod.snd ≠ [] := by
          intro e
          have e2 : L.getD i [] = [] := List.map_eq_nil_iff.1 e
          rw [e2] at hch
          exact h0 hch
        rw [if_pos h0, mem_chain_len_loop_eq ht.heap _ n _ 0 hch (by omega)]
        simp only
        rw [ih (i + 1) fuel _ (by omega) (by omega) (by omega)]
        congr 2
        unfold run_stats_bucket
        rw [hb, if_pos hne]

/-! ## Termination of the operations -/

theorem sample_mem_table_valid : Mem.Valid sample_mem_table sample_layout := by
  refine ⟨by decide, by decide, by decide, by decide, ?_, by decide, by decide⟩
  intro i hi
  have hi2 : i < 10 := hi
  interval_cases i
  · rfl
  · rfl
  · exact ⟨rfl, by decide, 2, rfl, rfl, by decide, 0, rfl, rfl⟩
  · rfl
  · rfl
  · rfl
  · rfl
  · rfl
  · rfl
  · rfl

theorem sample_malloc_is_allocator : Mem.is_allocator sample_malloc := by
  intro k heap
  unfold sample_malloc
  by_cases h : heap (k + 10) = none
  · rw [if_pos h]
    exact Or.inr h
  · rw [if_neg h]
    exact Or.inl rfl

theorem search_loop_cyclic (key : List Nat) (v0 : Int) (h : key ≠ key_cat) (fuel : Nat) :
    Mem.search_loop cyclic_heap key v0 fuel 1 = none := by
  induction fuel with
  | zero => rfl
  | succ fuel ih =>
    unfold Mem.search_loop
    have e : cyclic_heap 1 = some ⟨key_cat, 1, 1⟩ := rfl
    rw [if_neg (by decide), e]
    simp only
    rw [if_neg (fun e2 => h e2.symm)]
    exact ih

/-- Without the finiteness of the chains the walk need not end: on a table of capacity 1
whose only node points to itself, `search` of a key other than the stored one returns
within no number of iterations. -/
theorem search_cyclic_chain_never_returns (key : List Nat) (v0 : Int) (h : key ≠ key_cat)
    (n : Nat) : Mem.search cyclic_table key v0 n = none := by
  unfold Mem.search
  cases hh : Mem.hash_function key cyclic_table.capacity n with
  | none => rfl
  | some idx =>
    have hidx : idx = 0 := by
      unfold Mem.hash_function at hh
      cases hl : Mem.hash_loop key n 0 0 with
      | none => rw [hl] at hh; cases hh
      | some sum =>
        rw [hl] at hh
        simp only [Option.some.injEq] at hh
        rw [← hh]
        have e : to_unsigned cyclic_table.capacity = 1 := by decide
        rw [e, Nat.mod_one]
        decide
    rw [hidx]
    exact search_loop_cyclic key v0 h n

/-- C25: every core operation terminates.  On every table in memory with a capacity
`> 0` whose chains are finite (`Mem.Valid`: every bucket heads a chain of separately
allocated nodes that reaches `NULL`), when no loop is allowed more than `n` iterations, `n`
being at least the key length plus the number of buckets plus the number of entries plus
64, each of `hash_function`, `search`, `insert`, `delete_key`, `rehash_table` and the loop
of `run_stats` returns: with the result the operation has on the chains as lists, and, for
the three that write, with a table whose chains are finite again.  `new_node` is what the
`malloc` of `insert` returns and `malloc` is any allocator, failing or not. -/
theorem operations_terminate (ht : Mem.HashTable) (L : List (List (Nat × Node)))
    (key : List Nat) (value v0 : Int) (new_node : Nat) (calloc_ok : Bool)
    (malloc : Nat → Mem.Heap → Nat) (n : Nat) (hv : Mem.Valid ht L)
    (hnew : new_node = 0 ∨ ht.heap new_node = none) (hmalloc : Mem.is_allocator malloc)
    (hn : key.length + L.length + L.flatten.length + 64 ≤ n) :
    Mem.hash_function key ht.capacity n = some (hash_function key ht.capacity) ∧
      Mem.search ht key v0 n = some (search (Mem.table_of ht L) key v0) ∧
      (∃ ht1 L1,
        Mem.insert ht key value new_node n =
          some ((insert (Mem.table_of ht L) key value (decide (new_node ≠ 0))).1, ht1) ∧
        Mem.Valid ht1 L1 ∧
        Mem.table_of ht1 L1 =
          (insert (Mem.table_of ht L) key value (decide (new_node ≠ 0))).2) ∧
      (∃ ht1 L1,
        Mem.delete_key ht key n = some ((delete_key (Mem.table_of ht L) key).1, ht1) ∧
        Mem.Valid ht1 L1 ∧
        Mem.table_of ht1 L1 = (delete_key (Mem.table_of ht L) key).2) ∧
      (∃ ht1 L1 m,
        Mem.rehash_table ht calloc_ok malloc n =
          some ((rehash_table (Mem.table_of ht L) calloc_ok m).1, ht1) ∧
        Mem.Valid ht1 L1 ∧
        Mem.table_of ht1 L1 = (rehash_table (Mem.table_of ht L) calloc_ok m).2) ∧
      Mem.run_stats_loop ht n n 0 ⟨0, 0, 0⟩ =
        some (run_stats_loop (Mem.table_of ht L)) := by
  refine ⟨mem_hash_function_eq key ht.capacity n (by omega),
    mem_search_ok ht L key v0 n hv (by omega) (by omega), ?_,
    mem_delete_key_ok ht L key n hv (by omega) (by omega),
    mem_rehash_table_ok ht L calloc_ok malloc n hv hmalloc (by omega), ?_⟩
  · obtain ⟨ht1, L1, h1, h2, h3, -, -⟩ :=
      mem_insert_ok ht L key value new_node n hv hnew (by omega) (by omega)
    exact ⟨ht1, L1, h1, h2, h3⟩
  · rw [mem_run_stats_loop_ok ht L n hv (by omega) L.length 0 n ⟨0, 0, 0⟩ (by omega)
      (by omega) (by omega)]
    unfold run_stats_loop
    rw [List.range_eq_range']
    have hcap : (Mem.table_of ht L).capacity.toNat = L.length := by
      show ht.capacity.toNat = L.length
      rw [hv.len_layout, hv.len]
    rw [hcap]

theorem operations_terminate_witness :
    Mem.Valid sample_mem_table sample_layout ∧
      ((5 : Nat) = 0 ∨ sample_mem_table.heap 5 = none) ∧
      Mem.is_allocator sample_malloc ∧
      key_act.length + sample_layout.length + sample_layout.flatten.length + 64 ≤ 100 ∧
      Mem.table_of sample_mem_table sample_layout = table_cat_act ∧
      Mem.search sample_mem_table key_act 0 100 = some (SUCCESS, 2) ∧
      (Mem.rehash_table sample_mem_table true sample_malloc 100).map
          (fun r => (r.1, r.2.buckets, r.2.capacity, r.2.count)) =
        some (SUCCESS, [0, 0, 0, 0, 0, 0, 0, 0, 0, 0, 0, 0, 10, 0, 0, 0, 0, 0, 0, 0], 20, 2) ∧
      (Mem.rehash_table sample_mem_table true sample_malloc 2).map Prod.fst = none ∧
      (Mem.hash_function key_act sample_mem_table.capacity 100 =
          some (hash_function key_act sample_mem_table.capacity) ∧
        Mem.search sample_mem_table key_act 0 100 =
          some (search (Mem.table_of sample_mem_table sample_layout) key_act 0) ∧
        (∃ ht1 L1,
          Mem.insert sample_mem_table key_act 7 5 100 =
            some ((insert (Mem.table_of sample_mem_table sample_layout) key_act 7
              (decide ((5 : Nat) ≠ 0))).1, ht1) ∧
          Mem.Valid ht1 L1 ∧
          Mem.table_of ht1 L1 =
            (insert (Mem.table_of sample_mem_table sample_layout) key_act 7
              (decide ((5 : Nat) ≠ 0))).2) ∧
        (∃ ht1 L1,
          Mem.delete_key sample_mem_table key_act 100 =
            some ((delete_key (Mem.table_of sample_mem_table sample_layout) key_act).1, ht1) ∧
          Mem.Valid ht1 L1 ∧
          Mem.table_of ht1 L1 =
            (delete_key (Mem.table_of sample_mem_table sample_layout) key_act).2) ∧
        (∃ ht1 L1 m,
          Mem.rehash_table sample_mem_table true sample_malloc 100 =
            some ((rehash_table (Mem.table_of sample_mem_table sample_layout) true m).1,
              ht1) ∧
          Mem.Valid ht1 L1 ∧
          Mem.table_of ht1 L1 =
            (rehash_table (Mem.table_of sample_mem_table sample_layout) true m).2) ∧
        Mem.run_stats_loop sample_mem_table 100 100 0 ⟨0, 0, 0⟩ =
          some (run_stats_loop (Mem.table_of sample_mem_table sample_layout))) :=
  ⟨sample_mem_table_valid, Or.inr rfl, sample_malloc_is_allocator, by decide, by decide,
    by decide, by decide, by decide,
    operations_terminate sample_mem_table sample_layout key_act 7 0 5 true sample_malloc 100
      sample_mem_table_valid (Or.inr rfl) sample_malloc_is_allocator (by decide)⟩

end HashTableChaining
